import Mathlib

/-!
# bf-multi: compiler and execution engine of the multithreaded Brainfuck interpreter

A shallow embedding of `src/bf-multi.c`.

* `compile_bf` is the single-pass compiler: the source stream is the list of
  characters `getc` returns before `EOF`; the globals `PROGRAM`, `STACK`, `SP`
  and the local cursor `pc` are carried in `CompileState`.
* Arrays are total maps from indices to values (`Nat → _`); every write the
  compiler performs is guarded by the source (`pc < PROGRAM_SIZE`,
  `SP < STACK_SIZE`), and an instruction fetch outside `PROGRAM` by the
  execution engine is reported as `Outcome.fault`.
* `unsigned short` and `unsigned int` arithmetic is `Nat` arithmetic reduced
  modulo `2^16` and `2^32`; `short` tape cells are `Int` wrapped to sixteen bits.
* `execute_bf` is the dispatch loop of one process. `step` is the loop body;
  the value `fork()` returns to the process is a parameter (`0` in the new
  process, non-zero in the calling one), so the root context is the run in
  which every `fork()` returns non-zero, and a spawned context starts from
  the state `step 0` produces. The loop may not terminate, so `execute_loop`
  counts its condition tests against a fuel and returns `none` when it runs
  out. `Reach` is the same loop as a step relation in which other processes
  may change the shared tape and consume input between two bodies.
* `Matched`, `WellFormed` and `depth` say what balanced brackets are without
  reference to the compiler's stack.
-/

namespace BfMulti

/-! ## Constants -/

def OP_END : Nat := 0
def OP_INC_DP : Nat := 1
def OP_DEC_DP : Nat := 2
def OP_INC_VAL : Nat := 3
def OP_DEC_VAL : Nat := 4
def OP_OUT : Nat := 5
def OP_IN : Nat := 6
def OP_JMP_FWD : Nat := 7
def OP_JMP_BCK : Nat := 8
def OP_THREAD : Nat := 9
def OP_NOOP : Nat := 10
def OP_WAIT : Nat := 11
def OP_CHILD_DIE : Nat := 12

def SUCCESS : Nat := 0
def FAILURE : Nat := 1

def PROGRAM_SIZE : Nat := 4096
def STACK_SIZE : Nat := 512
def DATA_SIZE : Nat := 65535
def CHILDREN_SIZE : Nat := 20

/-- Reduction of a value to `unsigned short`. -/
def u16 (x : Nat) : Nat := x % 65536

/-- Reduction of a value to `unsigned int`. -/
def u32 (x : Nat) : Nat := x % 4294967296

/-- The struct `instruction_t`: two `unsigned short` fields. -/
structure instruction_t where
  operator : Nat
  operand : Nat
deriving DecidableEq, Repr

/-- Array store `a[i] = v` on an array seen as a map from indices. -/
def store {α : Type} (a : Nat → α) (i : Nat) (v : α) : Nat → α :=
  fun k => if k = i then v else a k

/-! ## The compiler -/

/-- The globals `PROGRAM`, `STACK`, `SP` together with the local `pc` of
`compile_bf`. -/
structure CompileState where
  PROGRAM : Nat → instruction_t
  STACK : Nat → Nat
  SP : Nat
  pc : Nat

/-- Static storage at program start: zero-filled arrays, `SP = 0`; `pc = 0` is
the initialiser of the local in `compile_bf`. -/
def CompileState.init : CompileState :=
  { PROGRAM := fun _ => ⟨0, 0⟩, STACK := fun _ => 0, SP := 0, pc := 0 }

/-- The assignment `PROGRAM[pc].operator = op`. -/
def set_operator (s : CompileState) (op : Nat) : CompileState :=
  { s with PROGRAM := store s.PROGRAM s.pc { s.PROGRAM s.pc with operator := op } }

/-- The `switch (c)` of `compile_bf`, lines 70-98. The first component is
`some r` when the case executes `return r`, and `none` when it reaches its
`break`. -/
def compile_switch (c : Char) (s : CompileState) : Option Nat × CompileState :=
  if c = '>' then (none, set_operator s OP_INC_DP)
  else if c = '<' then (none, set_operator s OP_DEC_DP)
  else if c = '+' then (none, set_operator s OP_INC_VAL)
  else if c = '-' then (none, set_operator s OP_DEC_VAL)
  else if c = '.' then (none, set_operator s OP_OUT)
  else if c = ',' then (none, set_operator s OP_IN)
  else if c = '/' then (none, set_operator s OP_THREAD)
  else if c = '%' then (none, set_operator s OP_CHILD_DIE)
  else if c = '#' then (none, set_operator s OP_NOOP)
  else if c = '!' then (none, set_operator s OP_WAIT)
  else if c = '[' then
    let s1 := set_operator s OP_JMP_FWD
    if s1.SP = STACK_SIZE then (some FAILURE, s1)
    else (none, { s1 with STACK := store s1.STACK s1.SP (u16 s1.pc), SP := u32 (s1.SP + 1) })
  else if c = ']' then
    if s.SP = 0 then (some FAILURE, s)
    else
      let sp := u32 (s.SP + 4294967295)
      let jmp_pc := s.STACK sp
      let p1 := store s.PROGRAM s.pc { s.PROGRAM s.pc with operator := OP_JMP_BCK }
      let p2 := store p1 s.pc { p1 s.pc with operand := jmp_pc }
      let p3 := store p2 jmp_pc { p2 jmp_pc with operand := s.pc }
      (none, { s with SP := sp, PROGRAM := p3 })
  else (none, { s with pc := u16 (s.pc + 65535) })

/-- The `while ((c = getc(fp)) != EOF && pc < PROGRAM_SIZE)` loop, lines 69-100.
The list holds the characters still to be read. The first component is
`some r` when the body returned `r`, `none` when the loop condition failed. -/
def compile_loop : List Char → CompileState → Option Nat × CompileState
  | [], s => (none, s)
  | c :: cs, s =>
    if s.pc < PROGRAM_SIZE then
      match compile_switch c s with
      | (some r, s1) => (some r, s1)
      | (none, s1) => compile_loop cs { s1 with pc := u16 (s1.pc + 1) }
    else (none, s)

/-- The function `compile_bf`, run on the globals in `g`: the returned status
and the globals it leaves. -/
def compile_bf_from (g : CompileState) (src : List Char) : Nat × CompileState :=
  match compile_loop src { g with pc := 0 } with
  | (some r, s) => (r, s)
  | (none, s) =>
    if ¬ (s.SP = 0) ∨ s.pc = PROGRAM_SIZE then (FAILURE, s)
    else (SUCCESS, set_operator s OP_END)

/-- `compile_bf` as `main` calls it: once, on the static initial globals. -/
def compile_bf (src : List Char) : Nat × CompileState :=
  compile_bf_from CompileState.init src

/-! ## The execution engine -/

/-- Conversion of an integer value to `short`: sixteen-bit two's complement. -/
def to_short (v : Int) : Int := (v + 32768) % 65536 - 32768

/-- Conversion of an integer value to `unsigned char`, as `putchar` does with
its argument. -/
def to_uchar (v : Int) : Nat := (v % 256).toNat

/-- The bytes of the string literal printed when the child limit is hit. -/
def limit_message : List Nat := "Limit to 20 Children".toList.map Char.toNat

/-- The state of one process inside `execute_bf`: the locals `pc`, `ptr`,
`isChild`, the process's copy of the global `CHILD`, the mapped tape `data`,
the bytes `getchar` will deliver, the bytes the process has put on its
standard output stream (a forked process starts with its parent's), and the
number of `fork()` calls the process has made. The diagnostic prints under
`isDebug` are left out: the embedding is of `execute_bf(false)`. -/
structure ExecState where
  pc : Nat
  ptr : Nat
  isChild : Bool
  CHILD : Nat
  data : Nat → Int
  stdin : List Nat
  stdout : List Nat
  forks : Nat

/-- How one pass through the body of the dispatch loop ends. -/
inductive StepResult where
  /-- The `switch` reached its `break` and `pc++` was executed. -/
  | next (s : ExecState)
  /-- A `return` inside the `switch`. -/
  | returned (status : Nat) (s : ExecState)
  /-- The call `_exit(0)`. -/
  | exited (s : ExecState)

/-- The statement `pc++` that ends the loop body, line 186. -/
def advance (s : ExecState) : StepResult :=
  .next { s with pc := u16 (s.pc + 1) }

/-- The call `getchar()`: the next byte of standard input, or `EOF = -1`. -/
def getchar (input : List Nat) : Int × List Nat :=
  match input with
  | [] => (-1, [])
  | b :: bs => (((b % 256 : Nat) : Int), bs)

/-- Conversion of an `int` to `unsigned int`. -/
def to_uint (v : Int) : Int := v % 4294967296

/-- The body of the dispatch loop, lines 125-186. `pid_fork` is the value
`fork()` returns to this process should the body call it: `0` in the new
process, the child's pid (or `-1`) in the calling one. -/
def step (pid_fork : Int) (P : Nat → instruction_t) (s : ExecState) : StepResult :=
  let op := (P s.pc).operator
  if op = OP_INC_DP then advance { s with ptr := u32 (s.ptr + 1) }
  else if op = OP_DEC_DP then advance { s with ptr := u32 (s.ptr + 4294967295) }
  else if op = OP_INC_VAL then
    advance { s with data := store s.data s.ptr (to_short (s.data s.ptr + 1)) }
  else if op = OP_DEC_VAL then
    advance { s with data := store s.data s.ptr (to_short (s.data s.ptr - 1)) }
  else if op = OP_OUT then
    advance { s with stdout := s.stdout ++ [to_uchar (s.data s.ptr)] }
  else if op = OP_IN then
    advance { s with data := store s.data s.ptr (to_short (to_uint (getchar s.stdin).1)),
                     stdin := (getchar s.stdin).2 }
  else if op = OP_JMP_FWD then
    if s.data s.ptr = 0 then advance { s with pc := (P s.pc).operand } else advance s
  else if op = OP_JMP_BCK then
    if s.data s.ptr ≠ 0 then advance { s with pc := (P s.pc).operand } else advance s
  else if op = OP_THREAD then
    if CHILDREN_SIZE ≤ s.CHILD then
      .returned FAILURE { s with stdout := s.stdout ++ limit_message }
    else if pid_fork = 0 then
      advance { s with isChild := true, pc := u16 (s.pc + 20), forks := 0 }
    else
      advance { s with CHILD := u32 (s.CHILD + 1), forks := s.forks + 1 }
  else if op = OP_CHILD_DIE then
    if s.isChild then .exited s else advance s
  else if op = OP_WAIT then advance s
  else if op = OP_NOOP then advance s
  else .returned FAILURE s

/-- How a call of `execute_bf` ends. -/
inductive Outcome where
  /-- The function returned `status`. -/
  | returned (status : Nat) (s : ExecState)
  /-- The process left through `_exit(0)`. -/
  | exited (s : ExecState)
  /-- An instruction fetch `PROGRAM[pc]` with `pc` outside the array. -/
  | fault (s : ExecState)

/-- The status, when the call returned one. -/
def Outcome.status : Outcome → Option Nat
  | .returned r _ => some r
  | .exited _ => none
  | .fault _ => none

/-- The process state at the end of the call. -/
def Outcome.state : Outcome → ExecState
  | .returned _ s => s
  | .exited s => s
  | .fault s => s

/-- The dispatch loop `while (PROGRAM[pc].operator != OP_END && ptr < DATA_SIZE)`
followed by the final `return`, lines 124-197. One unit of fuel is spent per
evaluation of the loop condition; `none` means the fuel ran out. -/
def execute_loop (pid_fork : Int) (P : Nat → instruction_t) :
    Nat → ExecState → Option Outcome
  | 0, _ => none
  | fuel + 1, s =>
    if PROGRAM_SIZE ≤ s.pc then some (.fault s)
    else if (P s.pc).operator ≠ OP_END ∧ s.ptr < DATA_SIZE then
      match step pid_fork P s with
      | .next s1 => execute_loop pid_fork P fuel s1
      | .returned r s1 => some (.returned r s1)
      | .exited s1 => some (.exited s1)
    else some (.returned (if s.ptr ≠ DATA_SIZE then SUCCESS else FAILURE) s)

/-- The loop `while (--ptr) { data[ptr] = 0; }`, line 121, entered with `ptr`
between `1` and `2^32 - 1`: the pointer it ends with and the tape it leaves.
(The case `0` is not reached from `ptr = DATA_SIZE`.) -/
def zero_loop : Nat → (Nat → Int) → Nat × (Nat → Int)
  | 0, data => (0, data)
  | ptr + 1, data => if ptr = 0 then (0, data) else zero_loop ptr (store data ptr 0)

/-- The state in which `execute_bf` enters its dispatch loop: `pc = 0`,
`isChild = false`, the anonymous mapping zero-filled by the system and run
through the zeroing loop started at `ptr = DATA_SIZE`, and `CHILD = 0` from its
static initialiser. -/
def ExecState.init (input : List Nat) : ExecState :=
  { pc := 0, ptr := (zero_loop DATA_SIZE (fun _ => 0)).1, isChild := false, CHILD := 0,
    data := (zero_loop DATA_SIZE (fun _ => 0)).2, stdin := input, stdout := [], forks := 0 }

/-- The function `execute_bf(false)` run by a process for which every `fork()`
returns `pid_fork`, on the compiled program `P`. -/
def execute_bf (fuel : Nat) (pid_fork : Int) (P : Nat → instruction_t)
    (input : List Nat) : Option Outcome :=
  execute_loop pid_fork P fuel (ExecState.init input)

/-- The states a process can be in at the top of the dispatch loop, starting
from `s`: it runs loop bodies whose condition holds, and between them other
processes may have written to the shared tape or consumed standard input. -/
inductive Reach (pid_fork : Int) (P : Nat → instruction_t) (s : ExecState) :
    ExecState → Prop where
  | start : Reach pid_fork P s s
  | body {t u : ExecState} : Reach pid_fork P s t → t.pc < PROGRAM_SIZE →
      (P t.pc).operator ≠ OP_END → t.ptr < DATA_SIZE → step pid_fork P t = .next u →
      Reach pid_fork P s u
  | interfere {t : ExecState} (tape : Nat → Int) (input : List Nat) :
      Reach pid_fork P s t → Reach pid_fork P s { t with data := tape, stdin := input }

/-! ## Specification vocabulary for the compiler claims -/

/-- The twelve characters of the instruction alphabet. -/
def instruction_chars : List Char :=
  ['>', '<', '+', '-', '.', ',', '[', ']', '/', '%', '#', '!']

/-- The source with every character outside the instruction alphabet removed. -/
def instructions (src : List Char) : List Char :=
  src.filter (fun c => decide (c ∈ instruction_chars))

/-- The opcode the specification assigns to each instruction character. -/
def opcode (c : Char) : Nat :=
  if c = '>' then OP_INC_DP else if c = '<' then OP_DEC_DP
  else if c = '+' then OP_INC_VAL else if c = '-' then OP_DEC_VAL
  else if c = '.' then OP_OUT else if c = ',' then OP_IN
  else if c = '[' then OP_JMP_FWD else if c = ']' then OP_JMP_BCK
  else if c = '/' then OP_THREAD else if c = '%' then OP_CHILD_DIE
  else if c = '#' then OP_NOOP else if c = '!' then OP_WAIT
  else OP_END

/-- Nesting depth in front of instruction `k`: the number of `[` minus the
number of `]` among the first `k` instructions. -/
def depth (ins : List Char) (k : Nat) : Int :=
  ((ins.take k).count '[' : Int) - ((ins.take k).count ']' : Int)

/-- The `[` at index `i` and the `]` at index `j` match in the usual nesting
sense: the instructions strictly between them form a balanced word, that is,
the depth in front of `j` equals the depth just after `i` and never drops
below it in between. -/
def Matched (ins : List Char) (i j : Nat) : Prop :=
  ins[i]? = some '[' ∧ ins[j]? = some ']' ∧ i < j ∧
    depth ins j = depth ins (i + 1) ∧
    ∀ x, x ≤ j → i < x → depth ins (i + 1) ≤ depth ins x

instance (ins : List Char) (i j : Nat) : Decidable (Matched ins i j) := by
  unfold Matched; infer_instance

/-- Every `[` has a later matching `]` and every `]` an earlier matching `[`. -/
def WellFormed (ins : List Char) : Prop :=
  (∀ i, i < ins.length → ins[i]? = some '[' → ∃ j, j < ins.length ∧ Matched ins i j) ∧
  (∀ j, j < ins.length → ins[j]? = some ']' → ∃ i, i < j ∧ Matched ins i j)

instance (ins : List Char) : Decidable (WellFormed ins) := by
  unfold WellFormed; infer_instance


/-- The `[` at index `i` is never closed. -/
def UnmatchedOpen (ins : List Char) (i : Nat) : Prop :=
  ins[i]? = some '[' ∧ ∀ j, j < ins.length → ¬ Matched ins i j

/-- The `]` at index `j` has no open `[` before it. -/
def UnmatchedClose (ins : List Char) (j : Nat) : Prop :=
  ins[j]? = some ']' ∧ ∀ i, i < j → ¬ Matched ins i j

instance (ins : List Char) (i : Nat) : Decidable (UnmatchedOpen ins i) := by
  unfold UnmatchedOpen; infer_instance

instance (ins : List Char) (j : Nat) : Decidable (UnmatchedClose ins j) := by
  unfold UnmatchedClose; infer_instance

/-- The ten instruction characters other than the brackets. -/
def plain_chars : List Char := ['>', '<', '+', '-', '.', ',', '/', '%', '#', '!']

/-! ## The loop invariant of `compile_bf` -/

/-- What holds of the compiler state when the first `n` instructions of `ins`
have been processed without a `return`. -/
structure Inv (ins : List Char) (n : Nat) (s : CompileState) : Prop where
  pc_eq : s.pc = n
  le_len : n ≤ ins.length
  sp_depth : depth ins n = (s.SP : Int)
  depth_lo : ∀ x, x ≤ n → 0 ≤ depth ins x
  depth_hi : ∀ x, x ≤ n → depth ins x ≤ 512
  stack_lt : ∀ k, k < s.SP → s.STACK k < n
  stack_open : ∀ k, k < s.SP → ins[s.STACK k]? = some '['
  stack_depth : ∀ k, k < s.SP → depth ins (s.STACK k) = (k : Int)
  stack_above : ∀ k, k < s.SP → ∀ x, s.STACK k < x → x ≤ n → (k : Int) + 1 ≤ depth ins x
  pairs : ∀ i j, j < n → Matched ins i j →
    s.PROGRAM i = ⟨OP_JMP_FWD, j⟩ ∧ s.PROGRAM j = ⟨OP_JMP_BCK, i⟩
  opens : ∀ i, i < n → ins[i]? = some '[' →
    (∃ k, k < s.SP ∧ s.STACK k = i) ∨ (∃ j, j < n ∧ Matched ins i j)
  closes : ∀ j, j < n → ins[j]? = some ']' → ∃ i, i < j ∧ Matched ins i j
  ops : ∀ i c, i < n → ins[i]? = some c → (s.PROGRAM i).operator = opcode c
  fresh : ∀ i, n ≤ i → s.PROGRAM i = ⟨0, 0⟩
  le_size : n ≤ PROGRAM_SIZE

/-! ## Vocabulary for the tape-access claim -/

/-- The tape `d2` with cell `p` taken from `d`. -/
def patch (d2 d : Nat → Int) (p : Nat) : Nat → Int :=
  fun k => if k = p then d k else d2 k

/-- The outcome with the tape of its final state replaced. -/
def Outcome.with_data : Outcome → (Nat → Int) → Outcome
  | .returned r s, d => .returned r { s with data := d }
  | .exited s, d => .exited { s with data := d }
  | .fault s, d => .fault { s with data := d }

/-! ## Arithmetic on nesting depth -/

theorem depth_zero (ins : List Char) : depth ins 0 = 0 := by
  simp [depth]

theorem depth_succ_open (ins : List Char) (n : Nat) (h : ins[n]? = some '[') :
    depth ins (n + 1) = depth ins n + 1 := by
  simp [depth, List.take_succ, h, List.count_append]
  ring

theorem depth_succ_close (ins : List Char) (n : Nat) (h : ins[n]? = some ']') :
    depth ins (n + 1) = depth ins n - 1 := by
  simp [depth, List.take_succ, h, List.count_append]
  ring

theorem depth_succ_other (ins : List Char) (n : Nat) (c : Char) (h : ins[n]? = some c)
    (h1 : c ≠ '[') (h2 : c ≠ ']') : depth ins (n + 1) = depth ins n := by
  simp [depth, List.take_succ, h, List.count_append, List.count_singleton, h1, h2]

/-! ## Case analysis of the compiler switch -/

theorem store_same {α : Type} (a : Nat → α) (i : Nat) (v : α) : store a i v i = v := by
  simp [store]

theorem store_other {α : Type} (a : Nat → α) (i k : Nat) (v : α) (h : k ≠ i) :
    store a i v k = a k := by
  simp [store, h]

/-- A character outside the alphabet takes the `default` case. -/
theorem compile_switch_ignored (c : Char) (s : CompileState)
    (h : c ∉ instruction_chars) :
    compile_switch c s = (none, { s with pc := u16 (s.pc + 65535) }) := by
  simp only [instruction_chars, List.mem_cons, List.mem_singleton, not_or, List.not_mem_nil,
    not_false_eq_true, and_true] at h
  obtain ⟨h1, h2, h3, h4, h5, h6, h7, h8, h9, h10, h11, h12⟩ := h
  simp [compile_switch, h1, h2, h3, h4, h5, h6, h7, h8, h9, h10, h11, h12]

theorem compile_switch_plain (c : Char) (s : CompileState) (h : c ∈ plain_chars) :
    compile_switch c s = (none, set_operator s (opcode c)) := by
  simp only [plain_chars, List.mem_cons, List.mem_singleton, List.not_mem_nil, or_false] at h
  rcases h with h | h | h | h | h | h | h | h | h | h <;> subst h <;> rfl

theorem mem_instruction_chars (c : Char) (h : c ∈ instruction_chars) :
    c ∈ plain_chars ∨ c = '[' ∨ c = ']' := by
  simp only [instruction_chars, plain_chars, List.mem_cons, List.mem_singleton,
    List.not_mem_nil, or_false] at h ⊢
  tauto

theorem compile_loop_full (l : List Char) (s : CompileState) (h : ¬ s.pc < PROGRAM_SIZE) :
    compile_loop l s = (none, s) := by
  cases l <;> simp [compile_loop, h]

/-- Characters outside the alphabet leave the compiler state as it was: the
cursor is decremented and incremented again, also at `pc = 0`. -/
theorem compile_loop_instructions (src : List Char) :
    ∀ s : CompileState, compile_loop src s = compile_loop (instructions src) s := by
  induction src with
  | nil => intro s; rfl
  | cons c cs ih =>
    intro s
    by_cases hpc : s.pc < PROGRAM_SIZE
    · by_cases hc : c ∈ instruction_chars
      · have hf : instructions (c :: cs) = c :: instructions cs := by
          simp [instructions, hc]
        rw [hf]
        simp only [compile_loop, hpc, if_true]
        cases hsw : compile_switch c s with
        | mk r s1 =>
          cases r with
          | some r => rfl
          | none => exact ih _
      · have hf : instructions (c :: cs) = instructions cs := by
          simp [instructions, hc]
        rw [hf, ← ih s]
        simp only [compile_loop, hpc, if_true, compile_switch_ignored c s hc]
        have hs : u16 (u16 (s.pc + 65535) + 1) = s.pc := by
          simp only [PROGRAM_SIZE] at hpc
          simp only [u16]
          omega
        rw [hs]
    · rw [compile_loop_full _ _ hpc, compile_loop_full _ _ hpc]

/-! ## Uniqueness of matching partners -/

theorem Matched.open_unique {ins : List Char} {i i2 j : Nat}
    (h1 : Matched ins i j) (h2 : Matched ins i2 j) : i = i2 := by
  obtain ⟨ho1, _, hlt1, hd1, hb1⟩ := h1
  obtain ⟨ho2, _, hlt2, hd2, hb2⟩ := h2
  have e1 := depth_succ_open ins i ho1
  have e2 := depth_succ_open ins i2 ho2
  rcases Nat.lt_trichotomy i i2 with h | h | h
  · have := hb1 i2 (by omega) h
    omega
  · exact h
  · have := hb2 i (by omega) h
    omega

theorem Matched.close_unique {ins : List Char} {i j j2 : Nat}
    (h1 : Matched ins i j) (h2 : Matched ins i j2) : j = j2 := by
  obtain ⟨_, hc1, hlt1, hd1, hb1⟩ := h1
  obtain ⟨_, hc2, hlt2, hd2, hb2⟩ := h2
  have e1 := depth_succ_close ins j hc1
  have e2 := depth_succ_close ins j2 hc2
  rcases Nat.lt_trichotomy j j2 with h | h | h
  · have := hb2 (j + 1) (by omega) (by omega)
    omega
  · exact h
  · have := hb1 (j2 + 1) (by omega) (by omega)
    omega

theorem Inv.init (ins : List Char) : Inv ins 0 CompileState.init where
  pc_eq := rfl
  le_len := Nat.zero_le _
  sp_depth := by simp [depth_zero, CompileState.init]
  depth_lo := by intro x hx; have : x = 0 := by omega
                 subst this; simp [depth_zero]
  depth_hi := by intro x hx; have : x = 0 := by omega
                 subst this; simp [depth_zero]
  stack_lt := by intro k hk; simp [CompileState.init] at hk
  stack_open := by intro k hk; simp [CompileState.init] at hk
  stack_depth := by intro k hk; simp [CompileState.init] at hk
  stack_above := by intro k hk; simp [CompileState.init] at hk
  pairs := by intro i j hj; omega
  opens := by intro i hi; omega
  closes := by intro j hj; omega
  ops := by intro i c hi; omega
  fresh := by intro i _; rfl
  le_size := Nat.zero_le _

theorem lt_length_of_getElem? {ins : List Char} {n : Nat} {c : Char}
    (h : ins[n]? = some c) : n < ins.length := by
  by_contra hn
  rw [List.getElem?_eq_none (by omega)] at h
  exact absurd h (by simp)

theorem plain_ne_open {c : Char} (h : c ∈ plain_chars) : c ≠ '[' := by
  rintro rfl; revert h; decide

theorem plain_ne_close {c : Char} (h : c ∈ plain_chars) : c ≠ ']' := by
  rintro rfl; revert h; decide

/-- One pass through the loop body on a non-bracket instruction keeps the
invariant. -/
theorem Inv.step_plain {ins : List Char} {n : Nat} {s : CompileState} {c : Char}
    (h : Inv ins n s) (hn : n < PROGRAM_SIZE) (hc : ins[n]? = some c)
    (hp : c ∈ plain_chars) :
    Inv ins (n + 1)
      { set_operator s (opcode c) with pc := u16 ((set_operator s (opcode c)).pc + 1) } := by
  have hpc := h.pc_eq
  have hlen := lt_length_of_getElem? hc
  have hno := plain_ne_open hp
  have hnc := plain_ne_close hp
  have hd := depth_succ_other ins n c hc hno hnc
  have hsp := h.sp_depth
  simp only [PROGRAM_SIZE] at hn
  refine ⟨?_, ?_, ?_, ?_, ?_, ?_, ?_, ?_, ?_, ?_, ?_, ?_, ?_, ?_, by simp only [PROGRAM_SIZE]; omega⟩
  · simp only [set_operator, hpc, u16]; omega
  · omega
  · simpa [set_operator, hd] using hsp
  · intro x hx
    rcases Nat.lt_or_ge x (n + 1) with hx1 | hx1
    · exact h.depth_lo x (by omega)
    · have : x = n + 1 := by omega
      subst this; rw [hd]; exact h.depth_lo n (le_refl _)
  · intro x hx
    rcases Nat.lt_or_ge x (n + 1) with hx1 | hx1
    · exact h.depth_hi x (by omega)
    · have : x = n + 1 := by omega
      subst this; rw [hd]; exact h.depth_hi n (le_refl _)
  · intro k hk
    have := h.stack_lt k hk
    simp only [set_operator] at hk ⊢; omega
  · intro k hk; exact h.stack_open k hk
  · intro k hk; exact h.stack_depth k hk
  · intro k hk x hx1 hx2
    have hk2 : k < s.SP := hk
    rcases Nat.lt_or_ge x (n + 1) with hx3 | hx3
    · exact h.stack_above k hk x hx1 (by omega)
    · have : x = n + 1 := by omega
      subst this; rw [hd]; omega
  · intro i j hj hm
    have hjn : j ≠ n := by
      rintro rfl
      have := hm.2.1
      rw [hc] at this
      exact hnc (Option.some.inj this)
    have hij := hm.2.2.1
    obtain ⟨h1, h2⟩ := h.pairs i j (by omega) hm
    simp only [set_operator, hpc]
    rw [store_other _ _ _ _ (by omega), store_other _ _ _ _ hjn]
    exact ⟨h1, h2⟩
  · intro i hi ho
    have hin : i ≠ n := by
      rintro rfl
      rw [hc] at ho
      exact hno (Option.some.inj ho)
    rcases h.opens i (by omega) ho with ⟨k, hk, hk2⟩ | ⟨j, hj, hm⟩
    · exact Or.inl ⟨k, hk, hk2⟩
    · exact Or.inr ⟨j, by omega, hm⟩
  · intro j hj hcl
    have hjn : j ≠ n := by
      rintro rfl
      rw [hc] at hcl
      exact hnc (Option.some.inj hcl)
    exact h.closes j (by omega) hcl
  · intro i c2 hi hc2
    simp only [set_operator, hpc]
    by_cases hin : i = n
    · subst hin
      rw [hc] at hc2
      rw [store_same, ← Option.some.inj hc2]
    · rw [store_other _ _ _ _ hin]
      exact h.ops i c2 (by omega) hc2
  · intro i hi
    simp only [set_operator, hpc]
    rw [store_other _ _ _ _ (by omega)]
    exact h.fresh i (by omega)

/-- One pass through the loop body on `[` with room on the stack keeps the
invariant. -/
theorem Inv.step_open {ins : List Char} {n : Nat} {s : CompileState}
    (h : Inv ins n s) (hn : n < PROGRAM_SIZE) (hc : ins[n]? = some '[')
    (hfull : s.SP ≠ STACK_SIZE) :
    Inv ins (n + 1)
      { PROGRAM := store s.PROGRAM n { s.PROGRAM n with operator := OP_JMP_FWD },
        STACK := store s.STACK s.SP n, SP := s.SP + 1, pc := n + 1 } := by
  have hlen := lt_length_of_getElem? hc
  have hd := depth_succ_open ins n hc
  have hsp := h.sp_depth
  have hhi := h.depth_hi n (le_refl _)
  simp only [STACK_SIZE] at hfull
  refine ⟨rfl, ?_, ?_, ?_, ?_, ?_, ?_, ?_, ?_, ?_, ?_, ?_, ?_, ?_, hn⟩
  · omega
  · show depth ins (n + 1) = ((s.SP + 1 : Nat) : Int)
    push_cast; omega
  · intro x hx
    rcases Nat.lt_or_ge x (n + 1) with hx1 | hx1
    · exact h.depth_lo x (by omega)
    · have : x = n + 1 := by omega
      subst this; omega
  · intro x hx
    rcases Nat.lt_or_ge x (n + 1) with hx1 | hx1
    · exact h.depth_hi x (by omega)
    · have : x = n + 1 := by omega
      subst this; omega
  · intro k hk
    show store s.STACK s.SP n k < n + 1
    by_cases hks : k = s.SP
    · subst hks; rw [store_same]; omega
    · rw [store_other _ _ _ _ hks]
      have := h.stack_lt k (by change k < s.SP + 1 at hk; omega)
      omega
  · intro k hk
    show ins[store s.STACK s.SP n k]? = some '['
    by_cases hks : k = s.SP
    · subst hks; rw [store_same]; exact hc
    · rw [store_other _ _ _ _ hks]
      exact h.stack_open k (by change k < s.SP + 1 at hk; omega)
  · intro k hk
    show depth ins (store s.STACK s.SP n k) = (k : Int)
    by_cases hks : k = s.SP
    · subst hks; rw [store_same]; exact hsp
    · rw [store_other _ _ _ _ hks]
      exact h.stack_depth k (by change k < s.SP + 1 at hk; omega)
  · intro k hk x hx1 hx2
    change k < s.SP + 1 at hk
    change store s.STACK s.SP n k < x at hx1
    by_cases hks : k = s.SP
    · subst hks
      rw [store_same] at hx1
      have : x = n + 1 := by omega
      subst this; omega
    · rw [store_other _ _ _ _ hks] at hx1
      rcases Nat.lt_or_ge x (n + 1) with hx3 | hx3
      · exact h.stack_above k (by omega) x hx1 (by omega)
      · have : x = n + 1 := by omega
        subst this; omega
  · intro i j hj hm
    have hjn : j ≠ n := by
      rintro rfl
      have := hm.2.1
      rw [hc] at this
      exact absurd (Option.some.inj this) (by decide)
    have hij := hm.2.2.1
    obtain ⟨h1, h2⟩ := h.pairs i j (by omega) hm
    show store s.PROGRAM n _ i = _ ∧ store s.PROGRAM n _ j = _
    rw [store_other _ _ _ _ (by omega), store_other _ _ _ _ hjn]
    exact ⟨h1, h2⟩
  · intro i hi ho
    by_cases hin : i = n
    · subst hin
      exact Or.inl ⟨s.SP, Nat.lt_succ_self _, store_same _ _ _⟩
    · rcases h.opens i (by omega) ho with ⟨k, hk, hk2⟩ | ⟨j, hj, hm⟩
      · refine Or.inl ⟨k, Nat.lt_succ_of_lt hk, ?_⟩
        show store s.STACK s.SP n k = i
        rw [store_other _ _ _ _ (by omega)]; exact hk2
      · exact Or.inr ⟨j, by omega, hm⟩
  · intro j hj hcl
    have hjn : j ≠ n := by
      rintro rfl
      rw [hc] at hcl
      exact absurd (Option.some.inj hcl) (by decide)
    exact h.closes j (by omega) hcl
  · intro i c2 hi hc2
    show (store s.PROGRAM n _ i).operator = opcode c2
    by_cases hin : i = n
    · subst hin
      rw [hc] at hc2
      rw [store_same, ← Option.some.inj hc2]
      rfl
    · rw [store_other _ _ _ _ hin]
      exact h.ops i c2 (by omega) hc2
  · intro i hi
    show store s.PROGRAM n _ i = _
    rw [store_other _ _ _ _ (by omega)]
    exact h.fresh i (by omega)

/-- At a `]` with a non-empty stack, the top of the stack is its partner. -/
theorem Inv.top_matched {ins : List Char} {n : Nat} {s : CompileState}
    (h : Inv ins n s) (hc : ins[n]? = some ']') (hemp : s.SP ≠ 0) :
    Matched ins (s.STACK (s.SP - 1)) n := by
  have hk : s.SP - 1 < s.SP := by omega
  have ho := h.stack_open _ hk
  have hd := depth_succ_open ins _ ho
  have hsd := h.stack_depth _ hk
  have hsp := h.sp_depth
  refine ⟨ho, hc, h.stack_lt _ hk, ?_, ?_⟩
  · omega
  · intro x hx1 hx2
    have := h.stack_above _ hk x hx2 hx1
    omega

/-- A `[` still on the stack has no partner among the instructions processed. -/
theorem Inv.stack_unmatched {ins : List Char} {n : Nat} {s : CompileState}
    (h : Inv ins n s) {k j : Nat} (hk : k < s.SP) (hj : j < n) :
    ¬ Matched ins (s.STACK k) j := by
  intro hm
  obtain ⟨ho, hcl, hlt, hd, _⟩ := hm
  have e1 := depth_succ_open ins _ ho
  have e2 := depth_succ_close ins _ hcl
  have e3 := h.stack_depth k hk
  have := h.stack_above k hk (j + 1) (by omega) (by omega)
  omega

/-- One pass through the loop body on `]` with a non-empty stack keeps the
invariant. -/
theorem Inv.step_close {ins : List Char} {n : Nat} {s : CompileState}
    (h : Inv ins n s) (hn : n < PROGRAM_SIZE) (hc : ins[n]? = some ']') (hemp : s.SP ≠ 0) :
    Inv ins (n + 1)
      { PROGRAM := store (store s.PROGRAM n ⟨OP_JMP_BCK, s.STACK (s.SP - 1)⟩)
          (s.STACK (s.SP - 1)) ⟨OP_JMP_FWD, n⟩,
        STACK := s.STACK, SP := s.SP - 1, pc := n + 1 } := by
  have hlen := lt_length_of_getElem? hc
  have hd := depth_succ_close ins n hc
  have hsp := h.sp_depth
  have hk : s.SP - 1 < s.SP := by omega
  have htn := h.stack_lt _ hk
  have hto := h.stack_open _ hk
  have hmt := h.top_matched hc hemp
  generalize ht : s.STACK (s.SP - 1) = t at htn hto hmt
  refine ⟨rfl, ?_, ?_, ?_, ?_, ?_, ?_, ?_, ?_, ?_, ?_, ?_, ?_, ?_, hn⟩
  · omega
  · show depth ins (n + 1) = ((s.SP - 1 : Nat) : Int)
    omega
  · intro x hx
    rcases Nat.lt_or_ge x (n + 1) with hx1 | hx1
    · exact h.depth_lo x (by omega)
    · have : x = n + 1 := by omega
      subst this; omega
  · intro x hx
    rcases Nat.lt_or_ge x (n + 1) with hx1 | hx1
    · exact h.depth_hi x (by omega)
    · have : x = n + 1 := by omega
      have := h.depth_hi n (le_refl _)
      subst x; omega
  · intro k hk2
    change k < s.SP - 1 at hk2
    have := h.stack_lt k (by omega)
    show s.STACK k < n + 1
    omega
  · intro k hk2
    change k < s.SP - 1 at hk2
    exact h.stack_open k (by omega)
  · intro k hk2
    change k < s.SP - 1 at hk2
    exact h.stack_depth k (by omega)
  · intro k hk2 x hx1 hx2
    change k < s.SP - 1 at hk2
    change s.STACK k < x at hx1
    rcases Nat.lt_or_ge x (n + 1) with hx3 | hx3
    · exact h.stack_above k (by omega) x hx1 (by omega)
    · have : x = n + 1 := by omega
      subst this; omega
  · intro i j hj hm
    show store (store s.PROGRAM n _) t _ i = _ ∧ store (store s.PROGRAM n _) t _ j = _
    by_cases hjn : j = n
    · subst hjn
      have hit : i = t := Matched.open_unique hm hmt
      subst hit
      rw [store_same, store_other _ _ _ _ (by omega), store_same]
      exact ⟨rfl, rfl⟩
    · have hij := hm.2.2.1
      obtain ⟨h1, h2⟩ := h.pairs i j (by omega) hm
      have hit : i ≠ t := by
        rintro rfl
        rw [← ht] at hm
        exact h.stack_unmatched hk (by omega) hm
      have hjt : j ≠ t := by
        rintro rfl
        have := hm.2.1
        rw [hto] at this
        exact absurd (Option.some.inj this) (by decide)
      rw [store_other _ _ _ _ hit, store_other _ _ _ _ (by omega),
        store_other _ _ _ _ hjt, store_other _ _ _ _ hjn]
      exact ⟨h1, h2⟩
  · intro i hi ho
    have hin : i ≠ n := by
      rintro rfl
      rw [hc] at ho
      exact absurd (Option.some.inj ho) (by decide)
    rcases h.opens i (by omega) ho with ⟨k, hk1, hk2⟩ | ⟨j, hj, hm⟩
    · by_cases hkt : k = s.SP - 1
      · subst hkt
        rw [ht] at hk2
        subst hk2
        exact Or.inr ⟨n, Nat.lt_succ_self _, hmt⟩
      · exact Or.inl ⟨k, by show k < s.SP - 1; omega, hk2⟩
    · exact Or.inr ⟨j, by omega, hm⟩
  · intro j hj hcl
    by_cases hjn : j = n
    · subst hjn
      exact ⟨t, htn, hmt⟩
    · exact h.closes j (by omega) hcl
  · intro i c2 hi hc2
    show (store (store s.PROGRAM n _) t _ i).operator = opcode c2
    by_cases hit : i = t
    · subst hit
      rw [hto] at hc2
      rw [store_same, ← Option.some.inj hc2]
      rfl
    · rw [store_other _ _ _ _ hit]
      by_cases hin : i = n
      · subst hin
        rw [hc] at hc2
        rw [store_same, ← Option.some.inj hc2]
        rfl
      · rw [store_other _ _ _ _ hin]
        exact h.ops i c2 (by omega) hc2
  · intro i hi
    show store (store s.PROGRAM n _) t _ i = _
    rw [store_other _ _ _ _ (by omega), store_other _ _ _ _ (by omega)]
    exact h.fresh i (by omega)

theorem store_store {α : Type} (a : Nat → α) (i : Nat) (v w : α) :
    store (store a i v) i w = store a i w := by
  funext k
  by_cases h : k = i <;> simp [store, h]

/-- The body of the compiler loop, run on the instruction at index `n` from a
state satisfying the invariant: either the body returns `FAILURE`, on a `[`
with a full stack or a `]` with an empty one, or it reaches the increment of
the cursor and the invariant holds of the next index. -/
theorem Inv.step {ins : List Char} {n : Nat} {s : CompileState} {c : Char}
    (h : Inv ins n s) (hn : n < PROGRAM_SIZE) (hc : ins[n]? = some c)
    (hmem : c ∈ instruction_chars) :
    (∃ s1, compile_switch c s = (some FAILURE, s1) ∧
        ((c = '[' ∧ s.SP = STACK_SIZE) ∨ (c = ']' ∧ s.SP = 0))) ∨
    (∃ s1, compile_switch c s = (none, s1) ∧
        Inv ins (n + 1) { s1 with pc := u16 (s1.pc + 1) }) := by
  have hpc := h.pc_eq
  have hsp := h.sp_depth
  have hhi := h.depth_hi n (le_refl _)
  have hn2 : n < 4096 := hn
  rcases mem_instruction_chars c hmem with hp | rfl | rfl
  · exact Or.inr ⟨_, compile_switch_plain c s hp, h.step_plain hn hc hp⟩
  · by_cases hfull : s.SP = STACK_SIZE
    · refine Or.inl ⟨set_operator s OP_JMP_FWD, ?_, Or.inl ⟨rfl, hfull⟩⟩
      simp [compile_switch, set_operator, hfull]
    · have e1 : u16 (n + 1) = n + 1 := by simp only [u16]; omega
      have e2 : u16 n = n := by simp only [u16]; omega
      have e3 : u32 (s.SP + 1) = s.SP + 1 := by simp only [u32]; omega
      have hsw : compile_switch '[' s = (none,
          { PROGRAM := store s.PROGRAM n { s.PROGRAM n with operator := OP_JMP_FWD },
            STACK := store s.STACK s.SP n, SP := s.SP + 1, pc := n }) := by
        simp [compile_switch, set_operator, hfull, hpc, e2, e3]
      refine Or.inr ⟨_, hsw, ?_⟩
      simp only [e1]
      exact h.step_open hn hc hfull
  · by_cases hemp : s.SP = 0
    · refine Or.inl ⟨s, ?_, Or.inr ⟨rfl, hemp⟩⟩
      simp [compile_switch, hemp]
    · have hk : s.SP - 1 < s.SP := by omega
      have htn := h.stack_lt _ hk
      have hop := h.ops _ _ htn (h.stack_open _ hk)
      have e1 : u16 (n + 1) = n + 1 := by simp only [u16]; omega
      have e3 : u32 (s.SP + 4294967295) = s.SP - 1 := by simp only [u32]; omega
      have e4 : (store s.PROGRAM n { operator := OP_JMP_BCK, operand := s.STACK (s.SP - 1) }
          (s.STACK (s.SP - 1))).operator = OP_JMP_FWD := by
        rw [store_other _ _ _ _ (by omega)]; exact hop
      have hsw : compile_switch ']' s = (none,
          { PROGRAM := store (store s.PROGRAM n ⟨OP_JMP_BCK, s.STACK (s.SP - 1)⟩)
              (s.STACK (s.SP - 1)) ⟨OP_JMP_FWD, n⟩,
            STACK := s.STACK, SP := s.SP - 1, pc := n }) := by
        simp [compile_switch, hemp, hpc, e3, store_store, store_same, e4]
      refine Or.inr ⟨_, hsw, ?_⟩
      simp only [e1]
      exact h.step_close hn hc hemp

/-! ## Soundness and completeness of the compiler loop -/

theorem drop_cons_facts {ins : List Char} {n : Nat} {c : Char} {cs : List Char}
    (h : ins.drop n = c :: cs) : ins[n]? = some c ∧ ins.drop (n + 1) = cs := by
  constructor
  · have h1 : (ins.drop n)[0]? = some c := by rw [h]; simp
    simpa using h1
  · have h2 := congrArg List.tail h
    simpa using h2

theorem drop_nil_facts {ins : List Char} {n : Nat}
    (h : ins.drop n = []) (hle : n ≤ ins.length) : n = ins.length := by
  have := congrArg List.length h
  simp at this
  omega

/-- If the loop runs to its normal exit with the cursor below `PROGRAM_SIZE`,
every instruction was processed and the invariant holds of the whole list. -/
theorem compile_loop_sound (ins : List Char) (hins : ∀ c ∈ ins, c ∈ instruction_chars) :
    ∀ (rest : List Char) (n : Nat) (s s2 : CompileState), ins.drop n = rest → Inv ins n s →
      compile_loop rest s = (none, s2) → s2.pc ≠ PROGRAM_SIZE → Inv ins ins.length s2 := by
  intro rest
  induction rest with
  | nil =>
    intro n s s2 hdrop hinv hrun _
    have hn := drop_nil_facts hdrop hinv.le_len
    simp only [compile_loop, Prod.mk.injEq, true_and] at hrun
    subst hrun; subst hn; exact hinv
  | cons c cs ih =>
    intro n s s2 hdrop hinv hrun hpc2
    obtain ⟨hc, hdrop2⟩ := drop_cons_facts hdrop
    have hmem : c ∈ instruction_chars := hins c (List.getElem?_mem hc)
    by_cases hn : n < PROGRAM_SIZE
    · have hpc : s.pc < PROGRAM_SIZE := by rw [hinv.pc_eq]; exact hn
      simp only [compile_loop, hpc, if_true] at hrun
      rcases hinv.step hn hc hmem with ⟨s1, hsw, _⟩ | ⟨s1, hsw, hinv2⟩
      · rw [hsw] at hrun
        simp at hrun
      · rw [hsw] at hrun
        exact ih (n + 1) _ s2 hdrop2 hinv2 hrun hpc2
    · have hpc : ¬ s.pc < PROGRAM_SIZE := by rw [hinv.pc_eq]; exact hn
      rw [compile_loop_full _ _ hpc] at hrun
      simp only [Prod.mk.injEq, true_and] at hrun
      subst hrun
      have := hinv.le_size
      have := hinv.pc_eq
      omega

/-- A well-formed instruction list that fits the program array and never
nests deeper than the stack is processed to its end without a `return`. -/
theorem compile_loop_complete (ins : List Char) (hins : ∀ c ∈ ins, c ∈ instruction_chars)
    (hwf : WellFormed ins) (hlen : ins.length < PROGRAM_SIZE)
    (hdepth : ∀ x, x ≤ ins.length → depth ins x ≤ 512) :
    ∀ (rest : List Char) (n : Nat) (s : CompileState), ins.drop n = rest → Inv ins n s →
      ∃ s2, compile_loop rest s = (none, s2) ∧ Inv ins ins.length s2 := by
  intro rest
  induction rest with
  | nil =>
    intro n s hdrop hinv
    have hn := drop_nil_facts hdrop hinv.le_len
    subst hn
    exact ⟨s, rfl, hinv⟩
  | cons c cs ih =>
    intro n s hdrop hinv
    obtain ⟨hc, hdrop2⟩ := drop_cons_facts hdrop
    have hmem : c ∈ instruction_chars := hins c (List.getElem?_mem hc)
    have hnl := lt_length_of_getElem? hc
    have hn : n < PROGRAM_SIZE := by omega
    have hpc : s.pc < PROGRAM_SIZE := by rw [hinv.pc_eq]; exact hn
    have hsp := hinv.sp_depth
    simp only [compile_loop, hpc, if_true]
    rcases hinv.step hn hc hmem with ⟨s1, _, hbad⟩ | ⟨s1, hsw, hinv2⟩
    · exfalso
      rcases hbad with ⟨rfl, hfull⟩ | ⟨rfl, hemp⟩
      · have h1 := depth_succ_open ins n hc
        have h2 := hdepth (n + 1) (by omega)
        simp only [STACK_SIZE] at hfull
        omega
      · obtain ⟨i, hi, hm⟩ := hwf.2 n hnl hc
        obtain ⟨ho, _, _, hd, _⟩ := hm
        have h1 := depth_succ_open ins i ho
        have h2 := hinv.depth_lo i (by omega)
        omega
    · rw [hsw]
      exact ih (n + 1) _ hdrop2 hinv2

/-! ## The result of `compile_bf` -/

theorem compile_switch_ret {c : Char} {s s1 : CompileState} {r : Nat}
    (h : compile_switch c s = (some r, s1)) : r = FAILURE := by
  by_cases hc : c ∈ instruction_chars
  · rcases mem_instruction_chars c hc with hp | rfl | rfl
    · rw [compile_switch_plain c s hp] at h
      simp at h
    · by_cases hfull : s.SP = STACK_SIZE
      · simp [compile_switch, set_operator, hfull] at h
        exact h.1.symm
      · simp [compile_switch, set_operator, hfull] at h
    · by_cases hemp : s.SP = 0
      · simp [compile_switch, hemp] at h
        exact h.1.symm
      · simp [compile_switch, hemp] at h
  · rw [compile_switch_ignored c s hc] at h
    simp at h

theorem compile_loop_ret : ∀ (l : List Char) (s s1 : CompileState) (r : Nat),
    compile_loop l s = (some r, s1) → r = FAILURE := by
  intro l
  induction l with
  | nil => intro s s1 r h; simp [compile_loop] at h
  | cons c cs ih =>
    intro s s1 r h
    simp only [compile_loop] at h
    split_ifs at h with hpc
    · cases hsw : compile_switch c s with
      | mk o s2 =>
        rw [hsw] at h
        cases o with
        | some r2 =>
          simp only [Prod.mk.injEq, Option.some.injEq] at h
          rw [← h.1]
          exact compile_switch_ret hsw
        | none => exact ih _ _ _ h
    · simp at h

theorem compile_bf_status (src : List Char) :
    (compile_bf src).1 = SUCCESS ∨ (compile_bf src).1 = FAILURE := by
  simp only [compile_bf, compile_bf_from]
  cases hrun : compile_loop src { CompileState.init with pc := 0 } with
  | mk o s =>
    cases o with
    | some r => exact Or.inr (compile_loop_ret _ _ _ _ hrun)
    | none =>
      simp only
      split_ifs
      · exact Or.inr rfl
      · exact Or.inl rfl

theorem instructions_mem (src : List Char) :
    ∀ c ∈ instructions src, c ∈ instruction_chars := by
  intro c hc
  simp only [instructions, List.mem_filter, decide_eq_true_eq] at hc
  exact hc.2

/-- A successful compilation processed every instruction, ended with an empty
stack below the capacity, and stored the end marker at the cursor. -/
theorem compile_bf_final_state {src : List Char} (h : (compile_bf src).1 = SUCCESS) :
    ∃ s, Inv (instructions src) (instructions src).length s ∧ s.SP = 0 ∧
      (instructions src).length < PROGRAM_SIZE ∧
      (compile_bf src).2 = set_operator s OP_END := by
  simp only [compile_bf, compile_bf_from] at h ⊢
  have hinit : ({ CompileState.init with pc := 0 } : CompileState) = CompileState.init := rfl
  rw [hinit, compile_loop_instructions] at h ⊢
  cases hrun : compile_loop (instructions src) CompileState.init with
  | mk o s =>
    rw [hrun] at h
    cases o with
    | some r =>
      have := compile_loop_ret _ _ _ _ hrun
      simp only at h
      rw [this] at h
      exact absurd h (by decide)
    | none =>
      simp only at h ⊢
      split_ifs at h with hbad
      · simp [FAILURE, SUCCESS] at h
      · rw [if_neg hbad]
        simp only [not_or, not_not] at hbad
        have hinv := compile_loop_sound (instructions src) (instructions_mem src)
          (instructions src) 0 CompileState.init s (by simp) (Inv.init _) hrun hbad.2
        have h1 := hinv.pc_eq
        have h2 := hinv.le_size
        refine ⟨s, hinv, hbad.1, ?_, rfl⟩
        have := hbad.2
        omega

/-- The invariant at the end, with an empty stack, makes the list well formed. -/
theorem Inv.wellFormed {ins : List Char} {s : CompileState}
    (h : Inv ins ins.length s) (hsp : s.SP = 0) : WellFormed ins := by
  constructor
  · intro i hi ho
    rcases h.opens i hi ho with ⟨k, hk, _⟩ | hj
    · omega
    · exact hj
  · intro j hj hc
    exact h.closes j hj hc

/-- Conversely the three conditions make `compile_bf` succeed. -/
theorem compile_bf_complete {src : List Char} (hwf : WellFormed (instructions src))
    (hlen : (instructions src).length < PROGRAM_SIZE)
    (hdepth : ∀ x, x ≤ (instructions src).length → depth (instructions src) x ≤ 512) :
    (compile_bf src).1 = SUCCESS := by
  obtain ⟨s, hrun, hinv⟩ := compile_loop_complete (instructions src) (instructions_mem src)
    hwf hlen hdepth (instructions src) 0 CompileState.init (by simp) (Inv.init _)
  have hsp : s.SP = 0 := by
    by_contra hne
    have hk : 0 < s.SP := by omega
    have ho := hinv.stack_open 0 hk
    have hlt := hinv.stack_lt 0 hk
    obtain ⟨j, hj, hm⟩ := hwf.1 _ hlt ho
    exact hinv.stack_unmatched hk hj hm
  have hpc : s.pc ≠ PROGRAM_SIZE := by
    rw [hinv.pc_eq]; omega
  simp only [compile_bf, compile_bf_from]
  have hinit : ({ CompileState.init with pc := 0 } : CompileState) = CompileState.init := rfl
  rw [hinit, compile_loop_instructions, hrun]
  simp [hsp, hpc]

/-- After a successful compilation the program array agrees with the loop's
final array everywhere but at the end marker. -/
theorem compile_bf_program {src : List Char} (h : (compile_bf src).1 = SUCCESS) :
    ∃ s, Inv (instructions src) (instructions src).length s ∧ s.SP = 0 ∧
      (instructions src).length < PROGRAM_SIZE ∧
      (compile_bf src).2.pc = (instructions src).length ∧
      (∀ i, i ≠ (instructions src).length → (compile_bf src).2.PROGRAM i = s.PROGRAM i) ∧
      (compile_bf src).2.PROGRAM (instructions src).length = ⟨OP_END, 0⟩ := by
  obtain ⟨s, hinv, hsp, hlen, heq⟩ := compile_bf_final_state h
  refine ⟨s, hinv, hsp, hlen, ?_, ?_, ?_⟩
  · rw [heq]; exact hinv.pc_eq
  · intro i hi
    rw [heq]
    simp only [set_operator, hinv.pc_eq]
    exact store_other _ _ _ _ hi
  · rw [heq]
    simp only [set_operator, hinv.pc_eq, store_same, hinv.fresh _ (le_refl _)]

theorem Matched.lt_length {ins : List Char} {i j : Nat} (h : Matched ins i j) :
    i < j ∧ j < ins.length :=
  ⟨h.2.2.1, lt_length_of_getElem? h.2.1⟩

theorem compile_bf_pairs {src : List Char} {i j : Nat}
    (h : (compile_bf src).1 = SUCCESS) (hm : Matched (instructions src) i j) :
    (compile_bf src).2.PROGRAM i = ⟨OP_JMP_FWD, j⟩ ∧
      (compile_bf src).2.PROGRAM j = ⟨OP_JMP_BCK, i⟩ := by
  obtain ⟨s, hinv, _, _, _, hprog, _⟩ := compile_bf_program h
  obtain ⟨hij, hj⟩ := hm.lt_length
  rw [hprog i (by omega), hprog j (by omega)]
  exact hinv.pairs i j hj hm

theorem compile_bf_slot_operator {src : List Char} {i : Nat} {c : Char}
    (h : (compile_bf src).1 = SUCCESS) (hc : (instructions src)[i]? = some c) :
    ((compile_bf src).2.PROGRAM i).operator = opcode c := by
  obtain ⟨s, hinv, _, _, _, hprog, _⟩ := compile_bf_program h
  have hi := lt_length_of_getElem? hc
  rw [hprog i (by omega)]
  exact hinv.ops i c hi hc

theorem compile_bf_end {src : List Char} (h : (compile_bf src).1 = SUCCESS) :
    (compile_bf src).2.PROGRAM (instructions src).length = ⟨OP_END, 0⟩ := by
  obtain ⟨s, _, _, _, _, _, hend⟩ := compile_bf_program h
  exact hend

theorem compile_bf_beyond {src : List Char} {i : Nat}
    (h : (compile_bf src).1 = SUCCESS) (hi : (instructions src).length ≤ i) :
    (compile_bf src).2.PROGRAM i = ⟨0, 0⟩ := by
  obtain ⟨s, hinv, _, _, _, hprog, hend⟩ := compile_bf_program h
  by_cases hlen : i = (instructions src).length
  · rw [hlen]; exact hend
  · rw [hprog i hlen]; exact hinv.fresh i hi

theorem compile_bf_conditions {src : List Char} (h : (compile_bf src).1 = SUCCESS) :
    WellFormed (instructions src) ∧ (instructions src).length ≤ 4095 ∧
      ∀ x, x ≤ (instructions src).length → depth (instructions src) x ≤ 512 := by
  obtain ⟨s, hinv, hsp, hlen, _⟩ := compile_bf_program h
  simp only [PROGRAM_SIZE] at hlen
  exact ⟨hinv.wellFormed hsp, by omega, hinv.depth_hi⟩

theorem depth_no_brackets {l : List Char} (h1 : '[' ∉ l) (h2 : ']' ∉ l) (x : Nat) :
    depth l x = 0 := by
  have e1 : (l.take x).count '[' = 0 :=
    List.count_eq_zero_of_not_mem (fun hm => h1 (List.mem_of_mem_take hm))
  have e2 : (l.take x).count ']' = 0 :=
    List.count_eq_zero_of_not_mem (fun hm => h2 (List.mem_of_mem_take hm))
  simp [depth, e1, e2]

theorem wellFormed_no_brackets {l : List Char} (h1 : '[' ∉ l) (h2 : ']' ∉ l) :
    WellFormed l := by
  constructor
  · intro i _ ho
    exact absurd (List.getElem?_mem ho) h1
  · intro j _ hc
    exact absurd (List.getElem?_mem hc) h2

theorem instructions_eq_self {l : List Char} (h : ∀ c ∈ l, c ∈ instruction_chars) :
    instructions l = l := by
  simp only [instructions, List.filter_eq_self, decide_eq_true_eq]
  exact h

/-- A source without brackets made of at most 4095 instruction characters
compiles. -/
theorem compile_bf_no_brackets {l : List Char} (hins : ∀ c ∈ l, c ∈ instruction_chars)
    (h1 : '[' ∉ l) (h2 : ']' ∉ l) (hlen : l.length ≤ 4095) :
    (compile_bf l).1 = SUCCESS := by
  apply compile_bf_complete
  · rw [instructions_eq_self hins]; exact wellFormed_no_brackets h1 h2
  · rw [instructions_eq_self hins]; simp only [PROGRAM_SIZE]; omega
  · intro x _
    rw [instructions_eq_self hins, depth_no_brackets h1 h2]
    decide

/-- A source made of `k` copies of one non-bracket instruction character. -/
theorem replicate_facts (c : Char) (hc : c ∈ plain_chars) (k : Nat) (hk : k ≤ 4095) :
    (compile_bf (List.replicate k c)).1 = SUCCESS ∧
    (∀ i, i < k → ((compile_bf (List.replicate k c)).2.PROGRAM i).operator = opcode c) ∧
    (compile_bf (List.replicate k c)).2.PROGRAM k = ⟨OP_END, 0⟩ := by
  have hcin : c ∈ instruction_chars := by
    simp only [plain_chars, List.mem_cons, List.mem_singleton, List.not_mem_nil,
      or_false] at hc
    rcases hc with h | h | h | h | h | h | h | h | h | h <;> subst h <;> decide
  have hins : ∀ d ∈ List.replicate k c, d ∈ instruction_chars := by
    intro d hd
    rw [(List.mem_replicate.mp hd).2]; exact hcin
  have h1 : '[' ∉ List.replicate k c := by
    intro hd
    exact plain_ne_open hc (List.mem_replicate.mp hd).2.symm
  have h2 : ']' ∉ List.replicate k c := by
    intro hd
    exact plain_ne_close hc (List.mem_replicate.mp hd).2.symm
  have hs := compile_bf_no_brackets hins h1 h2 (by simpa using hk)
  have hself := instructions_eq_self hins
  refine ⟨hs, ?_, ?_⟩
  · intro i hi
    have hget : (instructions (List.replicate k c))[i]? = some c := by
      rw [hself]; simp [List.getElem?_replicate, hi]
    exact compile_bf_slot_operator hs hget
  · have := compile_bf_end hs
    rw [hself, List.length_replicate] at this
    exact this

/-! ## Claims about the compiler -/

/-- C1: when `compile_bf` returns SUCCESS, every `[` at instruction index `i`
and `]` at instruction index `j` that match in the usual nesting sense have
operands pointing at each other: `PROGRAM[i]` is `OP_JMP_FWD` with operand `j`
and `PROGRAM[j]` is `OP_JMP_BCK` with operand `i`. -/
theorem compile_bf_matched_operands (src : List Char) (i j : Nat)
    (hs : (compile_bf src).1 = SUCCESS) (hm : Matched (instructions src) i j) :
    ((compile_bf src).2.PROGRAM i).operator = OP_JMP_FWD ∧
    ((compile_bf src).2.PROGRAM i).operand = j ∧
    ((compile_bf src).2.PROGRAM j).operator = OP_JMP_BCK ∧
    ((compile_bf src).2.PROGRAM j).operand = i := by
  obtain ⟨h1, h2⟩ := compile_bf_pairs hs hm
  rw [h1, h2]
  exact ⟨rfl, rfl, rfl, rfl⟩

theorem compile_bf_matched_operands_witness :
    (compile_bf "a[+[-.]>]<".toList).1 = SUCCESS ∧
    Matched (instructions "a[+[-.]>]<".toList) 0 7 ∧
    ((compile_bf "a[+[-.]>]<".toList).2.PROGRAM 0).operator = OP_JMP_FWD ∧
    ((compile_bf "a[+[-.]>]<".toList).2.PROGRAM 0).operand = 7 ∧
    ((compile_bf "a[+[-.]>]<".toList).2.PROGRAM 7).operator = OP_JMP_BCK ∧
    ((compile_bf "a[+[-.]>]<".toList).2.PROGRAM 7).operand = 0 :=
  ⟨by decide, by decide,
    compile_bf_matched_operands "a[+[-.]>]<".toList 0 7 (by decide) (by decide)⟩

/-- The instruction list `[]` followed by `n` times `+` has one bracket pair. -/
theorem pair_then_plus_matched (n : Nat) :
    Matched ('[' :: ']' :: List.replicate n '+') 0 1 := by
  refine ⟨rfl, ?_, by omega, rfl, ?_⟩
  · simp only [List.getElem?_cons_succ, List.getElem?_cons_zero]
  intro x h1 h2
  have : x = 1 := by omega
  subst this
  exact le_refl _

theorem pair_then_plus_getElem? (n i : Nat) (c : Char)
    (h : ('[' :: ']' :: List.replicate n '+')[i]? = some c) (hc : c ≠ '+') : i < 2 := by
  by_contra hi
  obtain ⟨k, rfl⟩ : ∃ k, i = k + 2 := ⟨i - 2, by omega⟩
  simp only [List.getElem?_cons_succ] at h
  have := List.getElem?_mem h
  simp only [List.mem_replicate] at this
  exact hc this.2

theorem pair_then_plus_wellFormed (n : Nat) :
    WellFormed ('[' :: ']' :: List.replicate n '+') := by
  constructor
  · intro i _ ho
    have hi := pair_then_plus_getElem? n i '[' ho (by decide)
    have : i = 0 := by
      rcases Nat.lt_or_ge i 1 with h | h
      · omega
      · have : i = 1 := by omega
        subst this
        simp only [List.getElem?_cons_succ, List.getElem?_cons_zero] at ho
        exact absurd (Option.some.inj ho) (by decide)
    subst this
    exact ⟨1, by simp only [List.length_cons]; omega, pair_then_plus_matched n⟩
  · intro j _ hc
    have hj := pair_then_plus_getElem? n j ']' hc (by decide)
    have : j = 1 := by
      rcases Nat.lt_or_ge j 1 with h | h
      · have : j = 0 := by omega
        subst this
        simp only [List.getElem?_cons_zero] at hc
        exact absurd (Option.some.inj hc) (by decide)
      · omega
    subst this
    exact ⟨0, by omega, pair_then_plus_matched n⟩

theorem pair_then_plus_instructions (n : Nat) :
    instructions ('[' :: ']' :: List.replicate n '+') =
      '[' :: ']' :: List.replicate n '+' := by
  apply instructions_eq_self
  intro c hc
  simp only [List.mem_cons, List.mem_replicate] at hc
  rcases hc with rfl | rfl | ⟨_, rfl⟩ <;> decide

/-- C2, as stated, fails: the source `[]` followed by 4094 `+` has only
well-formed, balanced bracket pairs, and `compile_bf` returns FAILURE on it
because its 4096 instructions leave no slot for the end marker. -/
theorem compile_bf_balanced_overlong_fails :
    WellFormed (instructions ('[' :: ']' :: List.replicate 4094 '+')) ∧
    (compile_bf ('[' :: ']' :: List.replicate 4094 '+')).1 = FAILURE := by
  refine ⟨by rw [pair_then_plus_instructions]; exact pair_then_plus_wellFormed _, ?_⟩
  rcases compile_bf_status ('[' :: ']' :: List.replicate 4094 '+') with h | h
  · have := (compile_bf_conditions h).2.1
    rw [pair_then_plus_instructions] at this
    simp only [List.length_cons, List.length_replicate] at this
    omega
  · exact h

/-- C2, amended: a source whose brackets are well formed and balanced, that has
at most 4095 instruction characters and never more than 512 `[` open at once,
makes `compile_bf` return SUCCESS. -/
theorem compile_bf_balanced_within_capacity (src : List Char)
    (hwf : WellFormed (instructions src))
    (hlen : (instructions src).length ≤ 4095)
    (hdepth : ∀ x, x ≤ (instructions src).length → depth (instructions src) x ≤ 512) :
    (compile_bf src).1 = SUCCESS :=
  compile_bf_complete hwf (by simp only [PROGRAM_SIZE]; omega) hdepth

theorem compile_bf_balanced_within_capacity_witness :
    WellFormed (instructions "+[>[-]<-] done".toList) ∧
    (compile_bf "+[>[-]<-] done".toList).1 = SUCCESS :=
  ⟨by decide,
    compile_bf_balanced_within_capacity "+[>[-]<-] done".toList (by decide) (by decide)
      (by decide)⟩

/-- C3: a source that contains an unmatched `[` or an unmatched `]` makes
`compile_bf` return FAILURE, whatever else it contains and however long it is. -/
theorem compile_bf_unmatched_fails (src : List Char)
    (h : (∃ i, UnmatchedOpen (instructions src) i) ∨
      (∃ j, UnmatchedClose (instructions src) j)) :
    (compile_bf src).1 = FAILURE := by
  rcases compile_bf_status src with hs | hs
  · exfalso
    obtain ⟨hwf, _, _⟩ := compile_bf_conditions hs
    rcases h with ⟨i, ho, hno⟩ | ⟨j, hc, hno⟩
    · obtain ⟨j, hj, hm⟩ := hwf.1 i (lt_length_of_getElem? ho) ho
      exact hno j hj hm
    · obtain ⟨i, hi, hm⟩ := hwf.2 j (lt_length_of_getElem? hc) hc
      exact hno i hi hm
  · exact hs

theorem compile_bf_unmatched_fails_witness :
    UnmatchedOpen (instructions "a[[b]".toList) 0 ∧
    (compile_bf "a[[b]".toList).1 = FAILURE :=
  ⟨by decide, compile_bf_unmatched_fails "a[[b]".toList (Or.inl ⟨0, by decide⟩)⟩

/-! ### Boundary sources for the capacity limits -/

theorem depth_nested_low (n x : Nat) (hx : x ≤ n) :
    depth (List.replicate n '[' ++ List.replicate n ']') x = (x : Int) := by
  simp only [depth]
  rw [List.take_append_of_le_length (by simpa using hx), List.take_replicate,
    List.count_replicate, List.count_replicate]
  simp [Nat.min_eq_left hx]

theorem depth_nested_high (n x : Nat) (hx : n ≤ x) (hx2 : x ≤ 2 * n) :
    depth (List.replicate n '[' ++ List.replicate n ']') x = 2 * (n : Int) - x := by
  simp only [depth]
  rw [List.take_append_eq_append_take, List.take_replicate, List.take_replicate,
    List.count_append, List.count_append, List.count_replicate, List.count_replicate,
    List.count_replicate, List.count_replicate]
  simp only [List.length_replicate]
  have h1 : min x n = n := Nat.min_eq_right hx
  have h2 : min (x - n) n = x - n := Nat.min_eq_left (by omega)
  simp [h1, h2]
  omega

theorem nested_getElem?_low (n i : Nat) (hi : i < n) :
    (List.replicate n '[' ++ List.replicate n ']')[i]? = some '[' := by
  rw [List.getElem?_append_left (by simpa using hi)]
  simp [List.getElem?_replicate, hi]

theorem nested_getElem?_high (n i : Nat) (hi : n ≤ i) (hi2 : i < 2 * n) :
    (List.replicate n '[' ++ List.replicate n ']')[i]? = some ']' := by
  rw [List.getElem?_append_right (by simpa using hi)]
  simp only [List.length_replicate, List.getElem?_replicate]
  rw [if_pos (by omega)]

theorem nested_length (n : Nat) :
    (List.replicate n '[' ++ List.replicate n ']').length = 2 * n := by
  simp only [List.length_append, List.length_replicate]; omega

/-- In `n` opening brackets followed by `n` closing ones, the bracket at `i`
matches the one at `2 n - 1 - i`. -/
theorem nested_matched (n i : Nat) (hi : i < n) :
    Matched (List.replicate n '[' ++ List.replicate n ']') i (2 * n - 1 - i) := by
  refine ⟨nested_getElem?_low n i hi, nested_getElem?_high n _ (by omega) (by omega),
    by omega, ?_, ?_⟩
  · rw [depth_nested_high n _ (by omega) (by omega), depth_nested_low n _ (by omega)]
    omega
  · intro x hx1 hx2
    rw [depth_nested_low n _ (by omega)]
    rcases Nat.le_total x n with h | h
    · rw [depth_nested_low n x h]; omega
    · rw [depth_nested_high n x h (by omega)]; omega

theorem nested_wellFormed (n : Nat) :
    WellFormed (List.replicate n '[' ++ List.replicate n ']') := by
  constructor
  · intro i hi ho
    rw [nested_length] at hi
    have hin : i < n := by
      by_contra hge
      rw [nested_getElem?_high n i (by omega) hi] at ho
      exact absurd (Option.some.inj ho) (by decide)
    exact ⟨2 * n - 1 - i, by rw [nested_length]; omega, nested_matched n i hin⟩
  · intro j hj hc
    rw [nested_length] at hj
    have hjn : n ≤ j := by
      by_contra hlt
      rw [nested_getElem?_low n j (by omega)] at hc
      exact absurd (Option.some.inj hc) (by decide)
    have hm := nested_matched n (2 * n - 1 - j) (by omega)
    have e : 2 * n - 1 - (2 * n - 1 - j) = j := by omega
    rw [e] at hm
    exact ⟨2 * n - 1 - j, by omega, hm⟩

theorem nested_instructions (n : Nat) :
    instructions (List.replicate n '[' ++ List.replicate n ']') =
      List.replicate n '[' ++ List.replicate n ']' := by
  apply instructions_eq_self
  intro c hc
  simp only [List.mem_append, List.mem_replicate] at hc
  rcases hc with ⟨_, rfl⟩ | ⟨_, rfl⟩ <;> decide

theorem nested_depth_le (n x : Nat) (hx : x ≤ 2 * n) :
    depth (List.replicate n '[' ++ List.replicate n ']') x ≤ n := by
  rcases Nat.le_total x n with h | h
  · rw [depth_nested_low n x h]; omega
  · rw [depth_nested_high n x h hx]; omega

/-- Nesting up to the stack capacity compiles. -/
theorem compile_bf_nested (n : Nat) (hn : n ≤ 512) :
    (compile_bf (List.replicate n '[' ++ List.replicate n ']')).1 = SUCCESS := by
  apply compile_bf_complete
  · rw [nested_instructions]; exact nested_wellFormed n
  · rw [nested_instructions, nested_length]; simp only [PROGRAM_SIZE]; omega
  · intro x hx
    rw [nested_instructions] at hx ⊢
    rw [nested_length] at hx
    have := nested_depth_le n x hx
    omega

/-- Nesting beyond the stack capacity does not compile. -/
theorem compile_bf_nested_deep (n : Nat) (hn : 512 < n) :
    (compile_bf (List.replicate n '[' ++ List.replicate n ']')).1 = FAILURE := by
  rcases compile_bf_status (List.replicate n '[' ++ List.replicate n ']') with h | h
  · have hd := (compile_bf_conditions h).2.2 n (by rw [nested_instructions, nested_length]; omega)
    rw [nested_instructions, depth_nested_low n n (le_refl _)] at hd
    omega
  · exact h

/-- A source of more than 4095 copies of one instruction does not compile. -/
theorem compile_bf_replicate_long (c : Char) (hc : c ∈ instruction_chars) (n : Nat)
    (hn : 4095 < n) : (compile_bf (List.replicate n c)).1 = FAILURE := by
  rcases compile_bf_status (List.replicate n c) with h | h
  · have hl := (compile_bf_conditions h).2.1
    have hself : instructions (List.replicate n c) = List.replicate n c := by
      apply instructions_eq_self
      intro d hd
      rw [(List.mem_replicate.mp hd).2]; exact hc
    rw [hself, List.length_replicate] at hl
    omega
  · exact h

/-- C4: started on the initial globals (empty bracket stack), `compile_bf`
returns SUCCESS exactly when the brackets of the source are balanced, the
source has at most 4095 instruction characters, and at no point more than 512
`[` are open. At the boundaries: 4095 instructions compile and 4096 do not;
nesting depth 512 compiles and depth 513 does not. -/
theorem compile_bf_success_iff :
    (∀ src : List Char, (compile_bf src).1 = SUCCESS ↔
      (WellFormed (instructions src) ∧ (instructions src).length ≤ 4095 ∧
        ∀ x, x ≤ (instructions src).length → depth (instructions src) x ≤ 512)) ∧
    (compile_bf (List.replicate 4095 '+')).1 = SUCCESS ∧
    (compile_bf (List.replicate 4096 '+')).1 = FAILURE ∧
    (compile_bf ('[' :: ']' :: List.replicate 4094 '+')).1 = FAILURE ∧
    (compile_bf (List.replicate 512 '[' ++ List.replicate 512 ']')).1 = SUCCESS ∧
    (compile_bf (List.replicate 513 '[' ++ List.replicate 513 ']')).1 = FAILURE := by
  refine ⟨fun src => ⟨compile_bf_conditions, ?_⟩, ?_, ?_, ?_, ?_, ?_⟩
  · rintro ⟨hwf, hlen, hdepth⟩
    exact compile_bf_complete hwf (by simp only [PROGRAM_SIZE]; omega) hdepth
  · exact (replicate_facts '+' (by decide) 4095 (le_refl _)).1
  · exact compile_bf_replicate_long '+' (by decide) 4096 (by omega)
  · rcases compile_bf_status ('[' :: ']' :: List.replicate 4094 '+') with h | h
    · have := (compile_bf_conditions h).2.1
      rw [pair_then_plus_instructions] at this
      simp only [List.length_cons, List.length_replicate] at this
      omega
    · exact h
  · exact compile_bf_nested 512 (le_refl _)
  · exact compile_bf_nested_deep 513 (by omega)

/-- C5: when `compile_bf` returns SUCCESS, the operator stored at index `i` is
the opcode of the `i`-th instruction character of the source (characters
outside the alphabet take no slot), the slot after the last instruction holds
`OP_END`, and the cursor ends at the number of instruction characters. -/
theorem compile_bf_operators (src : List Char) (hs : (compile_bf src).1 = SUCCESS) :
    (∀ i c, (instructions src)[i]? = some c →
      ((compile_bf src).2.PROGRAM i).operator = opcode c) ∧
    ((compile_bf src).2.PROGRAM (instructions src).length).operator = OP_END ∧
    (compile_bf src).2.pc = (instructions src).length ∧
    instruction_chars.map opcode =
      [OP_INC_DP, OP_DEC_DP, OP_INC_VAL, OP_DEC_VAL, OP_OUT, OP_IN, OP_JMP_FWD, OP_JMP_BCK,
        OP_THREAD, OP_CHILD_DIE, OP_NOOP, OP_WAIT] := by
  refine ⟨fun i c hc => compile_bf_slot_operator hs hc, ?_, ?_, by decide⟩
  · rw [compile_bf_end hs]
  · obtain ⟨_, _, _, _, hpc, _⟩ := compile_bf_program hs
    exact hpc

theorem compile_bf_operators_witness :
    (compile_bf " x+[y-]/%#!".toList).1 = SUCCESS ∧
    instructions " x+[y-]/%#!".toList = "+[-]/%#!".toList ∧
    ((∀ i c, (instructions " x+[y-]/%#!".toList)[i]? = some c →
      ((compile_bf " x+[y-]/%#!".toList).2.PROGRAM i).operator = opcode c) ∧
    ((compile_bf " x+[y-]/%#!".toList).2.PROGRAM
      (instructions " x+[y-]/%#!".toList).length).operator = OP_END ∧
    (compile_bf " x+[y-]/%#!".toList).2.pc = (instructions " x+[y-]/%#!".toList).length ∧
    instruction_chars.map opcode =
      [OP_INC_DP, OP_DEC_DP, OP_INC_VAL, OP_DEC_VAL, OP_OUT, OP_IN, OP_JMP_FWD, OP_JMP_BCK,
        OP_THREAD, OP_CHILD_DIE, OP_NOOP, OP_WAIT]) :=
  ⟨by decide, by decide, compile_bf_operators " x+[y-]/%#!".toList (by decide)⟩

/-! ## The dispatch loop, case by case -/

theorem step_inc_dp {pid : Int} {P : Nat → instruction_t} {s : ExecState}
    (h : (P s.pc).operator = OP_INC_DP) :
    step pid P s = advance { s with ptr := u32 (s.ptr + 1) } := by
  simp [step, h, OP_INC_DP]

theorem step_dec_dp {pid : Int} {P : Nat → instruction_t} {s : ExecState}
    (h : (P s.pc).operator = OP_DEC_DP) :
    step pid P s = advance { s with ptr := u32 (s.ptr + 4294967295) } := by
  simp [step, h, OP_INC_DP, OP_DEC_DP]

theorem step_inc_val {pid : Int} {P : Nat → instruction_t} {s : ExecState}
    (h : (P s.pc).operator = OP_INC_VAL) :
    step pid P s =
      advance { s with data := store s.data s.ptr (to_short (s.data s.ptr + 1)) } := by
  simp [step, h, OP_INC_DP, OP_DEC_DP, OP_INC_VAL]

theorem step_dec_val {pid : Int} {P : Nat → instruction_t} {s : ExecState}
    (h : (P s.pc).operator = OP_DEC_VAL) :
    step pid P s =
      advance { s with data := store s.data s.ptr (to_short (s.data s.ptr - 1)) } := by
  simp [step, h, OP_INC_DP, OP_DEC_DP, OP_INC_VAL, OP_DEC_VAL]

theorem step_out {pid : Int} {P : Nat → instruction_t} {s : ExecState}
    (h : (P s.pc).operator = OP_OUT) :
    step pid P s = advance { s with stdout := s.stdout ++ [to_uchar (s.data s.ptr)] } := by
  simp [step, h, OP_INC_DP, OP_DEC_DP, OP_INC_VAL, OP_DEC_VAL, OP_OUT]

theorem step_in {pid : Int} {P : Nat → instruction_t} {s : ExecState}
    (h : (P s.pc).operator = OP_IN) :
    step pid P s =
      advance { s with data := store s.data s.ptr (to_short (to_uint (getchar s.stdin).1)),
                       stdin := (getchar s.stdin).2 } := by
  simp [step, h, OP_INC_DP, OP_DEC_DP, OP_INC_VAL, OP_DEC_VAL, OP_OUT, OP_IN]

theorem step_jmp_fwd {pid : Int} {P : Nat → instruction_t} {s : ExecState}
    (h : (P s.pc).operator = OP_JMP_FWD) :
    step pid P s =
      if s.data s.ptr = 0 then advance { s with pc := (P s.pc).operand } else advance s := by
  simp [step, h, OP_INC_DP, OP_DEC_DP, OP_INC_VAL, OP_DEC_VAL, OP_OUT, OP_IN, OP_JMP_FWD]

theorem step_jmp_bck {pid : Int} {P : Nat → instruction_t} {s : ExecState}
    (h : (P s.pc).operator = OP_JMP_BCK) :
    step pid P s =
      if s.data s.ptr ≠ 0 then advance { s with pc := (P s.pc).operand } else advance s := by
  simp [step, h, OP_INC_DP, OP_DEC_DP, OP_INC_VAL, OP_DEC_VAL, OP_OUT, OP_IN, OP_JMP_FWD,
    OP_JMP_BCK]

theorem step_thread {pid : Int} {P : Nat → instruction_t} {s : ExecState}
    (h : (P s.pc).operator = OP_THREAD) :
    step pid P s =
      if CHILDREN_SIZE ≤ s.CHILD then
        .returned FAILURE { s with stdout := s.stdout ++ limit_message }
      else if pid = 0 then
        advance { s with isChild := true, pc := u16 (s.pc + 20), forks := 0 }
      else
        advance { s with CHILD := u32 (s.CHILD + 1), forks := s.forks + 1 } := by
  simp [step, h, OP_INC_DP, OP_DEC_DP, OP_INC_VAL, OP_DEC_VAL, OP_OUT, OP_IN, OP_JMP_FWD,
    OP_JMP_BCK, OP_THREAD]

theorem step_child_die {pid : Int} {P : Nat → instruction_t} {s : ExecState}
    (h : (P s.pc).operator = OP_CHILD_DIE) :
    step pid P s = if s.isChild then .exited s else advance s := by
  simp [step, h, OP_INC_DP, OP_DEC_DP, OP_INC_VAL, OP_DEC_VAL, OP_OUT, OP_IN, OP_JMP_FWD,
    OP_JMP_BCK, OP_THREAD, OP_CHILD_DIE]

theorem step_wait {pid : Int} {P : Nat → instruction_t} {s : ExecState}
    (h : (P s.pc).operator = OP_WAIT) : step pid P s = advance s := by
  simp [step, h, OP_INC_DP, OP_DEC_DP, OP_INC_VAL, OP_DEC_VAL, OP_OUT, OP_IN, OP_JMP_FWD,
    OP_JMP_BCK, OP_THREAD, OP_CHILD_DIE, OP_WAIT]

theorem step_noop {pid : Int} {P : Nat → instruction_t} {s : ExecState}
    (h : (P s.pc).operator = OP_NOOP) : step pid P s = advance s := by
  simp [step, h, OP_INC_DP, OP_DEC_DP, OP_INC_VAL, OP_DEC_VAL, OP_OUT, OP_IN, OP_JMP_FWD,
    OP_JMP_BCK, OP_THREAD, OP_CHILD_DIE, OP_WAIT, OP_NOOP]

/-- One turn of the loop whose condition holds and whose body reaches `pc++`. -/
theorem execute_loop_body {pid : Int} {P : Nat → instruction_t} {s s1 : ExecState}
    (fuel : Nat) (hpc : s.pc < PROGRAM_SIZE) (hop : (P s.pc).operator ≠ OP_END)
    (hptr : s.ptr < DATA_SIZE) (hstep : step pid P s = .next s1) :
    execute_loop pid P (fuel + 1) s = execute_loop pid P fuel s1 := by
  have h1 : ¬ PROGRAM_SIZE ≤ s.pc := by omega
  simp only [execute_loop, h1, if_false, hop, hptr, ne_eq, not_false_eq_true, and_self,
    if_true, hstep]

/-- The loop condition fails on the end marker: the final `return`. -/
theorem execute_loop_end {pid : Int} {P : Nat → instruction_t} {s : ExecState}
    (fuel : Nat) (hpc : s.pc < PROGRAM_SIZE) (hop : (P s.pc).operator = OP_END) :
    execute_loop pid P (fuel + 1) s =
      some (.returned (if s.ptr ≠ DATA_SIZE then SUCCESS else FAILURE) s) := by
  have h1 : ¬ PROGRAM_SIZE ≤ s.pc := by omega
  simp [execute_loop, h1, hop]

/-- The loop condition fails on a data pointer outside the tape: the final
`return`. -/
theorem execute_loop_range {pid : Int} {P : Nat → instruction_t} {s : ExecState}
    (fuel : Nat) (hpc : s.pc < PROGRAM_SIZE) (hptr : ¬ s.ptr < DATA_SIZE) :
    execute_loop pid P (fuel + 1) s =
      some (.returned (if s.ptr ≠ DATA_SIZE then SUCCESS else FAILURE) s) := by
  have h1 : ¬ PROGRAM_SIZE ≤ s.pc := by omega
  simp [execute_loop, h1, hptr]

theorem store_zero_const (i : Nat) : store (fun _ => (0 : Int)) i 0 = fun _ => 0 := by
  funext k
  simp [store]

theorem zero_loop_zero : ∀ n : Nat, zero_loop n (fun _ => 0) = (0, fun _ => 0)
  | 0 => rfl
  | n + 1 => by
    simp only [zero_loop]
    split_ifs
    · rfl
    · rw [store_zero_const]; exact zero_loop_zero n

/-- The dispatch loop is entered with `ptr = 0` on an all-zero tape. -/
theorem ExecState.init_eq (input : List Nat) :
    ExecState.init input =
      { pc := 0, ptr := 0, isChild := false, CHILD := 0, data := fun _ => 0,
        stdin := input, stdout := [], forks := 0 } := by
  simp only [ExecState.init, zero_loop_zero]

/-! ## Claims about the execution engine -/

/-- The source made of `k` times `+` followed by `.`. -/
theorem plus_dot_facts (k : Nat) (hk : k ≤ 4094) :
    (compile_bf (List.replicate k '+' ++ ['.'])).1 = SUCCESS ∧
    (∀ i, i < k →
      ((compile_bf (List.replicate k '+' ++ ['.'])).2.PROGRAM i).operator = OP_INC_VAL) ∧
    ((compile_bf (List.replicate k '+' ++ ['.'])).2.PROGRAM k).operator = OP_OUT ∧
    ((compile_bf (List.replicate k '+' ++ ['.'])).2.PROGRAM (k + 1)).operator = OP_END := by
  have hmem : ∀ c ∈ List.replicate k '+' ++ ['.'], c = '+' ∨ c = '.' := by
    intro c hc
    simp only [List.mem_append, List.mem_replicate, List.mem_singleton] at hc
    rcases hc with ⟨_, h⟩ | h
    · exact Or.inl h
    · exact Or.inr h
  have hins : ∀ c ∈ List.replicate k '+' ++ ['.'], c ∈ instruction_chars := by
    intro c hc
    rcases hmem c hc with rfl | rfl <;> decide
  have h1 : '[' ∉ List.replicate k '+' ++ ['.'] := by
    intro hc
    rcases hmem _ hc with h | h <;> exact absurd h (by decide)
  have h2 : ']' ∉ List.replicate k '+' ++ ['.'] := by
    intro hc
    rcases hmem _ hc with h | h <;> exact absurd h (by decide)
  have hlen : (List.replicate k '+' ++ ['.']).length = k + 1 := by
    simp only [List.length_append, List.length_replicate, List.length_singleton]
  have hs := compile_bf_no_brackets hins h1 h2 (by omega)
  have hself := instructions_eq_self hins
  refine ⟨hs, ?_, ?_, ?_⟩
  · intro i hi
    have hc : (instructions (List.replicate k '+' ++ ['.']))[i]? = some '+' := by
      rw [hself, List.getElem?_append_left (by simpa using hi)]
      simp [List.getElem?_replicate, hi]
    rw [compile_bf_slot_operator hs hc]; rfl
  · have hc : (instructions (List.replicate k '+' ++ ['.']))[k]? = some '.' := by
      rw [hself, List.getElem?_append_right (by simp)]
      simp
    rw [compile_bf_slot_operator hs hc]; rfl
  · have := compile_bf_end hs
    rw [hself, hlen] at this
    rw [this]

/-- Running `k` increments and one output from cell value `j`, `m` increments
before the output. -/
theorem plus_dot_run (pid : Int) (P : Nat → instruction_t) (k : Nat) (hk : k ≤ 4094)
    (hplus : ∀ i, i < k → (P i).operator = OP_INC_VAL)
    (hdot : (P k).operator = OP_OUT) (hend : (P (k + 1)).operator = OP_END) :
    ∀ (m j : Nat) (s : ExecState), j + m = k → s.pc = j → s.ptr = 0 →
      s.data 0 = (j : Int) → s.stdout = [] → ∀ fuel, m + 2 ≤ fuel →
      ∃ s2, execute_loop pid P fuel s = some (.returned SUCCESS s2) ∧
        s2.stdout = [k % 256] ∧ s2.ptr = 0 ∧ s2.pc = k + 1 := by
  intro m
  induction m with
  | zero =>
    intro j s hj hpc hptr hdata hout fuel hfuel
    obtain ⟨f, rfl⟩ : ∃ f, fuel = f + 1 + 1 := ⟨fuel - 2, by omega⟩
    have hjk : j = k := by omega
    subst hjk
    have hop : (P s.pc).operator = OP_OUT := by rw [hpc]; exact hdot
    have hstep := @step_out pid _ _ hop
    simp only [advance] at hstep
    rw [execute_loop_body (f + 1) (by rw [hpc]; simp only [PROGRAM_SIZE]; omega)
      (by rw [hop]; decide) (by rw [hptr]; decide) hstep]
    have hpc2 : u16 (s.pc + 1) = j + 1 := by rw [hpc]; simp only [u16]; omega
    rw [execute_loop_end f (by simp only [hpc2, PROGRAM_SIZE]; omega)
      (by simp only [hpc2]; exact hend)]
    refine ⟨{ s with pc := u16 (s.pc + 1),
                     stdout := s.stdout ++ [to_uchar (s.data s.ptr)] }, ?_, ?_, ?_, ?_⟩
    · simp only [hptr]; rfl
    · simp only [hout, hptr, hdata, List.nil_append, to_uchar]
      rfl
    · exact hptr
    · exact hpc2
  | succ m ih =>
    intro j s hj hpc hptr hdata hout fuel hfuel
    obtain ⟨f, rfl⟩ : ∃ f, fuel = f + 1 := ⟨fuel - 1, by omega⟩
    have hop : (P s.pc).operator = OP_INC_VAL := by rw [hpc]; exact hplus j (by omega)
    have hstep := @step_inc_val pid _ _ hop
    simp only [advance] at hstep
    rw [execute_loop_body f (by rw [hpc]; simp only [PROGRAM_SIZE]; omega)
      (by rw [hop]; decide) (by rw [hptr]; decide) hstep]
    apply ih (j + 1) _ (by omega)
    · show u16 (s.pc + 1) = j + 1
      rw [hpc]; simp only [u16]; omega
    · exact hptr
    · show store s.data s.ptr (to_short (s.data s.ptr + 1)) 0 = ((j + 1 : Nat) : Int)
      rw [hptr, store_same, hdata]
      simp only [to_short]
      omega
    · exact hout
    · omega

/-- C6: for every `k` from 0 to 4094 the source of `k` times `+` followed by
`.` compiles, and the root context, started on the all-zero tape at cell 0,
returns having written exactly one byte, `k mod 256`. -/
theorem execute_bf_plus_dot (k : Nat) (hk : k ≤ 4094) (pid : Int) (input : List Nat)
    (fuel : Nat) (hfuel : k + 2 ≤ fuel) :
    (compile_bf (List.replicate k '+' ++ ['.'])).1 = SUCCESS ∧
    (ExecState.init input).ptr = 0 ∧ (∀ i, (ExecState.init input).data i = 0) ∧
    ∃ s, execute_bf fuel pid (compile_bf (List.replicate k '+' ++ ['.'])).2.PROGRAM input =
        some (.returned SUCCESS s) ∧ s.stdout = [k % 256] := by
  obtain ⟨hs, hplus, hdot, hend⟩ := plus_dot_facts k hk
  refine ⟨hs, by rw [ExecState.init_eq], by intro i; rw [ExecState.init_eq], ?_⟩
  obtain ⟨s2, hrun, hout, _, _⟩ := plus_dot_run pid _ k hk hplus hdot hend k 0
    (ExecState.init input) (by omega) (by rw [ExecState.init_eq]) (by rw [ExecState.init_eq])
    (by rw [ExecState.init_eq]; simp) (by rw [ExecState.init_eq]) fuel hfuel
  exact ⟨s2, hrun, hout⟩

theorem execute_bf_plus_dot_witness :
    (3 ≤ 4094 ∧ 3 + 2 ≤ 5) ∧
    (compile_bf "+++.".toList).1 = SUCCESS ∧
    (ExecState.init []).ptr = 0 ∧ (∀ i, (ExecState.init []).data i = 0) ∧
    ∃ s, execute_bf 5 1 (compile_bf "+++.".toList).2.PROGRAM [] =
        some (.returned SUCCESS s) ∧ s.stdout = [3] :=
  ⟨by decide, execute_bf_plus_dot 3 (by decide) 1 [] 5 (by decide)⟩

/-- A begin-loop dispatched on a zero cell continues just after its partner. -/
theorem step_begin_loop_zero {src : List Char} {i : Nat} (pid : Int) {s : ExecState}
    (hs : (compile_bf src).1 = SUCCESS) (hopen : (instructions src)[i]? = some '[')
    (hpc : s.pc = i) (hz : s.data s.ptr = 0) :
    ∃ j, Matched (instructions src) i j ∧ ((compile_bf src).2.PROGRAM i).operand = j ∧
      step pid (compile_bf src).2.PROGRAM s = .next { s with pc := j + 1 } := by
  obtain ⟨hwf, hlen, _⟩ := compile_bf_conditions hs
  obtain ⟨j, hj, hm⟩ := hwf.1 i (lt_length_of_getElem? hopen) hopen
  obtain ⟨h1, _⟩ := compile_bf_pairs hs hm
  refine ⟨j, hm, by rw [h1], ?_⟩
  have hop : ((compile_bf src).2.PROGRAM s.pc).operator = OP_JMP_FWD := by rw [hpc, h1]
  rw [step_jmp_fwd hop, if_pos hz, hpc, h1]
  simp only [advance, u16]
  have : (j + 1) % 65536 = j + 1 := by omega
  rw [this]

/-- C7: in a successfully compiled program, a begin-loop dispatched at index
`i` while the current cell is 0 makes the next instruction the one just after
the matching end-loop (operand + 1) and changes nothing else: tape, data
pointer and output stay as they were and no body instruction is dispatched.
For the source `[-]` on the zero tape the run consists of that one dispatch:
it returns after two evaluations of the loop condition, with cell 0 still 0
and nothing written. -/
theorem begin_loop_zero_skips_body :
    (∀ (src : List Char) (i : Nat) (pid : Int) (s : ExecState),
      (compile_bf src).1 = SUCCESS → (instructions src)[i]? = some '[' →
      s.pc = i → s.data s.ptr = 0 →
      ∃ j, Matched (instructions src) i j ∧ ((compile_bf src).2.PROGRAM i).operand = j ∧
        step pid (compile_bf src).2.PROGRAM s = .next { s with pc := j + 1 }) ∧
    (compile_bf "[-]".toList).1 = SUCCESS ∧
    ∀ (pid : Int) (input : List Nat),
      execute_bf 2 pid (compile_bf "[-]".toList).2.PROGRAM input =
        some (.returned SUCCESS
          { pc := 3, ptr := 0, isChild := false, CHILD := 0, data := fun _ => 0,
            stdin := input, stdout := [], forks := 0 }) := by
  refine ⟨fun src i pid s hs hopen hpc hz => step_begin_loop_zero pid hs hopen hpc hz,
    by decide, ?_⟩
  intro pid input
  have hs2 : (compile_bf "[-]".toList).1 = SUCCESS := by decide
  obtain ⟨j, _, hj, hstep⟩ := step_begin_loop_zero (i := 0) pid
    (s := { pc := 0, ptr := 0, isChild := false, CHILD := 0, data := fun _ => 0,
            stdin := input, stdout := [], forks := 0 }) hs2 (by decide) rfl rfl
  have hj2 : j = 2 := by rw [← hj]; decide
  subst hj2
  have h0 : ((compile_bf "[-]".toList).2.PROGRAM 0).operator ≠ OP_END := by decide
  have h3 : ((compile_bf "[-]".toList).2.PROGRAM 3).operator = OP_END := by decide
  rw [execute_bf, ExecState.init_eq,
    execute_loop_body 1 (show (0 : Nat) < PROGRAM_SIZE by decide) h0
      (show (0 : Nat) < DATA_SIZE by decide) hstep,
    execute_loop_end 0 (show (3 : Nat) < PROGRAM_SIZE by decide) h3]
  rfl

theorem begin_loop_zero_skips_body_witness :
    (compile_bf "+[-]".toList).1 = SUCCESS ∧
    (∃ j, Matched (instructions "+[-]".toList) 1 j ∧
      ((compile_bf "+[-]".toList).2.PROGRAM 1).operand = j ∧
      step 1 (compile_bf "+[-]".toList).2.PROGRAM
          { pc := 1, ptr := 0, isChild := false, CHILD := 0, data := fun _ => 0,
            stdin := [], stdout := [], forks := 0 } =
        .next { pc := j + 1, ptr := 0, isChild := false, CHILD := 0, data := fun _ => 0,
                stdin := [], stdout := [], forks := 0 }) :=
  ⟨by decide,
    begin_loop_zero_skips_body.1 "+[-]".toList 1 1
      { pc := 1, ptr := 0, isChild := false, CHILD := 0, data := fun _ => 0,
        stdin := [], stdout := [], forks := 0 } (by decide) (by decide) rfl rfl⟩

/-- A `return` inside the loop body ends the call with that status. -/
theorem execute_loop_returned {pid : Int} {P : Nat → instruction_t} {s s1 : ExecState}
    {r : Nat} (fuel : Nat) (hpc : s.pc < PROGRAM_SIZE) (hop : (P s.pc).operator ≠ OP_END)
    (hptr : s.ptr < DATA_SIZE) (hstep : step pid P s = .returned r s1) :
    execute_loop pid P (fuel + 1) s = some (.returned r s1) := by
  have h1 : ¬ PROGRAM_SIZE ≤ s.pc := by omega
  simp only [execute_loop, h1, if_false, hop, hptr, ne_eq, not_false_eq_true, and_self,
    if_true, hstep]

/-- An `_exit` inside the loop body ends the process there. -/
theorem execute_loop_exited {pid : Int} {P : Nat → instruction_t} {s s1 : ExecState}
    (fuel : Nat) (hpc : s.pc < PROGRAM_SIZE) (hop : (P s.pc).operator ≠ OP_END)
    (hptr : s.ptr < DATA_SIZE) (hstep : step pid P s = .exited s1) :
    execute_loop pid P (fuel + 1) s = some (.exited s1) := by
  have h1 : ¬ PROGRAM_SIZE ≤ s.pc := by omega
  simp only [execute_loop, h1, if_false, hop, hptr, ne_eq, not_false_eq_true, and_self,
    if_true, hstep]

/-- A decrement of the data pointer at cell 0 stops the loop, and the call
returns SUCCESS: the wrapped pointer `2^32 - 1` differs from `DATA_SIZE`. -/
theorem execute_loop_dec_at_zero {pid : Int} {P : Nat → instruction_t} {s : ExecState}
    (fuel : Nat) (hpc : s.pc + 1 < PROGRAM_SIZE) (hop : (P s.pc).operator = OP_DEC_DP)
    (hptr : s.ptr = 0) :
    execute_loop pid P (fuel + 2) s =
      some (.returned SUCCESS { s with pc := s.pc + 1, ptr := 4294967295 }) := by
  have hstep := @step_dec_dp pid _ _ hop
  simp only [advance] at hstep
  simp only [PROGRAM_SIZE] at hpc
  have e1 : u16 (s.pc + 1) = s.pc + 1 := by simp only [u16]; omega
  have e2 : u32 (s.ptr + 4294967295) = 4294967295 := by rw [hptr]; rfl
  rw [e1, e2] at hstep
  rw [execute_loop_body (fuel + 1) (by simp only [PROGRAM_SIZE]; omega) (by rw [hop]; decide)
    (by rw [hptr]; decide) hstep,
    execute_loop_range fuel (by simp only [PROGRAM_SIZE]; omega)
      (show ¬ (4294967295 : Nat) < DATA_SIZE by decide)]
  rfl

/-- An increment of the data pointer at the last cell stops the loop, and the
call returns FAILURE. -/
theorem execute_loop_inc_at_last {pid : Int} {P : Nat → instruction_t} {s : ExecState}
    (fuel : Nat) (hpc : s.pc + 1 < PROGRAM_SIZE) (hop : (P s.pc).operator = OP_INC_DP)
    (hptr : s.ptr = 65534) :
    execute_loop pid P (fuel + 2) s =
      some (.returned FAILURE { s with pc := s.pc + 1, ptr := 65535 }) := by
  have hstep := @step_inc_dp pid _ _ hop
  simp only [advance] at hstep
  simp only [PROGRAM_SIZE] at hpc
  have e1 : u16 (s.pc + 1) = s.pc + 1 := by simp only [u16]; omega
  have e2 : u32 (s.ptr + 1) = 65535 := by rw [hptr]; rfl
  rw [e1, e2] at hstep
  rw [execute_loop_body (fuel + 1) (by simp only [PROGRAM_SIZE]; omega) (by rw [hop]; decide)
    (by rw [hptr]; decide) hstep,
    execute_loop_range fuel (by simp only [PROGRAM_SIZE]; omega)
      (show ¬ (65535 : Nat) < DATA_SIZE by decide)]
  rfl

/-- C8, the failing input: the source `<` compiles, the root context
decrements the data pointer at cell 0, the run stops at that point with the
pointer wrapped to `2^32 - 1`, and `execute_bf` returns SUCCESS, not FAILURE. -/
theorem execute_bf_dec_below_tape_returns_success :
    (compile_bf "<".toList).1 = SUCCESS ∧
    ∀ (pid : Int) (input : List Nat),
      execute_bf 2 pid (compile_bf "<".toList).2.PROGRAM input =
        some (.returned SUCCESS
          { pc := 1, ptr := 4294967295, isChild := false, CHILD := 0, data := fun _ => 0,
            stdin := input, stdout := [], forks := 0 }) := by
  refine ⟨by decide, ?_⟩
  intro pid input
  have hop : ((compile_bf "<".toList).2.PROGRAM 0).operator = OP_DEC_DP := by decide
  rw [execute_bf, ExecState.init_eq,
    execute_loop_dec_at_zero 0 (show (0 : Nat) + 1 < PROGRAM_SIZE by decide) hop rfl]

/-- While the child count is below the cap, a run of spawn instructions in the
calling process forks once per instruction. -/
theorem thread_run (pid : Int) (hpid : pid ≠ 0) (P : Nat → instruction_t) (n : Nat)
    (hthr : ∀ i, i < n → (P i).operator = OP_THREAD) :
    ∀ (m j : Nat) (s : ExecState), j + m ≤ 20 → j + m ≤ n → s.pc = j → s.CHILD = j →
      s.forks = j → s.ptr < DATA_SIZE → ∀ fuel,
      execute_loop pid P (fuel + m) s =
        execute_loop pid P fuel { s with pc := j + m, CHILD := j + m, forks := j + m } := by
  intro m
  induction m with
  | zero =>
    intro j s _ _ hpc hch hfk _ fuel
    have : ({ s with pc := j + 0, CHILD := j + 0, forks := j + 0 } : ExecState) = s := by
      cases s
      simp only at hpc hch hfk
      simp [hpc, hch, hfk]
    rw [this]; rfl
  | succ m ih =>
    intro j s h20 hjn hpc hch hfk hptr fuel
    have hop : (P s.pc).operator = OP_THREAD := by rw [hpc]; exact hthr j (by omega)
    have hstep := @step_thread pid _ _ hop
    rw [if_neg (by rw [hch]; simp only [CHILDREN_SIZE]; omega), if_neg hpid] at hstep
    simp only [advance] at hstep
    have e1 : u16 (s.pc + 1) = j + 1 := by rw [hpc]; simp only [u16]; omega
    have e2 : u32 (s.CHILD + 1) = j + 1 := by rw [hch]; simp only [u32]; omega
    rw [e1, e2, hfk] at hstep
    have hfuel : fuel + (m + 1) = (fuel + m) + 1 := by omega
    rw [hfuel, execute_loop_body (fuel + m) (by rw [hpc]; simp only [PROGRAM_SIZE]; omega)
      (by rw [hop]; decide) hptr hstep]
    have key := ih (j + 1) { s with pc := j + 1, CHILD := j + 1, forks := j + 1 }
      (by omega) (by omega) rfl rfl rfl hptr fuel
    have e3 : j + 1 + m = j + (m + 1) := by omega
    rw [e3] at key
    exact key

theorem step_unknown {pid : Int} {P : Nat → instruction_t} {s : ExecState}
    (h1 : (P s.pc).operator ≠ OP_INC_DP) (h2 : (P s.pc).operator ≠ OP_DEC_DP)
    (h3 : (P s.pc).operator ≠ OP_INC_VAL) (h4 : (P s.pc).operator ≠ OP_DEC_VAL)
    (h5 : (P s.pc).operator ≠ OP_OUT) (h6 : (P s.pc).operator ≠ OP_IN)
    (h7 : (P s.pc).operator ≠ OP_JMP_FWD) (h8 : (P s.pc).operator ≠ OP_JMP_BCK)
    (h9 : (P s.pc).operator ≠ OP_THREAD) (h10 : (P s.pc).operator ≠ OP_CHILD_DIE)
    (h11 : (P s.pc).operator ≠ OP_WAIT) (h12 : (P s.pc).operator ≠ OP_NOOP) :
    step pid P s = .returned FAILURE s := by
  simp only [step, h1, h2, h3, h4, h5, h6, h7, h8, h9, h10, h11, h12, if_false]

/-- What a loop body that reaches `pc++` does to the registry fields: nothing,
unless it is a spawn below the cap. -/
theorem step_next_frame {pid : Int} {P : Nat → instruction_t} {t u : ExecState}
    (hstep : step pid P t = .next u) :
    (u.CHILD = t.CHILD ∧ u.forks = t.forks ∧ u.isChild = t.isChild) ∨
    ((P t.pc).operator = OP_THREAD ∧ t.CHILD < CHILDREN_SIZE ∧
      ((pid ≠ 0 ∧ u.CHILD = u32 (t.CHILD + 1) ∧ u.forks = t.forks + 1 ∧
          u.isChild = t.isChild) ∨
       (pid = 0 ∧ u.CHILD = t.CHILD ∧ u.forks = 0 ∧ u.isChild = true))) := by
  by_cases h1 : (P t.pc).operator = OP_INC_DP
  · rw [step_inc_dp h1] at hstep
    simp only [advance, StepResult.next.injEq] at hstep
    subst hstep; exact Or.inl ⟨rfl, rfl, rfl⟩
  by_cases h2 : (P t.pc).operator = OP_DEC_DP
  · rw [step_dec_dp h2] at hstep
    simp only [advance, StepResult.next.injEq] at hstep
    subst hstep; exact Or.inl ⟨rfl, rfl, rfl⟩
  by_cases h3 : (P t.pc).operator = OP_INC_VAL
  · rw [step_inc_val h3] at hstep
    simp only [advance, StepResult.next.injEq] at hstep
    subst hstep; exact Or.inl ⟨rfl, rfl, rfl⟩
  by_cases h4 : (P t.pc).operator = OP_DEC_VAL
  · rw [step_dec_val h4] at hstep
    simp only [advance, StepResult.next.injEq] at hstep
    subst hstep; exact Or.inl ⟨rfl, rfl, rfl⟩
  by_cases h5 : (P t.pc).operator = OP_OUT
  · rw [step_out h5] at hstep
    simp only [advance, StepResult.next.injEq] at hstep
    subst hstep; exact Or.inl ⟨rfl, rfl, rfl⟩
  by_cases h6 : (P t.pc).operator = OP_IN
  · rw [step_in h6] at hstep
    simp only [advance, StepResult.next.injEq] at hstep
    subst hstep; exact Or.inl ⟨rfl, rfl, rfl⟩
  by_cases h7 : (P t.pc).operator = OP_JMP_FWD
  · rw [step_jmp_fwd h7] at hstep
    split_ifs at hstep <;>
      (simp only [advance, StepResult.next.injEq] at hstep
       subst hstep; exact Or.inl ⟨rfl, rfl, rfl⟩)
  by_cases h8 : (P t.pc).operator = OP_JMP_BCK
  · rw [step_jmp_bck h8] at hstep
    split_ifs at hstep <;>
      (simp only [advance, StepResult.next.injEq] at hstep
       subst hstep; exact Or.inl ⟨rfl, rfl, rfl⟩)
  by_cases h9 : (P t.pc).operator = OP_THREAD
  · rw [step_thread h9] at hstep
    split_ifs at hstep with hcap hzero
    · simp only [advance, StepResult.next.injEq] at hstep
      subst hstep
      exact Or.inr ⟨h9, by omega, Or.inr ⟨hzero, rfl, rfl, rfl⟩⟩
    · simp only [advance, StepResult.next.injEq] at hstep
      subst hstep
      exact Or.inr ⟨h9, by omega, Or.inl ⟨hzero, rfl, rfl, rfl⟩⟩
  by_cases h10 : (P t.pc).operator = OP_CHILD_DIE
  · rw [step_child_die h10] at hstep
    split_ifs at hstep
    simp only [advance, StepResult.next.injEq] at hstep
    subst hstep; exact Or.inl ⟨rfl, rfl, rfl⟩
  by_cases h11 : (P t.pc).operator = OP_WAIT
  · rw [step_wait h11] at hstep
    simp only [advance, StepResult.next.injEq] at hstep
    subst hstep; exact Or.inl ⟨rfl, rfl, rfl⟩
  by_cases h12 : (P t.pc).operator = OP_NOOP
  · rw [step_noop h12] at hstep
    simp only [advance, StepResult.next.injEq] at hstep
    subst hstep; exact Or.inl ⟨rfl, rfl, rfl⟩
  rw [step_unknown h1 h2 h3 h4 h5 h6 h7 h8 h9 h10 h11 h12] at hstep
  exact absurd hstep (by simp)

/-- In the calling process the child count equals the number of forks made and
stays at most `CHILDREN_SIZE`, whatever other processes do to the tape. -/
theorem reach_registry {pid : Int} (hpid : pid ≠ 0) {P : Nat → instruction_t}
    {s t : ExecState} (hr : Reach pid P s t)
    (h1 : s.forks = s.CHILD) (h2 : s.CHILD ≤ CHILDREN_SIZE) (h3 : s.isChild = false) :
    t.forks = t.CHILD ∧ t.CHILD ≤ CHILDREN_SIZE ∧ t.isChild = false := by
  induction hr with
  | start => exact ⟨h1, h2, h3⟩
  | body _ _ _ _ hstep ih =>
    obtain ⟨i1, i2, i3⟩ := ih
    rcases step_next_frame hstep with ⟨e1, e2, e3⟩ | ⟨_, hlt, ⟨_, e1, e2, e3⟩ | ⟨hz, _⟩⟩
    · exact ⟨by rw [e1, e2]; exact i1, by rw [e1]; exact i2, by rw [e3]; exact i3⟩
    · simp only [CHILDREN_SIZE, u32] at *
      exact ⟨by omega, by omega, by rw [e3]; exact i3⟩
    · exact absurd hz hpid
  | interfere _ _ _ ih => exact ih

/-- Twenty spawn instructions run by the calling process from the initial
state: twenty forks, and the loop goes on at index 20. -/
theorem twenty_spawns (pid : Int) (hpid : pid ≠ 0) (P : Nat → instruction_t)
    (hthr : ∀ i, i < 20 → (P i).operator = OP_THREAD) (input : List Nat) (fuel : Nat) :
    execute_bf (fuel + 20) pid P input =
      execute_loop pid P fuel
        { pc := 20, ptr := 0, isChild := false, CHILD := 20, data := fun _ => 0,
          stdin := input, stdout := [], forks := 20 } := by
  rw [execute_bf, ExecState.init_eq]
  exact thread_run pid hpid P 20 hthr 20 0 _ (by omega) (by omega) rfl rfl rfl
    (show (0 : Nat) < DATA_SIZE by decide) fuel

/-- C9: the root context creates at most 20 spawned contexts. A spawn
dispatched in the calling process below the cap forks once and raises the
child count by one; a spawn dispatched at the cap forks nothing and makes
`execute_bf` return FAILURE at once; in every state the root can reach, also
with other processes writing to the tape, the number of forks equals the child
count and is at most 20. The source of 21 `/` returns FAILURE after exactly 20
forks, and the source of 20 `/` returns SUCCESS after 20 forks. -/
theorem root_spawn_cap :
    (∀ (pid : Int) (P : Nat → instruction_t) (s : ExecState), pid ≠ 0 →
      (P s.pc).operator = OP_THREAD → s.CHILD < CHILDREN_SIZE →
      step pid P s =
        .next { s with pc := u16 (s.pc + 1), CHILD := s.CHILD + 1, forks := s.forks + 1 }) ∧
    (∀ (pid : Int) (P : Nat → instruction_t) (s : ExecState) (fuel : Nat),
      s.pc < PROGRAM_SIZE → s.ptr < DATA_SIZE →
      (P s.pc).operator = OP_THREAD → CHILDREN_SIZE ≤ s.CHILD →
      execute_loop pid P (fuel + 1) s =
        some (.returned FAILURE { s with stdout := s.stdout ++ limit_message })) ∧
    (∀ (pid : Int) (P : Nat → instruction_t) (input : List Nat) (t : ExecState), pid ≠ 0 →
      Reach pid P (ExecState.init input) t →
      t.forks = t.CHILD ∧ t.forks ≤ CHILDREN_SIZE ∧ t.isChild = false) ∧
    ((compile_bf (List.replicate 21 '/')).1 = SUCCESS ∧
      ∀ (pid : Int) (input : List Nat) (fuel : Nat), pid ≠ 0 → 21 ≤ fuel →
        ∃ s, execute_bf fuel pid (compile_bf (List.replicate 21 '/')).2.PROGRAM input =
          some (.returned FAILURE s) ∧ s.forks = 20) ∧
    ((compile_bf (List.replicate 20 '/')).1 = SUCCESS ∧
      ∀ (pid : Int) (input : List Nat) (fuel : Nat), pid ≠ 0 → 21 ≤ fuel →
        ∃ s, execute_bf fuel pid (compile_bf (List.replicate 20 '/')).2.PROGRAM input =
          some (.returned SUCCESS s) ∧ s.forks = 20) := by
  refine ⟨?_, ?_, ?_, ?_, ?_⟩
  · intro pid P s hpid hop hlt
    rw [step_thread hop, if_neg (by omega), if_neg hpid]
    have e : u32 (s.CHILD + 1) = s.CHILD + 1 := by
      simp only [CHILDREN_SIZE] at hlt
      simp only [u32]; omega
    simp only [advance, e]
  · intro pid P s fuel hpc hptr hop hcap
    have hstep := @step_thread pid _ _ hop
    rw [if_pos hcap] at hstep
    exact execute_loop_returned fuel hpc (by rw [hop]; decide) hptr hstep
  · intro pid P input t hpid hr
    obtain ⟨h1, h2, h3⟩ := reach_registry hpid hr (by rw [ExecState.init_eq])
      (by rw [ExecState.init_eq]; exact Nat.zero_le _) (by rw [ExecState.init_eq])
    exact ⟨h1, by rw [h1]; exact h2, h3⟩
  · obtain ⟨hs, hops, _⟩ := replicate_facts '/' (by decide) 21 (by decide)
    refine ⟨hs, ?_⟩
    intro pid input fuel hpid hfuel
    obtain ⟨f, rfl⟩ : ∃ f, fuel = (f + 1) + 20 := ⟨fuel - 21, by omega⟩
    rw [twenty_spawns pid hpid _ (fun i hi => hops i (by omega)) input (f + 1)]
    have hop : ((compile_bf (List.replicate 21 '/')).2.PROGRAM 20).operator = OP_THREAD :=
      hops 20 (by decide)
    have hstep := @step_thread pid _
      { pc := 20, ptr := 0, isChild := false, CHILD := 20, data := fun _ => 0,
        stdin := input, stdout := [], forks := 20 } hop
    rw [if_pos (show CHILDREN_SIZE ≤ 20 by decide)] at hstep
    rw [execute_loop_returned f (show (20 : Nat) < PROGRAM_SIZE by decide)
      (by rw [hop]; decide) (show (0 : Nat) < DATA_SIZE by decide) hstep]
    exact ⟨_, rfl, rfl⟩
  · obtain ⟨hs, hops, hend⟩ := replicate_facts '/' (by decide) 20 (by decide)
    refine ⟨hs, ?_⟩
    intro pid input fuel hpid hfuel
    obtain ⟨f, rfl⟩ : ∃ f, fuel = (f + 1) + 20 := ⟨fuel - 21, by omega⟩
    rw [twenty_spawns pid hpid _ hops input (f + 1)]
    have hop : ((compile_bf (List.replicate 20 '/')).2.PROGRAM 20).operator = OP_END := by
      rw [hend]
    rw [execute_loop_end f (show (20 : Nat) < PROGRAM_SIZE by decide) hop]
    exact ⟨_, rfl, rfl⟩

theorem root_spawn_cap_witness :
    ((1 : Int) ≠ 0 ∧
      ((compile_bf "/".toList).2.PROGRAM 0).operator = OP_THREAD ∧ 0 < CHILDREN_SIZE) ∧
    step 1 (compile_bf "/".toList).2.PROGRAM
        { pc := 0, ptr := 0, isChild := false, CHILD := 0, data := fun _ => 0,
          stdin := [], stdout := [], forks := 0 } =
      .next { pc := 1, ptr := 0, isChild := false, CHILD := 1, data := fun _ => 0,
              stdin := [], stdout := [], forks := 1 } :=
  ⟨by decide,
    root_spawn_cap.1 1 (compile_bf "/".toList).2.PROGRAM
      { pc := 0, ptr := 0, isChild := false, CHILD := 0, data := fun _ => 0,
        stdin := [], stdout := [], forks := 0 } (by decide) (by decide) (by decide)⟩

/-- C10: the early-terminate instruction ends a context exactly when the
context is a spawned copy. In the root context it only advances the program
counter: tape, data pointer, child count and output are unchanged; in a
spawned context the process exits there and dispatches nothing more. The
source `%.` run by the root writes one byte, 0, and returns SUCCESS. -/
theorem child_die_only_ends_spawned :
    (∀ (pid : Int) (P : Nat → instruction_t) (s : ExecState),
      (P s.pc).operator = OP_CHILD_DIE →
      ((∃ s1, step pid P s = .exited s1) ↔ s.isChild = true)) ∧
    (∀ (pid : Int) (P : Nat → instruction_t) (s : ExecState),
      (P s.pc).operator = OP_CHILD_DIE → s.isChild = false →
      step pid P s = .next { s with pc := u16 (s.pc + 1) }) ∧
    (∀ (pid : Int) (P : Nat → instruction_t) (s : ExecState) (fuel : Nat),
      s.pc < PROGRAM_SIZE → s.ptr < DATA_SIZE →
      (P s.pc).operator = OP_CHILD_DIE → s.isChild = true →
      execute_loop pid P (fuel + 1) s = some (.exited s)) ∧
    ((compile_bf "%.".toList).1 = SUCCESS ∧
      ∀ (pid : Int) (input : List Nat),
        execute_bf 3 pid (compile_bf "%.".toList).2.PROGRAM input =
          some (.returned SUCCESS
            { pc := 2, ptr := 0, isChild := false, CHILD := 0, data := fun _ => 0,
              stdin := input, stdout := [0], forks := 0 })) := by
  refine ⟨?_, ?_, ?_, by decide, ?_⟩
  · intro pid P s hop
    rw [step_child_die hop]
    cases hc : s.isChild
    · simp [advance]
    · simp
  · intro pid P s hop hroot
    rw [step_child_die hop, if_neg (by rw [hroot]; decide)]
    rfl
  · intro pid P s fuel hpc hptr hop hchild
    have hstep := @step_child_die pid _ _ hop
    rw [hchild] at hstep
    exact execute_loop_exited fuel hpc (by rw [hop]; decide) hptr hstep
  · intro pid input
    have h0 : ((compile_bf "%.".toList).2.PROGRAM 0).operator = OP_CHILD_DIE := by decide
    have h1 : ((compile_bf "%.".toList).2.PROGRAM 1).operator = OP_OUT := by decide
    have h2 : ((compile_bf "%.".toList).2.PROGRAM 2).operator = OP_END := by decide
    have hstep0 : step pid (compile_bf "%.".toList).2.PROGRAM
        { pc := 0, ptr := 0, isChild := false, CHILD := 0, data := fun _ => 0,
          stdin := input, stdout := [], forks := 0 } =
        .next { pc := 1, ptr := 0, isChild := false, CHILD := 0, data := fun _ => 0,
                stdin := input, stdout := [], forks := 0 } := by
      rw [step_child_die h0]; rfl
    have hstep1 : step pid (compile_bf "%.".toList).2.PROGRAM
        { pc := 1, ptr := 0, isChild := false, CHILD := 0, data := fun _ => 0,
          stdin := input, stdout := [], forks := 0 } =
        .next { pc := 2, ptr := 0, isChild := false, CHILD := 0, data := fun _ => 0,
                stdin := input, stdout := [0], forks := 0 } := by
      rw [step_out h1]; rfl
    rw [execute_bf, ExecState.init_eq,
      execute_loop_body 2 (show (0 : Nat) < PROGRAM_SIZE by decide) (by rw [h0]; decide)
        (show (0 : Nat) < DATA_SIZE by decide) hstep0,
      execute_loop_body 1 (show (1 : Nat) < PROGRAM_SIZE by decide) (by rw [h1]; decide)
        (show (0 : Nat) < DATA_SIZE by decide) hstep1,
      execute_loop_end 0 (show (2 : Nat) < PROGRAM_SIZE by decide) h2]
    rfl

theorem child_die_only_ends_spawned_witness :
    (((compile_bf "%.".toList).2.PROGRAM 0).operator = OP_CHILD_DIE) ∧
    step 0 (compile_bf "%.".toList).2.PROGRAM
        { pc := 0, ptr := 0, isChild := false, CHILD := 0, data := fun _ => 0,
          stdin := [], stdout := [], forks := 0 } =
      .next { pc := 1, ptr := 0, isChild := false, CHILD := 0, data := fun _ => 0,
              stdin := [], stdout := [], forks := 0 } :=
  ⟨by decide,
    child_die_only_ends_spawned.2.1 0 (compile_bf "%.".toList).2.PROGRAM
      { pc := 0, ptr := 0, isChild := false, CHILD := 0, data := fun _ => 0,
        stdin := [], stdout := [], forks := 0 } (by decide) rfl⟩

/-! ## Spawn, result reporting, cells and input -/

theorem step_thread_parent {pid : Int} {P : Nat → instruction_t} {s : ExecState}
    (hpid : pid ≠ 0) (hpc : s.pc < PROGRAM_SIZE) (hop : (P s.pc).operator = OP_THREAD)
    (hcap : s.CHILD < CHILDREN_SIZE) :
    step pid P s =
      .next { s with pc := s.pc + 1, CHILD := s.CHILD + 1, forks := s.forks + 1 } := by
  simp only [PROGRAM_SIZE] at hpc
  simp only [CHILDREN_SIZE] at hcap
  rw [step_thread hop, if_neg (by simp only [CHILDREN_SIZE]; omega), if_neg hpid]
  have e1 : u16 (s.pc + 1) = s.pc + 1 := by simp only [u16]; omega
  have e2 : u32 (s.CHILD + 1) = s.CHILD + 1 := by simp only [u32]; omega
  simp only [advance, e1, e2]

theorem step_thread_child {P : Nat → instruction_t} {s : ExecState}
    (hpc : s.pc < PROGRAM_SIZE) (hop : (P s.pc).operator = OP_THREAD)
    (hcap : s.CHILD < CHILDREN_SIZE) :
    step 0 P s = .next { s with pc := s.pc + 21, isChild := true, forks := 0 } := by
  simp only [PROGRAM_SIZE] at hpc
  simp only [CHILDREN_SIZE] at hcap
  rw [step_thread hop, if_neg (by simp only [CHILDREN_SIZE]; omega), if_pos rfl]
  have e1 : u16 (u16 (s.pc + 20) + 1) = s.pc + 21 := by simp only [u16]; omega
  simp only [advance, e1]

/-- C11: a spawn dispatched at index `i` below the child cap leaves two
contexts. The calling one goes on at `i + 1` with its spawned-flag unchanged;
the new one goes on at `i + 21` (the 20 instructions after the spawn are
skipped) with the spawned-flag set. Both keep the data pointer, the tape,
and the input and output streams they had; besides program counter and flag
only the registry differs, the caller's child count being raised by one. -/
theorem spawn_contexts_diverge (pid : Int) (P : Nat → instruction_t) (s : ExecState)
    (hpid : pid ≠ 0) (hpc : s.pc < PROGRAM_SIZE) (hop : (P s.pc).operator = OP_THREAD)
    (hcap : s.CHILD < CHILDREN_SIZE) :
    step pid P s =
      .next { s with pc := s.pc + 1, CHILD := s.CHILD + 1, forks := s.forks + 1 } ∧
    step 0 P s = .next { s with pc := s.pc + 21, isChild := true, forks := 0 } ∧
    ∃ parent child, step pid P s = .next parent ∧ step 0 P s = .next child ∧
      parent.pc = s.pc + 1 ∧ parent.isChild = s.isChild ∧
      child.pc = s.pc + 21 ∧ child.isChild = true ∧
      parent.ptr = s.ptr ∧ child.ptr = s.ptr ∧ parent.data = s.data ∧ child.data = s.data :=
  ⟨step_thread_parent hpid hpc hop hcap, step_thread_child hpc hop hcap,
    _, _, step_thread_parent hpid hpc hop hcap, step_thread_child hpc hop hcap,
    rfl, rfl, rfl, rfl, rfl, rfl, rfl, rfl⟩

theorem spawn_contexts_diverge_witness :
    ((1 : Int) ≠ 0 ∧ (0 : Nat) < PROGRAM_SIZE ∧
      ((compile_bf "/".toList).2.PROGRAM 0).operator = OP_THREAD ∧ 0 < CHILDREN_SIZE) ∧
    step 1 (compile_bf "/".toList).2.PROGRAM
        { pc := 0, ptr := 0, isChild := false, CHILD := 0, data := fun _ => 0,
          stdin := [], stdout := [], forks := 0 } =
      .next { pc := 1, ptr := 0, isChild := false, CHILD := 1, data := fun _ => 0,
              stdin := [], stdout := [], forks := 1 } ∧
    step 0 (compile_bf "/".toList).2.PROGRAM
        { pc := 0, ptr := 0, isChild := false, CHILD := 0, data := fun _ => 0,
          stdin := [], stdout := [], forks := 0 } =
      .next { pc := 21, ptr := 0, isChild := true, CHILD := 0, data := fun _ => 0,
              stdin := [], stdout := [], forks := 0 } :=
  ⟨by decide,
    (spawn_contexts_diverge 1 (compile_bf "/".toList).2.PROGRAM
      { pc := 0, ptr := 0, isChild := false, CHILD := 0, data := fun _ => 0,
        stdin := [], stdout := [], forks := 0 } (by decide) (by decide) (by decide)
      (by decide)).1,
    (spawn_contexts_diverge 1 (compile_bf "/".toList).2.PROGRAM
      { pc := 0, ptr := 0, isChild := false, CHILD := 0, data := fun _ => 0,
        stdin := [], stdout := [], forks := 0 } (by decide) (by decide) (by decide)
      (by decide)).2.1⟩

/-- The run of `k` increments and one output, for any process and input. -/
theorem plus_dot_execute (k : Nat) (hk : k ≤ 4094) (pid : Int) (input : List Nat)
    (fuel : Nat) (hfuel : k + 2 ≤ fuel) :
    ∃ s, execute_bf fuel pid (compile_bf (List.replicate k '+' ++ ['.'])).2.PROGRAM input =
        some (.returned SUCCESS s) ∧ s.stdout = [k % 256] ∧ s.ptr = 0 := by
  obtain ⟨_, hplus, hdot, hend⟩ := plus_dot_facts k hk
  obtain ⟨s2, hrun, hout, hptr, _⟩ := plus_dot_run pid _ k hk hplus hdot hend k 0
    (ExecState.init input) (by omega) (by rw [ExecState.init_eq]) (by rw [ExecState.init_eq])
    (by rw [ExecState.init_eq]; simp) (by rw [ExecState.init_eq]) fuel hfuel
  exact ⟨s2, hrun, hout, hptr⟩

/-- C12, as stated, fails: the source `+++.` never moves the data pointer, the
pointer is 0 at the first dispatch and 0 at the end, and `execute_bf` returns
SUCCESS. -/
theorem execute_bf_unmoved_pointer_succeeds :
    (compile_bf "+++.".toList).1 = SUCCESS ∧ (ExecState.init []).ptr = 0 ∧
    ∃ s, execute_bf 5 1 (compile_bf "+++.".toList).2.PROGRAM [] =
      some (.returned SUCCESS s) ∧ s.ptr = 0 ∧ s.stdout = [3] := by
  refine ⟨by decide, by rw [ExecState.init_eq], ?_⟩
  obtain ⟨s, h1, h2, h3⟩ := plus_dot_execute 3 (by decide) 1 [] 5 (by decide)
  exact ⟨s, h1, h3, h2⟩

/-- C12, amended: the final `return` of `execute_bf` reports FAILURE only when
the final data pointer equals `DATA_SIZE` (65535), the value the local is
initialised with before the zeroing loop leaves it at 0; the dispatch loop
starts with the pointer at 0, so a program that only outputs or inputs without
moving the pointer, such as `.` or `+++.`, is reported as SUCCESS. -/
theorem execute_bf_final_status :
    (∀ (pid : Int) (P : Nat → instruction_t) (fuel : Nat) (s : ExecState),
      s.pc < PROGRAM_SIZE → ¬ ((P s.pc).operator ≠ OP_END ∧ s.ptr < DATA_SIZE) →
      execute_loop pid P (fuel + 1) s =
        some (.returned (if s.ptr = DATA_SIZE then FAILURE else SUCCESS) s)) ∧
    (∀ input : List Nat, (ExecState.init input).ptr = 0) ∧
    (∀ (pid : Int) (input : List Nat),
      ∃ s, execute_bf 2 pid (compile_bf ".".toList).2.PROGRAM input =
        some (.returned SUCCESS s) ∧ s.ptr = 0) ∧
    (∀ (pid : Int) (input : List Nat),
      ∃ s, execute_bf 5 pid (compile_bf "+++.".toList).2.PROGRAM input =
        some (.returned SUCCESS s) ∧ s.ptr = 0) := by
  refine ⟨?_, ?_, ?_, ?_⟩
  · intro pid P fuel s hpc hcond
    have h1 : ¬ PROGRAM_SIZE ≤ s.pc := by omega
    simp only [execute_loop, h1, if_false, hcond]
    by_cases hp : s.ptr = DATA_SIZE <;> simp [hp]
  · intro input; rw [ExecState.init_eq]
  · intro pid input
    obtain ⟨s, h1, _, h3⟩ := plus_dot_execute 0 (by decide) pid input 2 (by decide)
    exact ⟨s, h1, h3⟩
  · intro pid input
    obtain ⟨s, h1, _, h3⟩ := plus_dot_execute 3 (by decide) pid input 5 (by decide)
    exact ⟨s, h1, h3⟩

theorem execute_bf_final_status_witness :
    ((0 : Nat) < PROGRAM_SIZE ∧
      ¬ (((compile_bf []).2.PROGRAM 0).operator ≠ OP_END ∧ (0 : Nat) < DATA_SIZE)) ∧
    execute_loop 1 (compile_bf []).2.PROGRAM (0 + 1)
        { pc := 0, ptr := 0, isChild := false, CHILD := 0, data := fun _ => 0,
          stdin := [], stdout := [], forks := 0 } =
      some (.returned SUCCESS
        { pc := 0, ptr := 0, isChild := false, CHILD := 0, data := fun _ => 0,
          stdin := [], stdout := [], forks := 0 }) :=
  ⟨by decide,
    execute_bf_final_status.1 1 (compile_bf []).2.PROGRAM 0
      { pc := 0, ptr := 0, isChild := false, CHILD := 0, data := fun _ => 0,
        stdin := [], stdout := [], forks := 0 } (by decide) (by decide)⟩

theorem to_short_range (v : Int) : -32768 ≤ to_short v ∧ to_short v ≤ 32767 := by
  simp only [to_short]; omega

theorem to_short_inc_dec (v : Int) (h1 : -32768 ≤ v) (h2 : v ≤ 32767) :
    to_short (to_short (v + 1) - 1) = v := by
  simp only [to_short]; omega

theorem to_short_dec_inc (v : Int) (h1 : -32768 ≤ v) (h2 : v ≤ 32767) :
    to_short (to_short (v - 1) + 1) = v := by
  simp only [to_short]; omega

/-- C16: cells are sixteen-bit signed integers that wrap. Increment-cell
stores `((v + 1 + 32768) mod 65536) - 32768` in the current cell and
decrement-cell stores `((v - 1 + 32768) mod 65536) - 32768`; the stored value
is again in -32768..32767; 32767 increments to -32768 and -32768 decrements to
32767; increment then decrement, or the reverse, restores the cell; no other
cell changes, and of the other fields only the program counter does. -/
theorem cell_inc_dec_wrap :
    (∀ (pid : Int) (P : Nat → instruction_t) (s : ExecState),
      (P s.pc).operator = OP_INC_VAL →
      step pid P s = .next { s with
        pc := u16 (s.pc + 1),
        data := store s.data s.ptr ((s.data s.ptr + 1 + 32768) % 65536 - 32768) }) ∧
    (∀ (pid : Int) (P : Nat → instruction_t) (s : ExecState),
      (P s.pc).operator = OP_DEC_VAL →
      step pid P s = .next { s with
        pc := u16 (s.pc + 1),
        data := store s.data s.ptr ((s.data s.ptr - 1 + 32768) % 65536 - 32768) }) ∧
    (∀ (d : Nat → Int) (p k : Nat) (v : Int), k ≠ p → store d p v k = d k) ∧
    (∀ v : Int, -32768 ≤ (v + 32768) % 65536 - 32768 ∧ (v + 32768) % 65536 - 32768 ≤ 32767) ∧
    ((32767 + 1 + 32768 : Int) % 65536 - 32768 = -32768) ∧
    ((-32768 - 1 + 32768 : Int) % 65536 - 32768 = 32767) ∧
    (∀ v : Int, -32768 ≤ v → v ≤ 32767 →
      (((v + 1 + 32768) % 65536 - 32768) - 1 + 32768) % 65536 - 32768 = v ∧
      (((v - 1 + 32768) % 65536 - 32768) + 1 + 32768) % 65536 - 32768 = v) := by
  refine ⟨?_, ?_, ?_, ?_, by decide, by decide, ?_⟩
  · intro pid P s hop
    rw [step_inc_val hop]; rfl
  · intro pid P s hop
    rw [step_dec_val hop]; rfl
  · intro d p k v hk
    exact store_other d p k v hk
  · intro v
    exact to_short_range v
  · intro v h1 h2
    exact ⟨to_short_inc_dec v h1 h2, to_short_dec_inc v h1 h2⟩

theorem cell_inc_dec_wrap_witness :
    (((compile_bf "+".toList).2.PROGRAM 0).operator = OP_INC_VAL) ∧
    step 1 (compile_bf "+".toList).2.PROGRAM
        { pc := 0, ptr := 0, isChild := false, CHILD := 0, data := fun _ => 32767,
          stdin := [], stdout := [], forks := 0 } =
      .next { pc := u16 (0 + 1), ptr := 0, isChild := false, CHILD := 0,
              data := store (fun _ => 32767) 0 ((32767 + 1 + 32768) % 65536 - 32768),
              stdin := [], stdout := [], forks := 0 } :=
  ⟨by decide,
    cell_inc_dec_wrap.1 1 (compile_bf "+".toList).2.PROGRAM
      { pc := 0, ptr := 0, isChild := false, CHILD := 0, data := fun _ => 32767,
        stdin := [], stdout := [], forks := 0 } (by decide)⟩

theorem to_short_byte (b : Nat) :
    to_short (to_uint ((b % 256 : Nat) : Int)) = ((b % 256 : Nat) : Int) := by
  simp only [to_short, to_uint]; omega

theorem to_short_eof : to_short (to_uint (-1)) = -1 := by decide

/-- C17: the input instruction takes one byte from standard input and stores
its value, 0..255, in the current cell; at end of input `getchar` returns -1,
which through `unsigned int` and `short` is stored as -1, a value no input
byte produces. No other cell changes, and of the other fields only the
program counter and the input position do. -/
theorem input_stores_byte_or_sentinel :
    (∀ (pid : Int) (P : Nat → instruction_t) (s : ExecState) (b : Nat) (bs : List Nat),
      (P s.pc).operator = OP_IN → s.stdin = b :: bs →
      step pid P s = .next { s with
        pc := u16 (s.pc + 1),
        data := store s.data s.ptr ((b % 256 : Nat) : Int),
        stdin := bs }) ∧
    (∀ (pid : Int) (P : Nat → instruction_t) (s : ExecState),
      (P s.pc).operator = OP_IN → s.stdin = [] →
      step pid P s = .next { s with
        pc := u16 (s.pc + 1),
        data := store s.data s.ptr (-1),
        stdin := [] }) ∧
    (∀ b : Nat, 0 ≤ ((b % 256 : Nat) : Int) ∧ ((b % 256 : Nat) : Int) ≤ 255 ∧
      ((b % 256 : Nat) : Int) ≠ -1) ∧
    (∀ (d : Nat → Int) (p k : Nat) (v : Int), k ≠ p → store d p v k = d k) := by
  refine ⟨?_, ?_, ?_, ?_⟩
  · intro pid P s b bs hop hin
    rw [step_in hop, hin]
    simp only [getchar, advance, to_short_byte]
  · intro pid P s hop hin
    rw [step_in hop, hin]
    simp only [getchar, advance, to_short_eof]
  · intro b
    omega
  · intro d p k v hk
    exact store_other d p k v hk

theorem input_stores_byte_or_sentinel_witness :
    (((compile_bf ",".toList).2.PROGRAM 0).operator = OP_IN ∧ [65, 66] = 65 :: [66]) ∧
    step 1 (compile_bf ",".toList).2.PROGRAM
        { pc := 0, ptr := 0, isChild := false, CHILD := 0, data := fun _ => 0,
          stdin := [65, 66], stdout := [], forks := 0 } =
      .next { pc := u16 (0 + 1), ptr := 0, isChild := false, CHILD := 0,
              data := store (fun _ => 0) 0 ((65 % 256 : Nat) : Int),
              stdin := [66], stdout := [], forks := 0 } :=
  ⟨by decide,
    input_stores_byte_or_sentinel.1 1 (compile_bf ",".toList).2.PROGRAM
      { pc := 0, ptr := 0, isChild := false, CHILD := 0, data := fun _ => 0,
        stdin := [65, 66], stdout := [], forks := 0 } 65 [66] (by decide) rfl⟩

/-! ## Loops -/

/-- Both brackets of a matched pair decide in the same way where the run goes
on: at the first body instruction when the current cell is non-zero, just
after the end-loop when it is zero. -/
theorem step_loop_test {src : List Char} {i j : Nat} (pid : Int) {s : ExecState}
    (hs : (compile_bf src).1 = SUCCESS) (hm : Matched (instructions src) i j)
    (hpc : s.pc = i ∨ s.pc = j) :
    step pid (compile_bf src).2.PROGRAM s =
      .next { s with pc := if s.data s.ptr ≠ 0 then i + 1 else j + 1 } := by
  obtain ⟨h1, h2⟩ := compile_bf_pairs hs hm
  obtain ⟨hij, hj⟩ := hm.lt_length
  have hlen := (compile_bf_conditions hs).2.1
  have e1 : u16 (i + 1) = i + 1 := by simp only [u16]; omega
  have e2 : u16 (j + 1) = j + 1 := by simp only [u16]; omega
  rcases hpc with hpc | hpc
  · have hop : ((compile_bf src).2.PROGRAM s.pc).operator = OP_JMP_FWD := by rw [hpc, h1]
    rw [step_jmp_fwd hop]
    by_cases hz : s.data s.ptr = 0
    · rw [if_pos hz, if_neg (by simp [hz]), hpc, h1]
      simp only [advance, e2]
    · rw [if_neg hz, if_pos hz]
      simp only [advance, hpc, e1]
  · have hop : ((compile_bf src).2.PROGRAM s.pc).operator = OP_JMP_BCK := by rw [hpc, h2]
    rw [step_jmp_bck hop]
    by_cases hz : s.data s.ptr = 0
    · rw [if_neg (by simp [hz]), if_neg (by simp [hz])]
      simp only [advance, hpc, e2]
    · rw [if_pos hz, if_pos hz, hpc, h2]
      simp only [advance, e1]

/-- The outcome of a run, read off a decidable projection of it. -/
theorem outcome_of_projection {α : Type} (r : Option Outcome) (f : Outcome → α) (x : α)
    (h : r.map f = some x) : ∃ o, r = some o ∧ f o = x := by
  cases r with
  | none => simp at h
  | some o => exact ⟨o, rfl, by simpa using h⟩

/-- C14: in a successfully compiled program an end-loop dispatched at index
`j` continues at the first body instruction of its begin-loop (operand + 1,
the operand being the index of the matching `[`) when the current cell is
non-zero, and at `j + 1` when it is zero; nothing but the program counter
changes. Begin-loop and end-loop take the same decision on the same test, so
the body runs exactly while the current cell is non-zero, tested before each
iteration: `++[>+<-]>.` runs its body twice and writes the byte 2. -/
theorem end_loop_repeats_while_nonzero :
    (∀ (src : List Char) (j : Nat) (pid : Int) (s : ExecState),
      (compile_bf src).1 = SUCCESS → (instructions src)[j]? = some ']' → s.pc = j →
      ∃ i, Matched (instructions src) i j ∧ ((compile_bf src).2.PROGRAM j).operand = i ∧
        (s.data s.ptr ≠ 0 →
          step pid (compile_bf src).2.PROGRAM s = .next { s with pc := i + 1 }) ∧
        (s.data s.ptr = 0 →
          step pid (compile_bf src).2.PROGRAM s = .next { s with pc := j + 1 })) ∧
    (∀ (src : List Char) (i j : Nat) (pid : Int) (s : ExecState),
      (compile_bf src).1 = SUCCESS → Matched (instructions src) i j →
      (s.pc = i ∨ s.pc = j) →
      step pid (compile_bf src).2.PROGRAM s =
        .next { s with pc := if s.data s.ptr ≠ 0 then i + 1 else j + 1 }) ∧
    ((compile_bf "++[>+<-]>.".toList).1 = SUCCESS ∧
      ∃ s, execute_bf 16 1 (compile_bf "++[>+<-]>.".toList).2.PROGRAM [] =
        some (.returned SUCCESS s) ∧ s.stdout = [2] ∧ s.data 0 = 0 ∧ s.data 1 = 2) := by
  refine ⟨?_, ?_, by decide, ?_⟩
  · intro src j pid s hs hclose hpc
    obtain ⟨hwf, _, _⟩ := compile_bf_conditions hs
    obtain ⟨i, _, hm⟩ := hwf.2 j (lt_length_of_getElem? hclose) hclose
    have hstep := step_loop_test pid hs hm (Or.inr hpc)
    refine ⟨i, hm, by rw [(compile_bf_pairs hs hm).2], ?_, ?_⟩
    · intro hz; rw [hstep, if_pos hz]
    · intro hz; rw [hstep, if_neg (by simp [hz])]
  · intro src i j pid s hs hm hpc
    exact step_loop_test pid hs hm hpc
  · rw [execute_bf, ExecState.init_eq]
    have h : (execute_loop 1 (compile_bf "++[>+<-]>.".toList).2.PROGRAM 16
        { pc := 0, ptr := 0, isChild := false, CHILD := 0, data := fun _ => 0,
          stdin := [], stdout := [], forks := 0 }).map
        (fun o => (o.status, o.state.stdout, o.state.data 0, o.state.data 1)) =
        some (some SUCCESS, [2], 0, 2) := by decide
    obtain ⟨o, ho, hf⟩ := outcome_of_projection _ _ _ h
    rw [ho]
    cases o with
    | returned r t =>
      simp only [Outcome.status, Outcome.state, Prod.mk.injEq, Option.some.injEq] at hf
      obtain ⟨hr, h1, h2, h3⟩ := hf
      subst hr
      exact ⟨t, rfl, h1, h2, h3⟩
    | exited t => simp [Outcome.status] at hf
    | fault t => simp [Outcome.status] at hf

theorem end_loop_repeats_while_nonzero_witness :
    ((compile_bf "+[-]".toList).1 = SUCCESS ∧
      (instructions "+[-]".toList)[3]? = some ']') ∧
    ∃ i, Matched (instructions "+[-]".toList) i 3 ∧
      ((compile_bf "+[-]".toList).2.PROGRAM 3).operand = i ∧
      ((1 : Int) ≠ 0 →
        step 1 (compile_bf "+[-]".toList).2.PROGRAM
            { pc := 3, ptr := 0, isChild := false, CHILD := 0, data := fun _ => 1,
              stdin := [], stdout := [], forks := 0 } =
          .next { pc := i + 1, ptr := 0, isChild := false, CHILD := 0, data := fun _ => 1,
                  stdin := [], stdout := [], forks := 0 }) ∧
      ((1 : Int) = 0 →
        step 1 (compile_bf "+[-]".toList).2.PROGRAM
            { pc := 3, ptr := 0, isChild := false, CHILD := 0, data := fun _ => 1,
              stdin := [], stdout := [], forks := 0 } =
          .next { pc := 3 + 1, ptr := 0, isChild := false, CHILD := 0, data := fun _ => 1,
                  stdin := [], stdout := [], forks := 0 }) :=
  ⟨by decide,
    end_loop_repeats_while_nonzero.1 "+[-]".toList 3 1
      { pc := 3, ptr := 0, isChild := false, CHILD := 0, data := fun _ => 1,
        stdin := [], stdout := [], forks := 0 } (by decide) (by decide) rfl⟩

/-! ## The loop body as a whole -/

/-- The loop body written out operator by operator. -/
theorem step_cases (pid : Int) (P : Nat → instruction_t) (s : ExecState) :
    ((P s.pc).operator = OP_INC_DP ∧
      step pid P s = .next { s with pc := u16 (s.pc + 1), ptr := u32 (s.ptr + 1) }) ∨
    ((P s.pc).operator = OP_DEC_DP ∧
      step pid P s =
        .next { s with pc := u16 (s.pc + 1), ptr := u32 (s.ptr + 4294967295) }) ∨
    ((P s.pc).operator = OP_INC_VAL ∧
      step pid P s = .next { s with
        pc := u16 (s.pc + 1), data := store s.data s.ptr (to_short (s.data s.ptr + 1)) }) ∨
    ((P s.pc).operator = OP_DEC_VAL ∧
      step pid P s = .next { s with
        pc := u16 (s.pc + 1), data := store s.data s.ptr (to_short (s.data s.ptr - 1)) }) ∨
    ((P s.pc).operator = OP_OUT ∧
      step pid P s = .next { s with
        pc := u16 (s.pc + 1), stdout := s.stdout ++ [to_uchar (s.data s.ptr)] }) ∨
    ((P s.pc).operator = OP_IN ∧
      step pid P s = .next { s with
        pc := u16 (s.pc + 1),
        data := store s.data s.ptr (to_short (to_uint (getchar s.stdin).1)),
        stdin := (getchar s.stdin).2 }) ∨
    ((P s.pc).operator = OP_JMP_FWD ∧
      step pid P s = .next { s with
        pc := u16 ((if s.data s.ptr = 0 then (P s.pc).operand else s.pc) + 1) }) ∨
    ((P s.pc).operator = OP_JMP_BCK ∧
      step pid P s = .next { s with
        pc := u16 ((if s.data s.ptr ≠ 0 then (P s.pc).operand else s.pc) + 1) }) ∨
    ((P s.pc).operator = OP_THREAD ∧ CHILDREN_SIZE ≤ s.CHILD ∧
      step pid P s = .returned FAILURE { s with stdout := s.stdout ++ limit_message }) ∨
    ((P s.pc).operator = OP_THREAD ∧ s.CHILD < CHILDREN_SIZE ∧ pid = 0 ∧
      step pid P s = .next { s with
        pc := u16 (u16 (s.pc + 20) + 1), isChild := true, forks := 0 }) ∨
    ((P s.pc).operator = OP_THREAD ∧ s.CHILD < CHILDREN_SIZE ∧ pid ≠ 0 ∧
      step pid P s = .next { s with
        pc := u16 (s.pc + 1), CHILD := u32 (s.CHILD + 1), forks := s.forks + 1 }) ∨
    ((P s.pc).operator = OP_CHILD_DIE ∧ s.isChild = true ∧ step pid P s = .exited s) ∨
    ((P s.pc).operator = OP_CHILD_DIE ∧ s.isChild = false ∧
      step pid P s = .next { s with pc := u16 (s.pc + 1) }) ∨
    (((P s.pc).operator = OP_WAIT ∨ (P s.pc).operator = OP_NOOP) ∧
      step pid P s = .next { s with pc := u16 (s.pc + 1) }) ∨
    (((P s.pc).operator = OP_END ∨ 12 < (P s.pc).operator) ∧
      step pid P s = .returned FAILURE s) := by
  by_cases h1 : (P s.pc).operator = OP_INC_DP
  · exact Or.inl ⟨h1, step_inc_dp h1⟩
  by_cases h2 : (P s.pc).operator = OP_DEC_DP
  · exact Or.inr (Or.inl ⟨h2, step_dec_dp h2⟩)
  by_cases h3 : (P s.pc).operator = OP_INC_VAL
  · exact Or.inr (Or.inr (Or.inl ⟨h3, step_inc_val h3⟩))
  by_cases h4 : (P s.pc).operator = OP_DEC_VAL
  · exact Or.inr (Or.inr (Or.inr (Or.inl ⟨h4, step_dec_val h4⟩)))
  by_cases h5 : (P s.pc).operator = OP_OUT
  · exact Or.inr (Or.inr (Or.inr (Or.inr (Or.inl ⟨h5, step_out h5⟩))))
  by_cases h6 : (P s.pc).operator = OP_IN
  · exact Or.inr (Or.inr (Or.inr (Or.inr (Or.inr (Or.inl ⟨h6, step_in h6⟩)))))
  by_cases h7 : (P s.pc).operator = OP_JMP_FWD
  · refine Or.inr (Or.inr (Or.inr (Or.inr (Or.inr (Or.inr (Or.inl ⟨h7, ?_⟩))))))
    rw [step_jmp_fwd h7]
    split_ifs <;> rfl
  by_cases h8 : (P s.pc).operator = OP_JMP_BCK
  · refine Or.inr (Or.inr (Or.inr (Or.inr (Or.inr (Or.inr (Or.inr (Or.inl ⟨h8, ?_⟩)))))))
    rw [step_jmp_bck h8]
    split_ifs <;> rfl
  by_cases h9 : (P s.pc).operator = OP_THREAD
  · refine Or.inr (Or.inr (Or.inr (Or.inr (Or.inr (Or.inr (Or.inr (Or.inr ?_)))))))
    rw [step_thread h9]
    by_cases hcap : CHILDREN_SIZE ≤ s.CHILD
    · exact Or.inl ⟨h9, hcap, by rw [if_pos hcap]⟩
    · by_cases hz : pid = 0
      · exact Or.inr (Or.inl ⟨h9, by omega, hz, by rw [if_neg hcap, if_pos hz]; rfl⟩)
      · exact Or.inr (Or.inr (Or.inl ⟨h9, by omega, hz, by rw [if_neg hcap, if_neg hz]; rfl⟩))
  by_cases h10 : (P s.pc).operator = OP_CHILD_DIE
  · refine Or.inr (Or.inr (Or.inr (Or.inr (Or.inr (Or.inr (Or.inr (Or.inr (Or.inr (Or.inr
      (Or.inr ?_))))))))))
    rw [step_child_die h10]
    by_cases hc : s.isChild = true
    · exact Or.inl ⟨h10, hc, by rw [if_pos hc]⟩
    · exact Or.inr (Or.inl ⟨h10, by simpa using hc, by rw [if_neg hc]; rfl⟩)
  by_cases h11 : (P s.pc).operator = OP_WAIT
  · exact Or.inr (Or.inr (Or.inr (Or.inr (Or.inr (Or.inr (Or.inr (Or.inr (Or.inr (Or.inr
      (Or.inr (Or.inr (Or.inr (Or.inl ⟨Or.inl h11, step_wait h11⟩)))))))))))))
  by_cases h12 : (P s.pc).operator = OP_NOOP
  · exact Or.inr (Or.inr (Or.inr (Or.inr (Or.inr (Or.inr (Or.inr (Or.inr (Or.inr (Or.inr
      (Or.inr (Or.inr (Or.inr (Or.inl ⟨Or.inr h12, step_noop h12⟩)))))))))))))
  refine Or.inr (Or.inr (Or.inr (Or.inr (Or.inr (Or.inr (Or.inr (Or.inr (Or.inr (Or.inr
    (Or.inr (Or.inr (Or.inr (Or.inr ⟨?_, step_unknown h1 h2 h3 h4 h5 h6 h7 h8 h9 h10 h11 h12⟩
    )))))))))))))
  simp only [OP_INC_DP, OP_DEC_DP, OP_INC_VAL, OP_DEC_VAL, OP_OUT, OP_IN, OP_JMP_FWD,
    OP_JMP_BCK, OP_THREAD, OP_CHILD_DIE, OP_WAIT, OP_NOOP, OP_END] at *
  omega

/-- A loop body entered with the data pointer on the tape leaves it at
`DATA_SIZE` exactly when it is an increment of the pointer at the last cell. -/
theorem step_next_ptr {pid : Int} {P : Nat → instruction_t} {t u : ExecState}
    (hstep : step pid P t = .next u) (hptr : t.ptr < DATA_SIZE) :
    u.ptr = DATA_SIZE ↔ ((P t.pc).operator = OP_INC_DP ∧ t.ptr = 65534) := by
  rcases step_cases pid P t with ⟨h, e⟩ | ⟨h, e⟩ | ⟨h, e⟩ | ⟨h, e⟩ | ⟨h, e⟩ | ⟨h, e⟩ |
    ⟨h, e⟩ | ⟨h, e⟩ | ⟨h, _, e⟩ | ⟨h, _, _, e⟩ | ⟨h, _, _, e⟩ | ⟨h, _, e⟩ | ⟨h, _, e⟩ |
    ⟨h, e⟩ | ⟨h, e⟩ <;> rw [e] at hstep <;>
  first
    | (simp only [StepResult.next.injEq] at hstep
       subst hstep
       simp only [u32, DATA_SIZE, OP_INC_DP, OP_DEC_DP, OP_INC_VAL, OP_DEC_VAL, OP_OUT, OP_IN,
         OP_JMP_FWD, OP_JMP_BCK, OP_THREAD, OP_CHILD_DIE, OP_WAIT, OP_NOOP] at *
       omega)
    | exact StepResult.noConfusion hstep

/-- A loop body writes no cell but the current one. -/
theorem step_next_data {pid : Int} {P : Nat → instruction_t} {t u : ExecState}
    (hstep : step pid P t = .next u) (k : Nat) (hk : k ≠ t.ptr) : u.data k = t.data k := by
  rcases step_cases pid P t with ⟨h, e⟩ | ⟨h, e⟩ | ⟨h, e⟩ | ⟨h, e⟩ | ⟨h, e⟩ | ⟨h, e⟩ |
    ⟨h, e⟩ | ⟨h, e⟩ | ⟨h, _, e⟩ | ⟨h, _, _, e⟩ | ⟨h, _, _, e⟩ | ⟨h, _, e⟩ | ⟨h, _, e⟩ |
    ⟨h, e⟩ | ⟨h, e⟩ <;> rw [e] at hstep <;>
  first
    | (simp only [StepResult.next.injEq] at hstep
       subst hstep
       first | rfl | exact store_other _ _ _ _ hk)
    | exact StepResult.noConfusion hstep

/-- A loop body that is neither a jump nor a spawn in the new process goes on
at the next index and keeps the spawned-flag. -/
theorem step_next_pc {pid : Int} {P : Nat → instruction_t} {t u : ExecState}
    (hstep : step pid P t = .next u) (h7 : (P t.pc).operator ≠ OP_JMP_FWD)
    (h8 : (P t.pc).operator ≠ OP_JMP_BCK) (h9 : (P t.pc).operator = OP_THREAD → pid ≠ 0) :
    u.pc = u16 (t.pc + 1) ∧ u.isChild = t.isChild := by
  rcases step_cases pid P t with ⟨h, e⟩ | ⟨h, e⟩ | ⟨h, e⟩ | ⟨h, e⟩ | ⟨h, e⟩ | ⟨h, e⟩ |
    ⟨h, e⟩ | ⟨h, e⟩ | ⟨h, _, e⟩ | ⟨h, _, hz, e⟩ | ⟨h, _, _, e⟩ | ⟨h, _, e⟩ | ⟨h, _, e⟩ |
    ⟨h, e⟩ | ⟨h, e⟩ <;> rw [e] at hstep <;>
  first
    | exact absurd h h7
    | exact absurd h h8
    | exact absurd hz (h9 h)
    | (simp only [StepResult.next.injEq] at hstep
       subst hstep
       exact ⟨rfl, rfl⟩)
    | exact StepResult.noConfusion hstep

/-! ## The root context on a compiled program -/

theorem opcode_plain {c : Char} (h : c ∈ plain_chars) :
    opcode c ≠ OP_JMP_FWD ∧ opcode c ≠ OP_JMP_BCK ∧ 1 ≤ opcode c ∧ opcode c ≤ 12 ∧
      (opcode c = OP_THREAD → c = '/') := by
  simp only [plain_chars, List.mem_cons, List.mem_singleton, List.not_mem_nil, or_false] at h
  rcases h with h | h | h | h | h | h | h | h | h | h <;> subst h <;> decide

theorem opcode_instruction {c : Char} (h : c ∈ instruction_chars) :
    1 ≤ opcode c ∧ opcode c ≤ 12 := by
  simp only [instruction_chars, List.mem_cons, List.mem_singleton, List.not_mem_nil,
    or_false] at h
  rcases h with h | h | h | h | h | h | h | h | h | h | h | h <;> subst h <;> decide

/-- In a successfully compiled program, a loop body run by a context that is
not a spawned copy, at an index below the end marker, reaches `pc++` and stays
at or below the end marker; for a spawn this needs the context to be the
calling process below the child cap. -/
theorem compiled_step_next {src : List Char} {pid : Int} {t : ExecState}
    (hs : (compile_bf src).1 = SUCCESS) (hpc : t.pc < (instructions src).length)
    (hroot : t.isChild = false)
    (hspawn : (instructions src)[t.pc]? = some '/' → pid ≠ 0 ∧ t.CHILD < CHILDREN_SIZE) :
    ∃ u, step pid (compile_bf src).2.PROGRAM t = .next u ∧
      u.pc ≤ (instructions src).length ∧ u.isChild = false := by
  obtain ⟨hwf, hlen, _⟩ := compile_bf_conditions hs
  have hget : (instructions src)[t.pc]? = some ((instructions src)[t.pc]) :=
    List.getElem?_eq_getElem hpc
  generalize (instructions src)[t.pc] = c at hget
  have hop := compile_bf_slot_operator hs hget
  rcases mem_instruction_chars c (instructions_mem src c (List.getElem?_mem hget)) with
    hp | rfl | rfl
  · obtain ⟨hne7, hne8, hlo, hhi, hthr⟩ := opcode_plain hp
    have hs1 : opcode c ≠ OP_THREAD ∨ pid ≠ 0 := by
      by_cases h9 : opcode c = OP_THREAD
      · have hc := hthr h9
        subst hc
        exact Or.inr (hspawn hget).1
      · exact Or.inl h9
    have hs2 : opcode c ≠ OP_THREAD ∨ t.CHILD < CHILDREN_SIZE := by
      by_cases h9 : opcode c = OP_THREAD
      · have hc := hthr h9
        subst hc
        exact Or.inr (hspawn hget).2
      · exact Or.inl h9
    rcases step_cases pid (compile_bf src).2.PROGRAM t with ⟨h, e⟩ | ⟨h, e⟩ | ⟨h, e⟩ |
      ⟨h, e⟩ | ⟨h, e⟩ | ⟨h, e⟩ | ⟨h, e⟩ | ⟨h, e⟩ | ⟨h, hcap, e⟩ | ⟨h, hcap, hz, e⟩ |
      ⟨h, hcap, hz, e⟩ | ⟨h, hd, e⟩ | ⟨h, hd, e⟩ | ⟨h, e⟩ | ⟨h, e⟩ <;>
    first
      | (refine ⟨_, e, ?_, hroot⟩
         simp only [u16]; omega)
      | (exfalso
         rw [hroot] at hd
         exact absurd hd (by decide))
      | (exfalso
         simp only [CHILDREN_SIZE, OP_INC_DP, OP_DEC_DP, OP_INC_VAL, OP_DEC_VAL, OP_OUT, OP_IN,
           OP_JMP_FWD, OP_JMP_BCK, OP_THREAD, OP_CHILD_DIE, OP_WAIT, OP_NOOP, OP_END] at *
         omega)
  · obtain ⟨j, hj, hm⟩ := hwf.1 t.pc hpc hget
    refine ⟨_, step_loop_test pid hs hm (Or.inl rfl), ?_, hroot⟩
    show (if t.data t.ptr ≠ 0 then t.pc + 1 else j + 1) ≤ _
    split_ifs <;> omega
  · obtain ⟨i, hi, hm⟩ := hwf.2 t.pc hpc hget
    refine ⟨_, step_loop_test pid hs hm (Or.inr rfl), ?_, hroot⟩
    show (if t.data t.ptr ≠ 0 then i + 1 else t.pc + 1) ≤ _
    split_ifs <;> omega

/-- The operator stored at or below the end marker is a defined opcode: the
end marker at index `n`, the opcode of an instruction character below it. -/
theorem compiled_operator_defined {src : List Char} {k : Nat}
    (hs : (compile_bf src).1 = SUCCESS) (hk : k ≤ (instructions src).length) :
    (k = (instructions src).length ∧ ((compile_bf src).2.PROGRAM k).operator = OP_END) ∨
    (k < (instructions src).length ∧ 1 ≤ ((compile_bf src).2.PROGRAM k).operator ∧
      ((compile_bf src).2.PROGRAM k).operator ≤ 12) := by
  rcases Nat.lt_or_ge k (instructions src).length with hlt | hge
  · have hget : (instructions src)[k]? = some ((instructions src)[k]) :=
      List.getElem?_eq_getElem hlt
    have hop := compile_bf_slot_operator hs hget
    have := opcode_instruction (instructions_mem src _ (List.getElem?_mem hget))
    exact Or.inr ⟨hlt, by rw [hop]; exact this.1, by rw [hop]; exact this.2⟩
  · have hk2 : k = (instructions src).length := by omega
    subst hk2
    exact Or.inl ⟨rfl, by rw [compile_bf_end hs]⟩

/-- In every state the root context can reach on a compiled program, also with
other processes writing to the tape, the program counter is at or below the end
marker and the context is not a spawned copy. -/
theorem reach_root_pc {src : List Char} {pid : Int} {input : List Nat} {t : ExecState}
    (hs : (compile_bf src).1 = SUCCESS) (hpid : pid ≠ 0)
    (hr : Reach pid (compile_bf src).2.PROGRAM (ExecState.init input) t) :
    t.pc ≤ (instructions src).length ∧ t.isChild = false := by
  induction hr with
  | start => rw [ExecState.init_eq]; exact ⟨Nat.zero_le _, rfl⟩
  | @body t u _ _ hop _ hstep ih =>
    obtain ⟨hle, hroot⟩ := ih
    have hlt : t.pc < (instructions src).length := by
      rcases compiled_operator_defined hs hle with ⟨_, h0⟩ | ⟨h, _⟩
      · exact absurd h0 hop
      · exact h
    by_cases hcap : t.CHILD < CHILDREN_SIZE
    · obtain ⟨u2, e, h1, h2⟩ := compiled_step_next hs hlt hroot (fun _ => ⟨hpid, hcap⟩)
      rw [e] at hstep
      simp only [StepResult.next.injEq] at hstep
      subst hstep
      exact ⟨h1, h2⟩
    · by_cases hsl : (instructions src)[t.pc]? = some '/'
      · have hthr : ((compile_bf src).2.PROGRAM t.pc).operator = OP_THREAD :=
          compile_bf_slot_operator hs hsl
        rw [step_thread hthr, if_pos (by omega)] at hstep
        exact StepResult.noConfusion hstep
      · obtain ⟨u2, e, h1, h2⟩ := compiled_step_next hs hlt hroot
          (fun h => absurd h hsl)
        rw [e] at hstep
        simp only [StepResult.next.injEq] at hstep
        subst hstep
        exact ⟨h1, h2⟩
  | interfere _ _ _ ih => exact ih

/-- C15: in a successfully compiled program with `n` instructions (`n` at most
4095), at every instruction fetch of the root context the program counter is
at most `n`, inside the program array, and the operator fetched is one of the
thirteen defined opcodes; so a body the root runs never takes the
unknown-operator branch, and a FAILURE returned from inside the loop can only
come from a spawn at the child cap. -/
theorem root_fetches_defined_opcodes (src : List Char) (pid : Int) (input : List Nat)
    (t : ExecState) (hs : (compile_bf src).1 = SUCCESS) (hpid : pid ≠ 0)
    (hr : Reach pid (compile_bf src).2.PROGRAM (ExecState.init input) t) :
    t.pc ≤ (instructions src).length ∧ (instructions src).length ≤ 4095 ∧
    t.pc < PROGRAM_SIZE ∧
    ((compile_bf src).2.PROGRAM t.pc).operator ∈
      [OP_END, OP_INC_DP, OP_DEC_DP, OP_INC_VAL, OP_DEC_VAL, OP_OUT, OP_IN, OP_JMP_FWD,
        OP_JMP_BCK, OP_THREAD, OP_NOOP, OP_WAIT, OP_CHILD_DIE] ∧
    (((compile_bf src).2.PROGRAM t.pc).operator ≠ OP_END →
      step pid (compile_bf src).2.PROGRAM t ≠ .returned FAILURE t) ∧
    (∀ r v, ((compile_bf src).2.PROGRAM t.pc).operator ≠ OP_END →
      step pid (compile_bf src).2.PROGRAM t = .returned r v →
      ((compile_bf src).2.PROGRAM t.pc).operator = OP_THREAD ∧ CHILDREN_SIZE ≤ t.CHILD) := by
  obtain ⟨hle, hroot⟩ := reach_root_pc hs hpid hr
  have hlen := (compile_bf_conditions hs).2.1
  have hdef := compiled_operator_defined hs hle
  have hret : ∀ r v, ((compile_bf src).2.PROGRAM t.pc).operator ≠ OP_END →
      step pid (compile_bf src).2.PROGRAM t = .returned r v →
      ((compile_bf src).2.PROGRAM t.pc).operator = OP_THREAD ∧ CHILDREN_SIZE ≤ t.CHILD := by
    intro r v hne hstep
    have hlt : t.pc < (instructions src).length := by
      rcases hdef with ⟨_, h0⟩ | ⟨h, _⟩
      · exact absurd h0 hne
      · exact h
    by_cases hsl : (instructions src)[t.pc]? = some '/'
    · refine ⟨compile_bf_slot_operator hs hsl, ?_⟩
      by_contra hcap
      obtain ⟨u2, e, _, _⟩ := compiled_step_next hs hlt hroot
        (fun _ => ⟨hpid, by omega⟩)
      rw [e] at hstep
      exact StepResult.noConfusion hstep
    · obtain ⟨u2, e, _, _⟩ := compiled_step_next hs hlt hroot (fun h => absurd h hsl)
      rw [e] at hstep
      exact StepResult.noConfusion hstep
  refine ⟨hle, hlen, by simp only [PROGRAM_SIZE]; omega, ?_, ?_, hret⟩
  · rcases hdef with ⟨_, h0⟩ | ⟨_, h1, h2⟩
    · rw [h0]; decide
    · generalize ((compile_bf src).2.PROGRAM t.pc).operator = x at h1 h2
      simp only [OP_END, OP_INC_DP, OP_DEC_DP, OP_INC_VAL, OP_DEC_VAL, OP_OUT, OP_IN,
        OP_JMP_FWD, OP_JMP_BCK, OP_THREAD, OP_NOOP, OP_WAIT, OP_CHILD_DIE, List.mem_cons,
        List.mem_singleton, List.not_mem_nil, or_false]
      omega
  · intro hne hstep
    obtain ⟨hthr, hcap⟩ := hret FAILURE t hne hstep
    rw [step_thread hthr, if_pos hcap] at hstep
    simp only [StepResult.returned.injEq, true_and] at hstep
    have := congrArg (fun s => s.stdout.length) hstep
    simp [limit_message] at this

theorem root_fetches_defined_opcodes_witness :
    ((compile_bf "+[-]".toList).1 = SUCCESS ∧ (1 : Int) ≠ 0 ∧
      Reach 1 (compile_bf "+[-]".toList).2.PROGRAM (ExecState.init []) (ExecState.init [])) ∧
    (ExecState.init []).pc ≤ (instructions "+[-]".toList).length ∧
    (instructions "+[-]".toList).length ≤ 4095 ∧
    (ExecState.init []).pc < PROGRAM_SIZE ∧
    ((compile_bf "+[-]".toList).2.PROGRAM (ExecState.init []).pc).operator ∈
      [OP_END, OP_INC_DP, OP_DEC_DP, OP_INC_VAL, OP_DEC_VAL, OP_OUT, OP_IN, OP_JMP_FWD,
        OP_JMP_BCK, OP_THREAD, OP_NOOP, OP_WAIT, OP_CHILD_DIE] :=
  ⟨⟨by decide, by decide, Reach.start⟩,
    (root_fetches_defined_opcodes "+[-]".toList 1 [] (ExecState.init []) (by decide)
      (by decide) Reach.start).1,
    (root_fetches_defined_opcodes "+[-]".toList 1 [] (ExecState.init []) (by decide)
      (by decide) Reach.start).2.1,
    (root_fetches_defined_opcodes "+[-]".toList 1 [] (ExecState.init []) (by decide)
      (by decide) Reach.start).2.2.1,
    (root_fetches_defined_opcodes "+[-]".toList 1 [] (ExecState.init []) (by decide)
      (by decide) Reach.start).2.2.2.1⟩

/-! ## Where a run without spawn ends -/

/-- A loop body entered with the data pointer on the tape leaves it on the
tape, at `DATA_SIZE`, or wrapped to `2^32 - 1`. -/
theorem step_next_ptr_range {pid : Int} {P : Nat → instruction_t} {t u : ExecState}
    (hstep : step pid P t = .next u) (hptr : t.ptr < DATA_SIZE) :
    u.ptr < DATA_SIZE ∨ u.ptr = DATA_SIZE ∨
      (u.ptr = 4294967295 ∧ (P t.pc).operator = OP_DEC_DP ∧ t.ptr = 0) := by
  rcases step_cases pid P t with ⟨h, e⟩ | ⟨h, e⟩ | ⟨h, e⟩ | ⟨h, e⟩ | ⟨h, e⟩ | ⟨h, e⟩ |
    ⟨h, e⟩ | ⟨h, e⟩ | ⟨h, _, e⟩ | ⟨h, _, _, e⟩ | ⟨h, _, _, e⟩ | ⟨h, _, e⟩ | ⟨h, _, e⟩ |
    ⟨h, e⟩ | ⟨h, e⟩ <;> rw [e] at hstep <;>
  first
    | (simp only [StepResult.next.injEq] at hstep
       subst hstep
       simp only [u32, DATA_SIZE, OP_INC_DP, OP_DEC_DP, OP_INC_VAL, OP_DEC_VAL, OP_OUT, OP_IN,
         OP_JMP_FWD, OP_JMP_BCK, OP_THREAD, OP_CHILD_DIE, OP_WAIT, OP_NOOP] at *
       omega)
    | exact StepResult.noConfusion hstep

/-- The program `+[>+]` from the first `>` on: the pointer walks to the end of
the tape, one cell per turn of the loop, and the step off the last cell ends
the run with FAILURE. -/
theorem march_run (pid : Int) (P : Nat → instruction_t)
    (h2 : (P 2).operator = OP_INC_DP) (h3 : (P 3).operator = OP_INC_VAL)
    (h4 : P 4 = ⟨OP_JMP_BCK, 1⟩) :
    ∀ (m p : Nat) (s : ExecState), p + m = 65534 → s.pc = 2 → s.ptr = p →
      (∀ q, p < q → s.data q = 0) → ∀ fuel, 3 * m + 2 ≤ fuel →
      ∃ s2, execute_loop pid P fuel s = some (.returned FAILURE s2) ∧ s2.ptr = 65535 := by
  intro m
  induction m with
  | zero =>
    intro p s hp hpc hptr _ fuel hfuel
    obtain ⟨f, rfl⟩ : ∃ f, fuel = f + 2 := ⟨fuel - 2, by omega⟩
    rw [execute_loop_inc_at_last f (by rw [hpc]; decide) (by rw [hpc]; exact h2)
      (by rw [hptr]; omega)]
    exact ⟨_, rfl, rfl⟩
  | succ m ih =>
    intro p s hp hpc hptr hzero fuel hfuel
    obtain ⟨f, rfl⟩ : ∃ f, fuel = f + 1 + 1 + 1 := ⟨fuel - 3, by omega⟩
    have e1 : u32 (p + 1) = p + 1 := by simp only [u32]; omega
    have hs1 : step pid P s = .next { s with pc := 3, ptr := p + 1 } := by
      rw [step_inc_dp (by rw [hpc]; exact h2)]
      simp only [advance, hpc, hptr, e1]; rfl
    have hs2 : step pid P { s with pc := 3, ptr := p + 1 } =
        .next { s with pc := 4, ptr := p + 1, data := store s.data (p + 1) 1 } := by
      rw [step_inc_val (by exact h3)]
      simp only [advance, hzero (p + 1) (by omega)]; rfl
    have hs3 : step pid P { s with pc := 4, ptr := p + 1, data := store s.data (p + 1) 1 } =
        .next { s with pc := 2, ptr := p + 1, data := store s.data (p + 1) 1 } := by
      have hop : (P 4).operator = OP_JMP_BCK := by rw [h4]
      rw [step_jmp_bck (by exact hop)]
      simp only [store_same, ne_eq, one_ne_zero, not_false_eq_true, if_true, advance, h4]
      rfl
    rw [execute_loop_body (f + 1 + 1) (by rw [hpc]; decide) (by rw [hpc, h2]; decide)
        (by rw [hptr]; simp only [DATA_SIZE]; omega) hs1,
      execute_loop_body (f + 1) (show (3 : Nat) < PROGRAM_SIZE by decide)
        (by show (P 3).operator ≠ OP_END; rw [h3]; decide)
        (by show p + 1 < DATA_SIZE; simp only [DATA_SIZE]; omega) hs2,
      execute_loop_body f (show (4 : Nat) < PROGRAM_SIZE by decide)
        (by show (P 4).operator ≠ OP_END; rw [h4]; decide)
        (by show p + 1 < DATA_SIZE; simp only [DATA_SIZE]; omega) hs3]
    apply ih (p + 1) _ (by omega) rfl rfl
    · intro q hq
      show store s.data (p + 1) 1 q = 0
      rw [store_other _ _ _ _ (by omega)]
      exact hzero q (by omega)
    · omega

/-- The source `+[>+]` compiles, and the root context run on it returns
FAILURE with the data pointer at `DATA_SIZE`. -/
theorem march_off_tape (pid : Int) (input : List Nat) (fuel : Nat) (hfuel : 196606 ≤ fuel) :
    ∃ s, execute_bf fuel pid (compile_bf "+[>+]".toList).2.PROGRAM input =
      some (.returned FAILURE s) ∧ s.ptr = 65535 := by
  obtain ⟨f, rfl⟩ : ∃ f, fuel = f + 1 + 1 := ⟨fuel - 2, by omega⟩
  have h0 : ((compile_bf "+[>+]".toList).2.PROGRAM 0).operator = OP_INC_VAL := by decide
  have h1 : (compile_bf "+[>+]".toList).2.PROGRAM 1 = ⟨OP_JMP_FWD, 4⟩ := by decide
  have h2 : ((compile_bf "+[>+]".toList).2.PROGRAM 2).operator = OP_INC_DP := by decide
  have h3 : ((compile_bf "+[>+]".toList).2.PROGRAM 3).operator = OP_INC_VAL := by decide
  have h4 : (compile_bf "+[>+]".toList).2.PROGRAM 4 = ⟨OP_JMP_BCK, 1⟩ := by decide
  have hs0 : step pid (compile_bf "+[>+]".toList).2.PROGRAM
      { pc := 0, ptr := 0, isChild := false, CHILD := 0, data := fun _ => 0,
        stdin := input, stdout := [], forks := 0 } =
      .next { pc := 1, ptr := 0, isChild := false, CHILD := 0,
              data := store (fun _ => 0) 0 1, stdin := input, stdout := [], forks := 0 } := by
    rw [step_inc_val (by exact h0)]; rfl
  have hs1 : step pid (compile_bf "+[>+]".toList).2.PROGRAM
      { pc := 1, ptr := 0, isChild := false, CHILD := 0,
        data := store (fun _ => 0) 0 1, stdin := input, stdout := [], forks := 0 } =
      .next { pc := 2, ptr := 0, isChild := false, CHILD := 0,
              data := store (fun _ => 0) 0 1, stdin := input, stdout := [], forks := 0 } := by
    have hop : ((compile_bf "+[>+]".toList).2.PROGRAM 1).operator = OP_JMP_FWD := by rw [h1]
    rw [step_jmp_fwd (by exact hop)]
    simp only [store_same, one_ne_zero, if_false, advance]
    rfl
  rw [execute_bf, ExecState.init_eq,
    execute_loop_body (f + 1) (show (0 : Nat) < PROGRAM_SIZE by decide)
      (by show ((compile_bf "+[>+]".toList).2.PROGRAM 0).operator ≠ OP_END; rw [h0]; decide)
      (show (0 : Nat) < DATA_SIZE by decide) hs0,
    execute_loop_body f (show (1 : Nat) < PROGRAM_SIZE by decide)
      (by show ((compile_bf "+[>+]".toList).2.PROGRAM 1).operator ≠ OP_END; rw [h1]; decide)
      (show (0 : Nat) < DATA_SIZE by decide) hs1]
  apply march_run pid _ h2 h3 h4 65534 0 _ (by omega) rfl rfl
  · intro q hq
    show store (fun _ => (0 : Int)) 0 1 q = 0
    rw [store_other _ _ _ _ (by omega)]
  · omega

/-- On a compiled program without spawn, a run that ends does so through the
final `return`, in a state where the loop condition fails; the data pointer is
then on the tape, at `DATA_SIZE`, or wrapped to `2^32 - 1`, and it is at
`DATA_SIZE` only if the last body was an increment at the last cell. -/
theorem no_spawn_run {src : List Char} {pid : Int} (hs : (compile_bf src).1 = SUCCESS)
    (hns : '/' ∉ instructions src) (s0 : ExecState) :
    ∀ (fuel : Nat) (t : ExecState) (o : Outcome),
      Reach pid (compile_bf src).2.PROGRAM s0 t →
      t.pc ≤ (instructions src).length → t.isChild = false →
      (t.ptr < DATA_SIZE ∨ t.ptr = DATA_SIZE ∨ t.ptr = 4294967295) →
      (t.ptr = DATA_SIZE → ∃ t0, Reach pid (compile_bf src).2.PROGRAM s0 t0 ∧
        t0.ptr = 65534 ∧ ((compile_bf src).2.PROGRAM t0.pc).operator = OP_INC_DP ∧
        step pid (compile_bf src).2.PROGRAM t0 = .next t) →
      execute_loop pid (compile_bf src).2.PROGRAM fuel t = some o →
      ∃ s, o = .returned (if s.ptr = DATA_SIZE then FAILURE else SUCCESS) s ∧
        ¬ (((compile_bf src).2.PROGRAM s.pc).operator ≠ OP_END ∧ s.ptr < DATA_SIZE) ∧
        (s.ptr < DATA_SIZE ∨ s.ptr = DATA_SIZE ∨ s.ptr = 4294967295) ∧
        (s.ptr = DATA_SIZE → ∃ t0, Reach pid (compile_bf src).2.PROGRAM s0 t0 ∧
          t0.ptr = 65534 ∧ ((compile_bf src).2.PROGRAM t0.pc).operator = OP_INC_DP ∧
          step pid (compile_bf src).2.PROGRAM t0 = .next s) := by
  have hlen := (compile_bf_conditions hs).2.1
  intro fuel
  induction fuel with
  | zero => intro t o _ _ _ _ _ hrun; simp [execute_loop] at hrun
  | succ fuel ih =>
    intro t o hreach hle hroot hrange hlast hrun
    have hpc : t.pc < PROGRAM_SIZE := by simp only [PROGRAM_SIZE]; omega
    by_cases hcond : ((compile_bf src).2.PROGRAM t.pc).operator ≠ OP_END ∧ t.ptr < DATA_SIZE
    · have hlt : t.pc < (instructions src).length := by
        rcases compiled_operator_defined hs hle with ⟨_, h0⟩ | ⟨h, _⟩
        · exact absurd h0 hcond.1
        · exact h
      obtain ⟨u, hstep, hule, huroot⟩ := @compiled_step_next src pid t hs hlt hroot
        (fun h => absurd (List.getElem?_mem h) hns)
      rw [execute_loop_body fuel hpc hcond.1 hcond.2 hstep] at hrun
      refine ih u o (Reach.body hreach hpc hcond.1 hcond.2 hstep) hule huroot ?_ ?_ hrun
      · rcases step_next_ptr_range hstep hcond.2 with h | h | ⟨h, _⟩
        · exact Or.inl h
        · exact Or.inr (Or.inl h)
        · exact Or.inr (Or.inr h)
      · intro hu
        obtain ⟨hop, hp⟩ := (step_next_ptr hstep hcond.2).mp hu
        exact ⟨t, hreach, hp, hop, hstep⟩
    · have h1 : ¬ PROGRAM_SIZE ≤ t.pc := by omega
      simp only [execute_loop, h1, if_false, hcond, Option.some.injEq] at hrun
      refine ⟨t, ?_, hcond, hrange, hlast⟩
      rw [← hrun]
      by_cases hp : t.ptr = DATA_SIZE <;> simp [hp]

/-- C18: on a successfully compiled program without spawn instruction, a
root run that stops always stops at the final `return`, and returns FAILURE if
and only if the final data pointer is 65535 (`DATA_SIZE`); that is the case
exactly when the last body run was an increment of the pointer at cell 65534.
Otherwise it returns SUCCESS: either the end marker was reached with the
pointer on the tape, or the pointer is `2^32 - 1` after a decrement at cell 0.
The source `+[>+]` returns FAILURE, `<` returns SUCCESS with the wrapped
pointer, and `.` returns SUCCESS at the end marker. -/
theorem no_spawn_run_status :
    (∀ (src : List Char) (pid : Int) (input : List Nat) (fuel : Nat) (o : Outcome),
      (compile_bf src).1 = SUCCESS → '/' ∉ instructions src →
      execute_bf fuel pid (compile_bf src).2.PROGRAM input = some o →
      ∃ s, o = .returned (if s.ptr = DATA_SIZE then FAILURE else SUCCESS) s ∧
        (s.ptr = DATA_SIZE ↔
          ∃ t, Reach pid (compile_bf src).2.PROGRAM (ExecState.init input) t ∧
            t.ptr = 65534 ∧ ((compile_bf src).2.PROGRAM t.pc).operator = OP_INC_DP ∧
            step pid (compile_bf src).2.PROGRAM t = .next s) ∧
        (s.ptr ≠ DATA_SIZE →
          (((compile_bf src).2.PROGRAM s.pc).operator = OP_END ∧ s.ptr < DATA_SIZE) ∨
          s.ptr = 4294967295)) ∧
    ((compile_bf "+[>+]".toList).1 = SUCCESS ∧ '/' ∉ instructions "+[>+]".toList ∧
      ∀ (pid : Int) (input : List Nat) (fuel : Nat), 196606 ≤ fuel →
        ∃ s, execute_bf fuel pid (compile_bf "+[>+]".toList).2.PROGRAM input =
          some (.returned FAILURE s) ∧ s.ptr = 65535) ∧
    ((compile_bf "<".toList).1 = SUCCESS ∧ '/' ∉ instructions "<".toList ∧
      ∀ (pid : Int) (input : List Nat),
        ∃ s, execute_bf 2 pid (compile_bf "<".toList).2.PROGRAM input =
          some (.returned SUCCESS s) ∧ s.ptr = 4294967295) ∧
    ((compile_bf ".".toList).1 = SUCCESS ∧ '/' ∉ instructions ".".toList ∧
      ∀ (pid : Int) (input : List Nat),
        ∃ s, execute_bf 2 pid (compile_bf ".".toList).2.PROGRAM input =
          some (.returned SUCCESS s) ∧ s.ptr = 0) := by
  refine ⟨?_, ⟨by decide, by decide, ?_⟩, ⟨by decide, by decide, ?_⟩,
    ⟨by decide, by decide, ?_⟩⟩
  · intro src pid input fuel o hs hns hrun
    obtain ⟨s, ho, hcond, hrange, hlast⟩ := no_spawn_run hs hns (ExecState.init input) fuel
      (ExecState.init input) o Reach.start (by rw [ExecState.init_eq]; exact Nat.zero_le _)
      (by rw [ExecState.init_eq])
      (by rw [ExecState.init_eq]; exact Or.inl (show (0 : Nat) < DATA_SIZE by decide))
      (by rw [ExecState.init_eq]; intro h
          exact absurd h (show ¬ (0 : Nat) = DATA_SIZE by decide)) hrun
    refine ⟨s, ho, ⟨hlast, ?_⟩, ?_⟩
    · rintro ⟨t, _, hp, hop, hstep⟩
      exact (step_next_ptr hstep (by rw [hp]; decide)).mpr ⟨hop, hp⟩
    · intro hne
      rcases hrange with h | h | h
      · left
        refine ⟨?_, h⟩
        by_contra hop
        exact hcond ⟨hop, h⟩
      · exact absurd h hne
      · exact Or.inr h
  · intro pid input fuel hfuel
    exact march_off_tape pid input fuel hfuel
  · intro pid input
    have hop : ((compile_bf "<".toList).2.PROGRAM 0).operator = OP_DEC_DP := by decide
    rw [execute_bf, ExecState.init_eq,
      execute_loop_dec_at_zero 0 (show (0 : Nat) + 1 < PROGRAM_SIZE by decide) hop rfl]
    exact ⟨_, rfl, rfl⟩
  · intro pid input
    obtain ⟨s, h1, _, h3⟩ := plus_dot_execute 0 (by decide) pid input 2 (by decide)
    exact ⟨s, h1, h3⟩

theorem no_spawn_run_status_witness :
    ((compile_bf "<".toList).1 = SUCCESS ∧ '/' ∉ instructions "<".toList ∧
      execute_loop 1 (compile_bf "<".toList).2.PROGRAM 2 (ExecState.init []) =
        some (.returned SUCCESS
          { pc := 1, ptr := 4294967295, isChild := false, CHILD := 0, data := fun _ => 0,
            stdin := [], stdout := [], forks := 0 })) ∧
    ∃ s, Outcome.returned SUCCESS
          { pc := 1, ptr := 4294967295, isChild := false, CHILD := 0, data := fun _ => 0,
            stdin := [], stdout := [], forks := 0 } =
        .returned (if s.ptr = DATA_SIZE then FAILURE else SUCCESS) s ∧
      (s.ptr = DATA_SIZE ↔
        ∃ t, Reach 1 (compile_bf "<".toList).2.PROGRAM (ExecState.init []) t ∧
          t.ptr = 65534 ∧ ((compile_bf "<".toList).2.PROGRAM t.pc).operator = OP_INC_DP ∧
          step 1 (compile_bf "<".toList).2.PROGRAM t = .next s) ∧
      (s.ptr ≠ DATA_SIZE →
        (((compile_bf "<".toList).2.PROGRAM s.pc).operator = OP_END ∧ s.ptr < DATA_SIZE) ∨
        s.ptr = 4294967295) :=
  have hrun : execute_loop 1 (compile_bf "<".toList).2.PROGRAM 2 (ExecState.init []) =
      some (.returned SUCCESS
        { pc := 1, ptr := 4294967295, isChild := false, CHILD := 0, data := fun _ => 0,
          stdin := [], stdout := [], forks := 0 }) := by
    rw [ExecState.init_eq,
      execute_loop_dec_at_zero 0 (show (0 : Nat) + 1 < PROGRAM_SIZE by decide)
        (show ((compile_bf "<".toList).2.PROGRAM 0).operator = OP_DEC_DP by decide) rfl]
  ⟨⟨by decide, by decide, hrun⟩,
    no_spawn_run_status.1 "<".toList 1 [] 2 _ (by decide) (by decide) hrun⟩

/-! ## A spawn close to the end of the program array -/

/-- The source made of `k` times `#` followed by `/`. -/
theorem noops_spawn_facts (k : Nat) (hk : k ≤ 4094) :
    (compile_bf (List.replicate k '#' ++ ['/'])).1 = SUCCESS ∧
    instructions (List.replicate k '#' ++ ['/']) = List.replicate k '#' ++ ['/'] ∧
    (instructions (List.replicate k '#' ++ ['/']))[k]? = some '/' ∧
    (∀ i, i < k →
      ((compile_bf (List.replicate k '#' ++ ['/'])).2.PROGRAM i).operator = OP_NOOP) ∧
    ((compile_bf (List.replicate k '#' ++ ['/'])).2.PROGRAM k).operator = OP_THREAD := by
  have hmem : ∀ c ∈ List.replicate k '#' ++ ['/'], c = '#' ∨ c = '/' := by
    intro c hc
    simp only [List.mem_append, List.mem_replicate, List.mem_singleton] at hc
    rcases hc with ⟨_, h⟩ | h
    · exact Or.inl h
    · exact Or.inr h
  have hins : ∀ c ∈ List.replicate k '#' ++ ['/'], c ∈ instruction_chars := by
    intro c hc
    rcases hmem c hc with rfl | rfl <;> decide
  have h1 : '[' ∉ List.replicate k '#' ++ ['/'] := by
    intro hc
    rcases hmem _ hc with h | h <;> exact absurd h (by decide)
  have h2 : ']' ∉ List.replicate k '#' ++ ['/'] := by
    intro hc
    rcases hmem _ hc with h | h <;> exact absurd h (by decide)
  have hlen : (List.replicate k '#' ++ ['/']).length = k + 1 := by
    simp only [List.length_append, List.length_replicate, List.length_singleton]
  have hs := compile_bf_no_brackets hins h1 h2 (by omega)
  have hself := instructions_eq_self hins
  have hlast : (instructions (List.replicate k '#' ++ ['/']))[k]? = some '/' := by
    rw [hself, List.getElem?_append_right (by simp)]
    simp
  refine ⟨hs, hself, hlast, ?_, ?_⟩
  · intro i hi
    have hc : (instructions (List.replicate k '#' ++ ['/']))[i]? = some '#' := by
      rw [hself, List.getElem?_append_left (by simpa using hi)]
      simp [List.getElem?_replicate, hi]
    rw [compile_bf_slot_operator hs hc]; rfl
  · rw [compile_bf_slot_operator hs hlast]; rfl

/-- A run of no-op instructions only advances the program counter. -/
theorem noop_run (pid : Int) (P : Nat → instruction_t) (n : Nat) (hn : n ≤ 4095)
    (hops : ∀ i, i < n → (P i).operator = OP_NOOP) :
    ∀ (m j : Nat) (s : ExecState), j + m ≤ n → s.pc = j → s.ptr < DATA_SIZE → ∀ fuel,
      execute_loop pid P (fuel + m) s = execute_loop pid P fuel { s with pc := j + m } := by
  intro m
  induction m with
  | zero =>
    intro j s _ hpc _ fuel
    have : ({ s with pc := j + 0 } : ExecState) = s := by
      cases s
      simp only at hpc
      simp [hpc]
    rw [this]; rfl
  | succ m ih =>
    intro j s hjn hpc hptr fuel
    have hop : (P s.pc).operator = OP_NOOP := by rw [hpc]; exact hops j (by omega)
    have hstep := @step_noop pid P s hop
    simp only [advance] at hstep
    have e1 : u16 (s.pc + 1) = j + 1 := by rw [hpc]; simp only [u16]; omega
    rw [e1] at hstep
    have hfuel : fuel + (m + 1) = (fuel + m) + 1 := by omega
    rw [hfuel, execute_loop_body (fuel + m) (by rw [hpc]; simp only [PROGRAM_SIZE]; omega)
      (by rw [hop]; decide) hptr hstep]
    have key := ih (j + 1) { s with pc := j + 1 } (by omega) rfl hptr fuel
    have e3 : j + 1 + m = j + (m + 1) := by omega
    rw [e3] at key
    exact key

/-- A spawn at an index `k` from 4075 on, reached by the root through `k`
no-ops: the new process continues at `k + 21`, outside the program array, and
its next instruction fetch is out of bounds. -/
theorem late_spawn (k : Nat) (hk1 : 4075 ≤ k) (hk2 : k ≤ 4094) (input : List Nat) :
    (∀ (pid : Int) (fuel : Nat),
      execute_bf (fuel + k) pid (compile_bf (List.replicate k '#' ++ ['/'])).2.PROGRAM input =
        execute_loop pid (compile_bf (List.replicate k '#' ++ ['/'])).2.PROGRAM fuel
          { pc := k, ptr := 0, isChild := false, CHILD := 0, data := fun _ => 0,
            stdin := input, stdout := [], forks := 0 }) ∧
    step 0 (compile_bf (List.replicate k '#' ++ ['/'])).2.PROGRAM
        { pc := k, ptr := 0, isChild := false, CHILD := 0, data := fun _ => 0,
          stdin := input, stdout := [], forks := 0 } =
      .next { pc := k + 21, ptr := 0, isChild := true, CHILD := 0, data := fun _ => 0,
              stdin := input, stdout := [], forks := 0 } ∧
    (∀ (pid : Int) (fuel : Nat),
      execute_loop pid (compile_bf (List.replicate k '#' ++ ['/'])).2.PROGRAM (fuel + 1)
          { pc := k + 21, ptr := 0, isChild := true, CHILD := 0, data := fun _ => 0,
            stdin := input, stdout := [], forks := 0 } =
        some (.fault { pc := k + 21, ptr := 0, isChild := true, CHILD := 0,
                       data := fun _ => 0, stdin := input, stdout := [], forks := 0 })) := by
  obtain ⟨_, _, _, hnoop, hthr⟩ := noops_spawn_facts k hk2
  refine ⟨?_, ?_, ?_⟩
  · intro pid fuel
    rw [execute_bf, ExecState.init_eq]
    have key := noop_run pid _ k (by omega) hnoop k 0
      { pc := 0, ptr := 0, isChild := false, CHILD := 0, data := fun _ => 0,
        stdin := input, stdout := [], forks := 0 } (by omega) rfl
      (show (0 : Nat) < DATA_SIZE by decide) fuel
    rw [key]
    simp only [Nat.zero_add]
  · exact step_thread_child (by show k < PROGRAM_SIZE; simp only [PROGRAM_SIZE]; omega)
      (by exact hthr) (show (0 : Nat) < CHILDREN_SIZE by decide)
  · intro pid fuel
    have h : PROGRAM_SIZE ≤ k + 21 := by simp only [PROGRAM_SIZE]; omega
    simp only [execute_loop, h, if_true]

/-- The whole run of the process created by a spawn at index `k` from 4075
on: it ends in an instruction fetch outside the program array. -/
theorem late_spawn_run (k : Nat) (hk1 : 4075 ≤ k) (hk2 : k ≤ 4094) (input : List Nat)
    (fuel : Nat) (hfuel : k + 2 ≤ fuel) :
    execute_bf fuel 0 (compile_bf (List.replicate k '#' ++ ['/'])).2.PROGRAM input =
      some (.fault { pc := k + 21, ptr := 0, isChild := true, CHILD := 0,
                     data := fun _ => 0, stdin := input, stdout := [], forks := 0 }) := by
  obtain ⟨_, _, _, _, hthr⟩ := noops_spawn_facts k hk2
  obtain ⟨h1, h2, h3⟩ := late_spawn k hk1 hk2 input
  obtain ⟨f, rfl⟩ : ∃ f, fuel = (f + 1 + 1) + k := ⟨fuel - (k + 2), by omega⟩
  have hne : ((compile_bf (List.replicate k '#' ++ ['/'])).2.PROGRAM k).operator ≠ OP_END := by
    rw [hthr]; decide
  rw [h1 0 (f + 1 + 1),
    execute_loop_body (f + 1) (by show k < PROGRAM_SIZE; simp only [PROGRAM_SIZE]; omega)
      hne (show (0 : Nat) < DATA_SIZE by decide) h2]
  exact h3 0 f

/-- C20, the failing input: the source of 4075 `#` followed by `/` compiles and
has its spawn at index 4075; 4075 + 21 is not below `PROGRAM_SIZE`; the root
reaches the spawn, and the process the spawn creates (the run in which
`fork()` returns 0) fetches its next instruction at index 4096, outside
`PROGRAM`. -/
theorem child_fetch_outside_program :
    (compile_bf (List.replicate 4075 '#' ++ ['/'])).1 = SUCCESS ∧
    (instructions (List.replicate 4075 '#' ++ ['/']))[4075]? = some '/' ∧
    ¬ (4075 + 21 < PROGRAM_SIZE) ∧
    ∀ (input : List Nat) (fuel : Nat), 4077 ≤ fuel →
      execute_bf fuel 0 (compile_bf (List.replicate 4075 '#' ++ ['/'])).2.PROGRAM input =
        some (.fault { pc := 4096, ptr := 0, isChild := true, CHILD := 0,
                       data := fun _ => 0, stdin := input, stdout := [], forks := 0 }) :=
  ⟨(noops_spawn_facts 4075 (by omega)).1, (noops_spawn_facts 4075 (by omega)).2.2.1,
    by decide,
    fun input fuel hfuel => late_spawn_run 4075 (le_refl _) (by omega) input fuel hfuel⟩

/-! ## Tape accesses stay on the tape -/

theorem patch_same (d2 d : Nat → Int) (p : Nat) (h : d2 p = d p) : patch d2 d p = d2 := by
  funext k
  by_cases hk : k = p
  · subst hk; simp [patch, h]
  · simp [patch, hk]

theorem patch_store (d2 d : Nat → Int) (p : Nat) (v : Int) :
    patch d2 (store d p v) p = store d2 p v := by
  funext k
  by_cases hk : k = p
  · subst hk; simp [patch, store]
  · simp [patch, store, hk]

/-- A loop body reads no cell but the current one: on a tape that agrees with
the given one at the current cell, it ends the same way, and the tapes it
leaves differ as before outside the current cell. -/
theorem step_data_indep (pid : Int) (P : Nat → instruction_t) (t : ExecState)
    (d2 : Nat → Int) (hd : d2 t.ptr = t.data t.ptr) :
    (∀ u, step pid P t = .next u →
      step pid P { t with data := d2 } = .next { u with data := patch d2 u.data t.ptr }) ∧
    (∀ r v, step pid P t = .returned r v →
      step pid P { t with data := d2 } = .returned r { v with data := d2 } ∧
        v.data = t.data) ∧
    (∀ v, step pid P t = .exited v →
      step pid P { t with data := d2 } = .exited { v with data := d2 } ∧ v.data = t.data) := by
  have hsame := patch_same d2 t.data t.ptr hd
  rcases step_cases pid P t with ⟨h, e⟩ | ⟨h, e⟩ | ⟨h, e⟩ | ⟨h, e⟩ | ⟨h, e⟩ | ⟨h, e⟩ |
    ⟨h, e⟩ | ⟨h, e⟩ | ⟨h, hc, e⟩ | ⟨h, hc, hz, e⟩ | ⟨h, hc, hz, e⟩ | ⟨h, hc, e⟩ | ⟨h, hc, e⟩ |
    ⟨h | h, e⟩ | ⟨h, e⟩
  · refine ⟨?_, by intro r v hv; rw [e] at hv; exact StepResult.noConfusion hv,
      by intro v hv; rw [e] at hv; exact StepResult.noConfusion hv⟩
    intro u hu
    rw [e] at hu
    simp only [StepResult.next.injEq] at hu
    subst hu
    rw [@step_inc_dp pid P { t with data := d2 } h]
    simp only [advance, hsame]
  · refine ⟨?_, by intro r v hv; rw [e] at hv; exact StepResult.noConfusion hv,
      by intro v hv; rw [e] at hv; exact StepResult.noConfusion hv⟩
    intro u hu
    rw [e] at hu
    simp only [StepResult.next.injEq] at hu
    subst hu
    rw [@step_dec_dp pid P { t with data := d2 } h]
    simp only [advance, hsame]
  · refine ⟨?_, by intro r v hv; rw [e] at hv; exact StepResult.noConfusion hv,
      by intro v hv; rw [e] at hv; exact StepResult.noConfusion hv⟩
    intro u hu
    rw [e] at hu
    simp only [StepResult.next.injEq] at hu
    subst hu
    rw [@step_inc_val pid P { t with data := d2 } h]
    simp only [advance, hd, patch_store]
  · refine ⟨?_, by intro r v hv; rw [e] at hv; exact StepResult.noConfusion hv,
      by intro v hv; rw [e] at hv; exact StepResult.noConfusion hv⟩
    intro u hu
    rw [e] at hu
    simp only [StepResult.next.injEq] at hu
    subst hu
    rw [@step_dec_val pid P { t with data := d2 } h]
    simp only [advance, hd, patch_store]
  · refine ⟨?_, by intro r v hv; rw [e] at hv; exact StepResult.noConfusion hv,
      by intro v hv; rw [e] at hv; exact StepResult.noConfusion hv⟩
    intro u hu
    rw [e] at hu
    simp only [StepResult.next.injEq] at hu
    subst hu
    rw [@step_out pid P { t with data := d2 } h]
    simp only [advance, hd, hsame]
  · refine ⟨?_, by intro r v hv; rw [e] at hv; exact StepResult.noConfusion hv,
      by intro v hv; rw [e] at hv; exact StepResult.noConfusion hv⟩
    intro u hu
    rw [e] at hu
    simp only [StepResult.next.injEq] at hu
    subst hu
    rw [@step_in pid P { t with data := d2 } h]
    simp only [advance, patch_store]
  · refine ⟨?_, by intro r v hv; rw [e] at hv; exact StepResult.noConfusion hv,
      by intro v hv; rw [e] at hv; exact StepResult.noConfusion hv⟩
    intro u hu
    rw [e] at hu
    simp only [StepResult.next.injEq] at hu
    subst hu
    rw [@step_jmp_fwd pid P { t with data := d2 } h]
    simp only [advance, hd, hsame]
    split_ifs <;> rfl
  · refine ⟨?_, by intro r v hv; rw [e] at hv; exact StepResult.noConfusion hv,
      by intro v hv; rw [e] at hv; exact StepResult.noConfusion hv⟩
    intro u hu
    rw [e] at hu
    simp only [StepResult.next.injEq] at hu
    subst hu
    rw [@step_jmp_bck pid P { t with data := d2 } h]
    simp only [advance, hd, hsame]
    split_ifs <;> rfl
  · refine ⟨by intro u hu; rw [e] at hu; exact StepResult.noConfusion hu, ?_,
      by intro v hv; rw [e] at hv; exact StepResult.noConfusion hv⟩
    intro r v hv
    rw [e] at hv
    simp only [StepResult.returned.injEq] at hv
    obtain ⟨hr, hv⟩ := hv
    subst hr; subst hv
    refine ⟨?_, rfl⟩
    rw [@step_thread pid P { t with data := d2 } h, if_pos hc]
  · refine ⟨?_, by intro r v hv; rw [e] at hv; exact StepResult.noConfusion hv,
      by intro v hv; rw [e] at hv; exact StepResult.noConfusion hv⟩
    intro u hu
    rw [e] at hu
    simp only [StepResult.next.injEq] at hu
    subst hu
    rw [@step_thread pid P { t with data := d2 } h]
    rw [if_neg (show ¬ CHILDREN_SIZE ≤ t.CHILD by omega), if_pos hz]
    simp only [advance, hsame]
  · refine ⟨?_, by intro r v hv; rw [e] at hv; exact StepResult.noConfusion hv,
      by intro v hv; rw [e] at hv; exact StepResult.noConfusion hv⟩
    intro u hu
    rw [e] at hu
    simp only [StepResult.next.injEq] at hu
    subst hu
    rw [@step_thread pid P { t with data := d2 } h]
    rw [if_neg (show ¬ CHILDREN_SIZE ≤ t.CHILD by omega), if_neg hz]
    simp only [advance, hsame]
  · refine ⟨by intro u hu; rw [e] at hu; exact StepResult.noConfusion hu,
      by intro r v hv; rw [e] at hv; exact StepResult.noConfusion hv, ?_⟩
    intro v hv
    rw [e] at hv
    simp only [StepResult.exited.injEq] at hv
    subst hv
    refine ⟨?_, rfl⟩
    rw [@step_child_die pid P { t with data := d2 } h, if_pos hc]
  · refine ⟨?_, by intro r v hv; rw [e] at hv; exact StepResult.noConfusion hv,
      by intro v hv; rw [e] at hv; exact StepResult.noConfusion hv⟩
    intro u hu
    rw [e] at hu
    simp only [StepResult.next.injEq] at hu
    subst hu
    rw [@step_child_die pid P { t with data := d2 } h]
    rw [if_neg (show ¬ t.isChild = true by rw [hc]; decide)]
    simp only [advance, hsame]
  · refine ⟨?_, by intro r v hv; rw [e] at hv; exact StepResult.noConfusion hv,
      by intro v hv; rw [e] at hv; exact StepResult.noConfusion hv⟩
    intro u hu
    rw [e] at hu
    simp only [StepResult.next.injEq] at hu
    subst hu
    rw [@step_wait pid P { t with data := d2 } h]
    simp only [advance, hsame]
  · refine ⟨?_, by intro r v hv; rw [e] at hv; exact StepResult.noConfusion hv,
      by intro v hv; rw [e] at hv; exact StepResult.noConfusion hv⟩
    intro u hu
    rw [e] at hu
    simp only [StepResult.next.injEq] at hu
    subst hu
    rw [@step_noop pid P { t with data := d2 } h]
    simp only [advance, hsame]
  · refine ⟨by intro u hu; rw [e] at hu; exact StepResult.noConfusion hu, ?_,
      by intro v hv; rw [e] at hv; exact StepResult.noConfusion hv⟩
    intro r v hv
    rw [e] at hv
    simp only [StepResult.returned.injEq] at hv
    obtain ⟨hr, hv⟩ := hv
    subst hr; subst hv
    refine ⟨?_, rfl⟩
    have hx : ∀ x, 1 ≤ x → x ≤ 12 → (P t.pc).operator ≠ x := by
      intro x h1 h2
      simp only [OP_END] at h
      omega
    exact @step_unknown pid P { t with data := d2 }
      (hx _ (by decide) (by decide)) (hx _ (by decide) (by decide))
      (hx _ (by decide) (by decide)) (hx _ (by decide) (by decide))
      (hx _ (by decide) (by decide)) (hx _ (by decide) (by decide))
      (hx _ (by decide) (by decide)) (hx _ (by decide) (by decide))
      (hx _ (by decide) (by decide)) (hx _ (by decide) (by decide))
      (hx _ (by decide) (by decide)) (hx _ (by decide) (by decide))

/-- A run neither reads nor writes a cell outside `0..DATA_SIZE - 1`: started
on a tape that agrees with the given one on those cells, it ends the same way;
the two final tapes agree on those cells, and the cells outside keep the
values they started with. -/
theorem execute_loop_data_indep (pid : Int) (P : Nat → instruction_t) :
    ∀ (fuel : Nat) (t : ExecState) (d2 : Nat → Int) (o : Outcome),
      (∀ k, k < DATA_SIZE → d2 k = t.data k) → execute_loop pid P fuel t = some o →
      ∃ d3, execute_loop pid P fuel { t with data := d2 } = some (o.with_data d3) ∧
        (∀ k, k < DATA_SIZE → d3 k = o.state.data k) ∧
        (∀ k, DATA_SIZE ≤ k → d3 k = d2 k) := by
  intro fuel
  induction fuel with
  | zero => intro t d2 o _ hrun; simp [execute_loop] at hrun
  | succ fuel ih =>
    intro t d2 o hag hrun
    by_cases hsz : PROGRAM_SIZE ≤ t.pc
    · simp only [execute_loop, hsz, if_true, Option.some.injEq] at hrun
      subst hrun
      refine ⟨d2, ?_, hag, fun _ _ => rfl⟩
      simp only [execute_loop, hsz, if_true, Outcome.with_data]
    · have hpc : t.pc < PROGRAM_SIZE := by omega
      by_cases hcond : (P t.pc).operator ≠ OP_END ∧ t.ptr < DATA_SIZE
      · obtain ⟨hnext, hret, hexit⟩ := step_data_indep pid P t d2 (hag _ hcond.2)
        cases hstep : step pid P t with
        | next u =>
          rw [execute_loop_body fuel hpc hcond.1 hcond.2 hstep] at hrun
          have hag2 : ∀ k, k < DATA_SIZE → patch d2 u.data t.ptr k = u.data k := by
            intro k hk
            by_cases hkp : k = t.ptr
            · simp [patch, hkp]
            · simp only [patch, hkp, if_false]
              rw [hag k hk, step_next_data hstep k hkp]
          obtain ⟨d3, h1, h2, h3⟩ := ih u (patch d2 u.data t.ptr) o hag2 hrun
          refine ⟨d3, ?_, h2, ?_⟩
          · rw [@execute_loop_body pid P { t with data := d2 } _ fuel hpc hcond.1 hcond.2
              (hnext u hstep)]
            exact h1
          · intro k hk
            rw [h3 k hk]
            have hkp : k ≠ t.ptr := by omega
            simp only [patch, hkp, if_false]
        | returned r v =>
          rw [execute_loop_returned fuel hpc hcond.1 hcond.2 hstep] at hrun
          simp only [Option.some.injEq] at hrun
          subst hrun
          obtain ⟨h1, h2⟩ := hret r v hstep
          refine ⟨d2, ?_, ?_, fun _ _ => rfl⟩
          · rw [@execute_loop_returned pid P { t with data := d2 } _ r fuel hpc hcond.1
              hcond.2 h1]
            rfl
          · intro k hk
            show d2 k = v.data k
            rw [h2]; exact hag k hk
        | exited v =>
          rw [execute_loop_exited fuel hpc hcond.1 hcond.2 hstep] at hrun
          simp only [Option.some.injEq] at hrun
          subst hrun
          obtain ⟨h1, h2⟩ := hexit v hstep
          refine ⟨d2, ?_, ?_, fun _ _ => rfl⟩
          · rw [@execute_loop_exited pid P { t with data := d2 } _ fuel hpc hcond.1
              hcond.2 h1]
            rfl
          · intro k hk
            show d2 k = v.data k
            rw [h2]; exact hag k hk
      · have h1 : ¬ PROGRAM_SIZE ≤ t.pc := hsz
        simp only [execute_loop, h1, if_false, hcond, Option.some.injEq] at hrun
        subst hrun
        refine ⟨d2, ?_, hag, fun _ _ => rfl⟩
        have hcond2 : ¬ ((P ({ t with data := d2 } : ExecState).pc).operator ≠ OP_END ∧
            ({ t with data := d2 } : ExecState).ptr < DATA_SIZE) := hcond
        simp only [execute_loop, h1, if_false, hcond2, Outcome.with_data]

/-- With the data pointer off the tape a process runs no further body: only
other processes can still change what it sees. -/
theorem reach_off_tape {pid : Int} {P : Nat → instruction_t} {s t : ExecState}
    (hoff : ¬ s.ptr < DATA_SIZE) (hr : Reach pid P s t) :
    t.pc = s.pc ∧ t.ptr = s.ptr ∧ t.stdout = s.stdout ∧ t.forks = s.forks ∧
      t.CHILD = s.CHILD ∧ t.isChild = s.isChild := by
  induction hr with
  | start => exact ⟨rfl, rfl, rfl, rfl, rfl, rfl⟩
  | body _ _ _ hptr _ ih =>
    rw [ih.2.1] at hptr
    exact absurd hptr hoff
  | interfere _ _ _ ih => exact ih

theorem step_thread_ptr {pid : Int} {P : Nat → instruction_t} {t u : ExecState}
    (hstep : step pid P t = .next u) (hop : (P t.pc).operator = OP_THREAD) :
    u.ptr = t.ptr ∧ u.data = t.data := by
  rw [step_thread hop] at hstep
  split_ifs at hstep <;>
    (simp only [advance, StepResult.next.injEq] at hstep
     subst hstep
     exact ⟨rfl, rfl⟩)

/-- C19: in every execution context and for every program, tape cells are
read and written only at data pointer values 0..65534. The dispatch loop is
entered with the pointer at 0, and a spawned context starts with the pointer
of its caller; a loop body writes no cell but the current one and reads no
cell but the current one; a body runs only while the pointer is below
`DATA_SIZE`, so once the pointer is off the tape the process dispatches
nothing more; and a whole run neither reads nor writes a cell outside
0..65534: on a tape that differs only there it ends the same way and leaves
those cells as they were. -/
theorem tape_access_in_range :
    (∀ input : List Nat, (ExecState.init input).ptr = 0) ∧
    (∀ (pid : Int) (P : Nat → instruction_t) (t u : ExecState),
      step pid P t = .next u → (P t.pc).operator = OP_THREAD →
      u.ptr = t.ptr ∧ u.data = t.data) ∧
    (∀ (pid : Int) (P : Nat → instruction_t) (t u : ExecState) (k : Nat),
      step pid P t = .next u → k ≠ t.ptr → u.data k = t.data k) ∧
    (∀ (pid : Int) (P : Nat → instruction_t) (t u : ExecState) (d2 : Nat → Int),
      d2 t.ptr = t.data t.ptr → step pid P t = .next u →
      step pid P { t with data := d2 } = .next { u with data := patch d2 u.data t.ptr }) ∧
    (∀ (pid : Int) (P : Nat → instruction_t) (fuel : Nat) (t : ExecState),
      t.pc < PROGRAM_SIZE → ¬ t.ptr < DATA_SIZE →
      execute_loop pid P (fuel + 1) t =
        some (.returned (if t.ptr ≠ DATA_SIZE then SUCCESS else FAILURE) t)) ∧
    (∀ (pid : Int) (P : Nat → instruction_t) (s t : ExecState),
      ¬ s.ptr < DATA_SIZE → Reach pid P s t →
      t.pc = s.pc ∧ t.ptr = s.ptr ∧ t.stdout = s.stdout ∧ t.forks = s.forks) ∧
    (∀ (pid : Int) (P : Nat → instruction_t) (fuel : Nat) (t : ExecState) (d2 : Nat → Int)
      (o : Outcome),
      (∀ k, k < DATA_SIZE → d2 k = t.data k) → execute_loop pid P fuel t = some o →
      ∃ d3, execute_loop pid P fuel { t with data := d2 } = some (o.with_data d3) ∧
        (∀ k, k < DATA_SIZE → d3 k = o.state.data k) ∧
        (∀ k, DATA_SIZE ≤ k → d3 k = d2 k)) := by
  refine ⟨?_, ?_, ?_, ?_, ?_, ?_, ?_⟩
  · intro input; rw [ExecState.init_eq]
  · intro pid P t u hstep hop
    exact step_thread_ptr hstep hop
  · intro pid P t u k hstep hk
    exact step_next_data hstep k hk
  · intro pid P t u d2 hd hstep
    exact (step_data_indep pid P t d2 hd).1 u hstep
  · intro pid P fuel t hpc hoff
    exact execute_loop_range fuel hpc hoff
  · intro pid P s t hoff hr
    obtain ⟨h1, h2, h3, h4, _, _⟩ := reach_off_tape hoff hr
    exact ⟨h1, h2, h3, h4⟩
  · intro pid P fuel t d2 o hag hrun
    exact execute_loop_data_indep pid P fuel t d2 o hag hrun

theorem tape_access_in_range_witness :
    (step 1 (compile_bf "+".toList).2.PROGRAM
        { pc := 0, ptr := 0, isChild := false, CHILD := 0, data := fun _ => 0,
          stdin := [], stdout := [], forks := 0 } =
      .next { pc := 1, ptr := 0, isChild := false, CHILD := 0,
              data := store (fun _ => 0) 0 1, stdin := [], stdout := [], forks := 0 } ∧
      (1 : Nat) ≠ 0) ∧
    store (fun _ => (0 : Int)) 0 1 1 = 0 :=
  have hstep : step 1 (compile_bf "+".toList).2.PROGRAM
      { pc := 0, ptr := 0, isChild := false, CHILD := 0, data := fun _ => 0,
        stdin := [], stdout := [], forks := 0 } =
      .next { pc := 1, ptr := 0, isChild := false, CHILD := 0,
              data := store (fun _ => 0) 0 1, stdin := [], stdout := [], forks := 0 } := by
    rw [step_inc_val (show ((compile_bf "+".toList).2.PROGRAM 0).operator = OP_INC_VAL
      by decide)]
    rfl
  ⟨⟨hstep, by decide⟩,
    tape_access_in_range.2.2.1 1 (compile_bf "+".toList).2.PROGRAM _ _ 1 hstep (by decide)⟩

end BfMulti
